import Mathlib

/-!
# Poster generator: palette extraction and text fitting

A shallow embedding of the numeric core of `src/script.js`:

* `extractColorPalette` / `kMeansClustering` / `colorDistance` / `rgbToHex`
  (script.js 2565-2666),
* `fitTextToContainer` / `fitTextToLine` (script.js 111-226),
* `getContrastColor` / `getColorLightness` / `sortPaletteByLightness`
  (script.js 2717-2739),
* `calculateTrackListFontSize` (script.js 1751-1767), `updateTrackListScale`
  (script.js 2294-2349) and the shrink loop of `adjustTracksListFontSize`
  (script.js 2388-2441).

Conventions.

* Colour channels, counts and indices are natural numbers.  JavaScript numbers
  that may be negative (font sizes, widths) are integers.  A double holds every
  integer of magnitude up to `2 ^ 53` exactly, so the integer model of the text
  fitting (`fitTextToLineSize`) is the code as long as the sizes stay in that
  range; `fitTextToLineDouble` is the same search on doubles, where a size may
  grow to `Infinity`, and `fitTextToLineDouble_eq` relates the two.
* A JavaScript `TypeError` is the result `none` of an `Option`.
* `Math.random` is a parameter: `rand i` is the outcome of the `i`-th draw.
* The DOM measurement `tempSpan.offsetWidth` after
  `tempSpan.style.fontSize = s + 'px'` is a parameter `width s`.
* Loops whose exit depends on the measurements take a `fuel` bound on the
  number of times their body may run; `none` then means "still running".
* The luminance of a colour is computed in doubles: `roundDouble` is the
  rounding of IEEE 754 binary64 (to nearest, ties to even) on the rationals,
  and `jsMul`, `jsAdd`, `jsSub`, `jsDiv` are the rounded operations.
* The em and px sizes of the track list and the scaled dimensions of the
  canvas are exact rationals: the rounding of doubles is not modelled there.
  `NaN` is the value `none` of an `Option`.
-/

namespace Poster

/-! ## Palette extraction -/

/-- One colour sample or centroid: the object `{ r, g, b }`. -/
structure Color where
  r : Nat
  g : Nat
  b : Nat
  deriving DecidableEq

/-- Sampling stride of `extractColorPalette`: `const sampleRate = 10`. -/
def sampleRate : Nat := 10

/-- The sampling loop of `extractColorPalette` (script.js 2595-2603):
`for (let i = 0; i < pixels.length; i += 4 * sampleRate)`, started at byte
index `i` with the samples pushed so far in `acc`.  `pixels` is the flat RGBA
byte buffer `imageData.data`; its length is a multiple of four, so the reads at
`i + 1 .. i + 3` are in range whenever `i` is (the default of `getD` is never
used on such a buffer). -/
def sampleLoop (pixels : List Nat) (i : Nat) (acc : List Color) : List Color :=
  if h : i < pixels.length then
    let r := pixels.getD i 0
    let g := pixels.getD (i + 1) 0
    let b := pixels.getD (i + 2) 0
    let a := pixels.getD (i + 3) 0
    if a < 128 then sampleLoop pixels (i + 4 * sampleRate) acc
    else sampleLoop pixels (i + 4 * sampleRate) (acc ++ [{ r := r, g := g, b := b }])
  else acc
termination_by pixels.length - i
decreasing_by all_goals (simp only [sampleRate]; omega)

/-- The list `colorSamples` built by `extractColorPalette`. -/
def colorSamples (pixels : List Nat) : List Color :=
  sampleLoop pixels 0 []

/-- The radicand of `colorDistance` (script.js 2654-2659):
`dr * dr + dg * dg + db * db`.  The source returns its `Math.sqrt`; distances
are only ever compared with `<`, and the square root is strictly increasing on
these integers (at most `3 * 255 * 255`), so the comparisons are made on the
radicand. -/
def colorDistanceSq (c1 c2 : Color) : Int :=
  let dr : Int := (c1.r : Int) - (c2.r : Int)
  let dg : Int := (c1.g : Int) - (c2.g : Int)
  let db : Int := (c1.b : Int) - (c2.b : Int)
  dr * dr + dg * dg + db * db

/-- The inner `centroids.forEach` of the assignment step (script.js 2624-2630),
run over the centroids from index `idx` on.  `minDist = none` is `Infinity`. -/
def nearestLoop (color : Color) : List Color → Nat → Option Int → Nat → Nat
  | [], _, _, nearestCluster => nearestCluster
  | centroid :: rest, idx, minDist, nearestCluster =>
    let dist := colorDistanceSq color centroid
    match minDist with
    | none => nearestLoop color rest (idx + 1) (some dist) idx
    | some m =>
      if dist < m then nearestLoop color rest (idx + 1) (some dist) idx
      else nearestLoop color rest (idx + 1) (some m) nearestCluster

/-- The index `nearestCluster` computed for one sample (script.js 2621-2630):
`minDist = Infinity`, `nearestCluster = 0`, then the loop over the centroids. -/
def nearestCluster (color : Color) (centroids : List Color) : Nat :=
  nearestLoop color centroids 0 none 0

/-- The statement `clusters[nearestCluster].push(color)`: a `TypeError` (`none`)
when `clusters[nearestCluster]` is `undefined`. -/
def pushTo (clusters : List (List Color)) (idx : Nat) (color : Color) :
    Option (List (List Color)) :=
  if idx < clusters.length then
    some (clusters.modify (fun cl => cl ++ [color]) idx)
  else none

/-- The outer `colors.forEach` of the assignment step (script.js 2620-2633). -/
def assignLoop (centroids : List Color) :
    List Color → List (List Color) → Option (List (List Color))
  | [], clusters => some clusters
  | color :: rest, clusters =>
    match pushTo clusters (nearestCluster color centroids) color with
    | none => none
    | some clusters1 => assignLoop centroids rest clusters1

/-- The value of `Math.round(s / n)` for natural `s` and `n > 0`: the nearest
integer, halves rounded up. -/
def roundDiv (s n : Nat) : Nat := (2 * s + n) / (2 * n)

/-- The update of one centroid (script.js 2636-2647): the rounded mean of its
cluster, or the centroid unchanged when the cluster is empty. -/
def updateCentroid (centroid : Color) (cluster : List Color) : Color :=
  if cluster.length > 0 then
    let sum := cluster.foldl
      (fun acc color => { r := acc.r + color.r, g := acc.g + color.g, b := acc.b + color.b })
      ({ r := 0, g := 0, b := 0 } : Color)
    { r := roundDiv sum.r cluster.length,
      g := roundDiv sum.g cluster.length,
      b := roundDiv sum.b cluster.length }
  else centroid

/-- One pass of the body of the iteration loop (script.js 2618-2648). -/
def kMeansStep (colors : List Color) (k : Nat) (centroids : List Color) :
    Option (List Color) :=
  match assignLoop centroids colors (List.replicate k []) with
  | none => none
  | some clusters => some (List.zipWith updateCentroid centroids clusters)

/-- The number `n` of passes of the iteration loop, from the given centroids. -/
def kMeansIterate (colors : List Color) (k : Nat) : Nat → List Color → Option (List Color)
  | 0, centroids => some centroids
  | n + 1, centroids =>
    match kMeansStep colors k centroids with
    | none => none
    | some centroids1 => kMeansIterate colors k n centroids1

/-- The index `Math.floor(Math.random() * n)` of the `i`-th draw: some index
below `n`, and every index below `n` for a suitable `rand`. -/
def randomIndex (rand : Nat → Nat) (i n : Nat) : Nat := rand i % n

/-- The initial centroids (script.js 2611-2615): `k` samples drawn with
replacement. -/
def initCentroids (colors : List Color) (k : Nat) (rand : Nat → Nat) : List Color :=
  (List.range k).map fun i =>
    colors.getD (randomIndex rand i colors.length) { r := 0, g := 0, b := 0 }

/-- The centroids at the end of `kMeansClustering` for a non-empty sample list:
ten passes from the initial centroids. -/
def finalCentroids (colors : List Color) (k : Nat) (rand : Nat → Nat) :
    Option (List Color) :=
  kMeansIterate colors k 10 (initCentroids colors k rand)

/-- The method call `x.toString(16)` on a natural number. -/
def toString16 (x : Nat) : String := String.mk (Nat.toDigits 16 x)

/-- The function `rgbToHex` (script.js 2661-2666). -/
def rgbToHex (r g b : Nat) : String :=
  "#" ++ String.join ([r, g, b].map fun x =>
    let hex := toString16 x
    if hex.length = 1 then "0" ++ hex else hex)

/-- The function `kMeansClustering` (script.js 2608-2652). -/
def kMeansClustering (colors : List Color) (k : Nat) (rand : Nat → Nat) :
    Option (List String) :=
  if colors.length = 0 then some []
  else
    match finalCentroids colors k rand with
    | none => none
    | some centroids => some (centroids.map fun centroid =>
        rgbToHex centroid.r centroid.g centroid.b)

/-- The part of `extractColorPalette` after the canvas read (script.js
2590-2605), on the byte buffer `pixels = imageData.data`. -/
def extractColorPalette (pixels : List Nat) (numColors : Nat) (rand : Nat → Nat) :
    Option (List String) :=
  kMeansClustering (colorSamples pixels) numColors rand

/-- All three channels are bytes. -/
def Color.InRange (c : Color) : Prop := c.r ≤ 255 ∧ c.g ≤ 255 ∧ c.b ≤ 255

/-- The character of the hexadecimal digit `d`, lowercase (the reference encoding
the output of `rgbToHex` is compared with). -/
def hexDigit (d : Nat) : Char := "0123456789abcdef".data.getD d '0'

/-- The two lowercase hexadecimal digits of a byte. -/
def hexPair (x : Nat) : List Char := [hexDigit (x / 16), hexDigit (x % 16)]

/-! ## Text fitting -/

/-- The binary search loop, the same text in `fitTextToContainer` (script.js
131-142) and in `fitTextToLine` (script.js 206-217):
`while (max - min > 1) { mid = Math.floor((min + max) / 2); ... }`.
The result is the final `optimalSize`. -/
def binarySearch (width : Int → Int) (target : Int) : Nat → Int → Int → Int → Option Int
  | 0, min, max, optimalSize =>
    if max - min > 1 then none else some optimalSize
  | fuel + 1, min, max, optimalSize =>
    if max - min > 1 then
      let mid := (min + max) / 2
      let textWidth := width mid
      if textWidth ≤ target then binarySearch width target fuel mid max mid
      else binarySearch width target fuel min mid optimalSize
    else some optimalSize

/-- The halving loop of `fitTextToLine` (script.js 180-184):
`while (tempSpan.offsetWidth > containerWidth && max > min) max = Math.floor(max / 2)`,
the span being at font size `max` throughout.  The result is the final `max`. -/
def halveLoop (width : Int → Int) (containerWidth min : Int) : Nat → Int → Option Int
  | 0, max =>
    if width max > containerWidth ∧ max > min then none else some max
  | fuel + 1, max =>
    if width max > containerWidth ∧ max > min then
      halveLoop width containerWidth min fuel (max / 2)
    else some max

/-- The expansion loop of `fitTextToLine` (script.js 192-201), on the state
`testSize`, `min`, `optimalSize`; `Math.floor(testSize * 1.5)` is
`testSize * 3 / 2`, which is exact in doubles while `testSize` stays below
`2 ^ 51` (`expandLoopDouble` is the loop without that bound).  The result is
the final pair `(min, optimalSize)`. -/
def expandLoop (width : Int → Int) (containerWidth : Int) :
    Nat → Int → Int → Int → Option (Int × Int)
  | 0, testSize, min, optimalSize =>
    if testSize > min then none else some (min, optimalSize)
  | fuel + 1, testSize, min, optimalSize =>
    if testSize > min then
      if width testSize ≤ containerWidth then
        expandLoop width containerWidth fuel (testSize * 3 / 2) testSize testSize
      else some (min, optimalSize)
    else some (min, optimalSize)

/-- The search of `fitTextToLine` (script.js 173-217): the value of
`optimalSize` at the end, for the measurement `width`, the container width and
the minimum font size.  Each loop may run its body at most `fuel` times.  The
sizes are exact integers, as they are in the code while they stay below
`2 ^ 51`: that is so for a text that overflows the container at some size up
to `2 ^ 50` (`fitTextToLineDouble_eq`). -/
def fitTextToLineSize (width : Int → Int) (containerWidth minFontSize : Int)
    (fuel : Nat) : Option Int :=
  let min := minFontSize
  let max := containerWidth * 10
  let optimalSize := min
  match halveLoop width containerWidth min fuel max with
  | none => none
  | some max =>
    if width max ≤ containerWidth then
      match expandLoop width containerWidth fuel (max * 2) max max with
      | none => none
      | some (min, optimalSize) =>
        binarySearch width containerWidth fuel min (optimalSize * 2) optimalSize
    else binarySearch width containerWidth fuel min max optimalSize

/-- The search of `fitTextToContainer` (script.js 126-142). -/
def fitTextToContainerSize (width : Int → Int) (maxWidth minFontSize : Int)
    (fuel : Nat) : Option Int :=
  binarySearch width maxWidth fuel minFontSize (maxWidth * 2) minFontSize

/-- What the two functions read and write of a DOM element: the width of a
hidden no-wrap span with the element's text and font at a given font size
(`textWidth`), the `clientWidth` of its parent, and its inline
`style.fontSize` in pixels (`none` when not set). -/
structure Element where
  textWidth : Int → Int
  parentClientWidth : Nat
  styleFontSize : Option Int

/-- Outcome of a call: the returned value (`none` for `undefined`) and the
element afterwards. -/
structure FitOutcome where
  returned : Option Int
  element : Option Element

/-- The function `fitTextToContainer` (script.js 111-151); `element = none` is
a null element, and `!maxWidth` holds of the integer 0 only. -/
def fitTextToContainer (element : Option Element) (maxWidth minFontSize : Int)
    (fuel : Nat) : Option FitOutcome :=
  match element with
  | none => some { returned := none, element := none }
  | some el =>
    if maxWidth = 0 then some { returned := none, element := some el }
    else
      match fitTextToContainerSize el.textWidth maxWidth minFontSize fuel with
      | none => none
      | some optimalSize =>
        some { returned := some optimalSize,
               element := some { el with styleFontSize := some optimalSize } }

/-- The function `fitTextToLine` (script.js 154-226). -/
def fitTextToLine (element : Option Element) (minFontSize : Int) (fuel : Nat) :
    Option FitOutcome :=
  match element with
  | none => some { returned := none, element := none }
  | some el =>
    match fitTextToLineSize el.textWidth (el.parentClientWidth : Int) minFontSize fuel with
    | none => none
    | some optimalSize =>
      some { returned := some optimalSize,
             element := some { el with styleFontSize := some optimalSize } }

/-! ## Double precision numbers -/

/-- The integer nearest to `x`, the even one of the two when `x` lies half way
between them. -/
def roundHalfEven (x : ℚ) : Int :=
  if x - ⌊x⌋ < 1 / 2 then ⌊x⌋
  else if 1 / 2 < x - ⌊x⌋ then ⌊x⌋ + 1
  else if ⌊x⌋ % 2 = 0 then ⌊x⌋ else ⌊x⌋ + 1

/-- The exponent of the spacing of the doubles around `x`: the doubles of
magnitude in `[2 ^ e, 2 ^ (e + 1))` are the multiples of `2 ^ (e - 52)`, and
below `2 ^ (-1022)` they are the multiples of `2 ^ (-1074)`. -/
def ulpExponent (x : ℚ) : Int := max (Int.log 2 |x|) (-1022) - 52

/-- The double nearest to the number `x` (IEEE 754 binary64, round to nearest,
ties to even), the value every JavaScript arithmetic operation and every
decimal literal takes; exact for `|x| < 2 ^ 1024`, beyond which the operation
gives `Infinity`. -/
def roundDouble (x : ℚ) : ℚ :=
  (roundHalfEven (x / 2 ^ ulpExponent x) : ℚ) * 2 ^ ulpExponent x

/-- The JavaScript product `a * b` of two doubles. -/
def jsMul (a b : ℚ) : ℚ := roundDouble (a * b)

/-- The JavaScript sum `a + b` of two doubles. -/
def jsAdd (a b : ℚ) : ℚ := roundDouble (a + b)

/-- The JavaScript difference `a - b` of two doubles. -/
def jsSub (a b : ℚ) : ℚ := roundDouble (a - b)

/-- The JavaScript quotient `a / b` of two doubles, `b` not zero. -/
def jsDiv (a b : ℚ) : ℚ := roundDouble (a / b)

/-! ## Palette ordering -/

/-- Value of a hexadecimal digit by its character code (`0`-`9` are 48-57,
`A`-`F` 65-70, `a`-`f` 97-102), `none` for any other character. -/
def hexDigitValue (c : Char) : Option Nat :=
  if 48 ≤ c.toNat ∧ c.toNat ≤ 57 then some (c.toNat - 48)
  else if 97 ≤ c.toNat ∧ c.toNat ≤ 102 then some (c.toNat - 97 + 10)
  else if 65 ≤ c.toNat ∧ c.toNat ≤ 70 then some (c.toNat - 65 + 10)
  else none

/-- The digits that `parseInt(s, 16)` reads after the first one: the longest
run of hexadecimal digits, accumulated in base 16. -/
def parseHexDigits : List Char → Nat → Nat
  | [], acc => acc
  | c :: rest, acc =>
    match hexDigitValue c with
    | none => acc
    | some d => parseHexDigits rest (16 * acc + d)

/-- The call `parseInt(s, 16)` on a string that starts with neither white
space, a sign nor `0x`: the value of the longest prefix of hexadecimal digits,
and `NaN` (`none`) when there is none. -/
def parseInt16 : List Char → Option Nat
  | [] => none
  | c :: rest =>
    match hexDigitValue c with
    | none => none
    | some d => some (parseHexDigits rest d)

/-- The method call `hex.slice(i, j)` for `0 ≤ i ≤ j`, as a list of
characters. -/
def slice (hex : String) (i j : Nat) : List Char := (hex.data.drop i).take (j - i)

/-- The function `getColorLightness` (script.js 2726-2732).  The value of
`(0.299 * r + 0.587 * g + 0.114 * b) / 255` is a double: the three literals
are the doubles nearest to the decimals and each of the six operations rounds
its result, the sum being taken from the left; `NaN` is `none`. -/
def getColorLightness (hex : String) : Option ℚ :=
  match parseInt16 (slice hex 1 3), parseInt16 (slice hex 3 5), parseInt16 (slice hex 5 7) with
  | some r, some g, some b =>
    some (jsDiv (jsAdd (jsAdd (jsMul (roundDouble 0.299) r) (jsMul (roundDouble 0.587) g))
      (jsMul (roundDouble 0.114) b)) 255)
  | _, _, _ => none

/-- The function `getContrastColor` (script.js 2717-2723), the luminance being
the double that the same expression gives; a `NaN` luminance is not greater
than 0.5. -/
def getContrastColor (hex : String) : String :=
  match parseInt16 (slice hex 1 3), parseInt16 (slice hex 3 5), parseInt16 (slice hex 5 7) with
  | some r, some g, some b =>
    let luminance : ℚ :=
      jsDiv (jsAdd (jsAdd (jsMul (roundDouble 0.299) r) (jsMul (roundDouble 0.587) g))
        (jsMul (roundDouble 0.114) b)) 255
    if luminance > 0.5 then "#000000" else "#ffffff"
  | _, _, _ => "#ffffff"

/-- The comparator of `sortPaletteByLightness`:
`getColorLightness(b) - getColorLightness(a)`, a difference of doubles, `NaN`
when either is. -/
def compareLightness (a b : String) : Option ℚ :=
  match getColorLightness b, getColorLightness a with
  | some lb, some la => some (jsSub lb la)
  | _, _ => none

/-- Whether `Array.prototype.sort` may leave `a` before `b`: the comparator is
not positive (a `NaN` counts as 0). -/
def keepsBefore (a b : String) : Prop :=
  match compareLightness a b with
  | some v => v ≤ 0
  | none => True

instance keepsBeforeDecidable : DecidableRel keepsBefore := fun a b => by
  unfold keepsBefore
  cases compareLightness a b <;> infer_instance

/-- The function `sortPaletteByLightness` (script.js 2735-2739).
`Array.prototype.sort` is a stable sort (ECMAScript 2019); for a comparator
that is a consistent ordering of the entries its result is the one stable
arrangement of the copy `[...palette]`, computed here by stable insertion. -/
def sortPaletteByLightness (palette : List String) : List String :=
  palette.insertionSort keepsBefore

/-- A string `#rrggbb`: seven characters, a `#` and six hexadecimal digits. -/
def IsHexColor (hex : String) : Prop :=
  match hex.data with
  | [c0, d1, d2, d3, d4, d5, d6] =>
    c0 = '#' ∧ (hexDigitValue d1).isSome ∧ (hexDigitValue d2).isSome ∧
      (hexDigitValue d3).isSome ∧ (hexDigitValue d4).isSome ∧
      (hexDigitValue d5).isSome ∧ (hexDigitValue d6).isSome
  | _ => False

instance isHexColorDecidable : DecidablePred IsHexColor := fun hex => by
  unfold IsHexColor
  split <;> infer_instance

/-! ## Track list sizing -/

/-- A CSS length such as `1em` or `4.2cqw`: the number and the unit.  The
number is what `parseFloat` reads from the string. -/
structure Length where
  value : ℚ
  unit : String
  deriving DecidableEq

/-- The function `calculateTrackListFontSize` (script.js 1751-1767): the
string it returns, a number of `em`. -/
def calculateTrackListFontSize (trackCount : Nat) : Length :=
  if trackCount ≤ 10 then { value := 1, unit := "em" }
  else
    let songsOver10 : ℚ := (trackCount : ℚ) - 10
    let groupsOf5 : ℚ := ((⌈songsOver10 / 5⌉ : Int) : ℚ)
    let reduction : ℚ := groupsOf5 * 0.05
    let finalSize : ℚ := max (1 - reduction) 0.3
    { value := finalSize, unit := "em" }

/-- A font size `clamp(min, preferred, max)`: the three arguments that the
regular expression of script.js 2325 extracts from the string. -/
structure ClampSize where
  min : Length
  preferred : Length
  max : Length
  deriving DecidableEq

/-- The replacement `.replace(/([\d.]+)cqw/g, ...)` of script.js 2332-2337 on
one length: a number followed by `cqw` is multiplied by the scale, a length in
any other unit is left as it is. -/
def scaleCqw (scaleMultiplier : ℚ) (l : Length) : Length :=
  if l.unit = "cqw" then { value := l.value * scaleMultiplier, unit := "cqw" } else l

/-- The value of `baseFontSize` in `updateTrackListScale` (script.js 2311-2321)
when the custom properties `--track-font-size-*` are not set, so that the
built-in strings after `||` are used; each string is held as the three
arguments of its `clamp`. -/
def baseFontSize (trackCount : Nat) : ClampSize :=
  if trackCount ≤ 5 then
    { min := ⟨1.12, "rem"⟩, preferred := ⟨7, "cqw"⟩, max := ⟨15.75, "cqw"⟩ }
  else if trackCount ≤ 10 then
    { min := ⟨0.672, "rem"⟩, preferred := ⟨4.2, "cqw"⟩, max := ⟨9.45, "cqw"⟩ }
  else if trackCount ≤ 15 then
    { min := ⟨0.42, "rem"⟩, preferred := ⟨2.625, "cqw"⟩, max := ⟨5.90625, "cqw"⟩ }
  else if trackCount ≤ 20 then
    { min := ⟨0.297, "rem"⟩, preferred := ⟨1.855, "cqw"⟩, max := ⟨4.17375, "cqw"⟩ }
  else
    { min := ⟨0.297, "rem"⟩, preferred := ⟨1.855, "cqw"⟩, max := ⟨4.17375, "cqw"⟩ }

/-- The function `updateTrackListScale` (script.js 2294-2349) for an existing
list of `trackCount` items and unset custom properties: the font size it sets,
`none` when it returns without setting one. -/
def updateTrackListScale (trackCount : Nat) (scaleMultiplier : ℚ) : Option ClampSize :=
  if trackCount = 0 then none
  else
    let base := baseFontSize trackCount
    let scaledPreferred := scaleCqw scaleMultiplier base.preferred
    let scaledMax := scaleCqw scaleMultiplier base.max
    some { min := base.min, preferred := scaledPreferred, max := scaledMax }

/-- Run of the shrink loop: the font sizes set in the loop, in order, the
final `iterations` and the final `currentFontSize`. -/
structure ShrinkRun where
  tried : List ℚ
  iterations : Nat
  currentFontSize : ℚ

/-- The shrink loop of `adjustTracksListFontSize` (script.js 2403-2433) with
`minFontSize = 6`, `stepSize = 0.5` and `maxIterations = 100`.  The first
argument is `maxIterations - iterations`; `fits s` is the test
`scrollHeight <= clientHeight && computedColumnCount === '1'` once the font
size is `s` px. -/
def shrinkLoop (fits : ℚ → Bool) : Nat → Nat → ℚ → List ℚ → ShrinkRun
  | 0, iterations, currentFontSize, tried =>
    { tried := tried, iterations := iterations, currentFontSize := currentFontSize }
  | left + 1, iterations, currentFontSize, tried =>
    if currentFontSize ≥ 6 then
      if fits currentFontSize then
        { tried := tried ++ [currentFontSize], iterations := iterations,
          currentFontSize := currentFontSize }
      else
        shrinkLoop fits left (iterations + 1) (currentFontSize - 0.5)
          (tried ++ [currentFontSize])
    else { tried := tried, iterations := iterations, currentFontSize := currentFontSize }

/-- The starting size `maxFontSize` of the shrink loop (script.js 2389-2392)
for a container font size in px. -/
def maxFontSize (trackCount : Nat) (containerFontSize : ℚ) : ℚ :=
  min ((calculateTrackListFontSize trackCount).value * containerFontSize) 18

/-- The sizing pass of `adjustTracksListFontSize` (script.js 2388-2441) for an
existing list: `none` when there are no items, else the run of the loop with
`currentFontSize` raised to 6 when it ended below. -/
def adjustTracksListFontSize (trackCount : Nat) (containerFontSize : ℚ)
    (fits : ℚ → Bool) : Option ShrinkRun :=
  if trackCount = 0 then none
  else
    let run := shrinkLoop fits 100 0 (maxFontSize trackCount containerFontSize) []
    if run.currentFontSize < 6 then some { run with currentFontSize := 6 }
    else some run

/-- The scaled canvas size of `extractColorPalette` (script.js 2569-2583) for
an image of the given width and height, `maxSize = 200`. -/
def downsampleSize (width height : Nat) : ℚ × ℚ :=
  if width > height then
    if width > 200 then (200, ((height : ℚ) / (width : ℚ)) * 200)
    else ((width : ℚ), (height : ℚ))
  else
    if height > 200 then (((width : ℚ) / (height : ℚ)) * 200, 200)
    else ((width : ℚ), (height : ℚ))

/-! ## The copy of the text fitting in gallery.js -/

/-- The halving loop of `fitTextToLine` in gallery.js (lines 27-31). -/
def galleryHalveLoop (width : Int → Int) (containerWidth min : Int) : Nat → Int → Option Int
  | 0, max =>
    if width max > containerWidth ∧ max > min then none else some max
  | fuel + 1, max =>
    if width max > containerWidth ∧ max > min then
      galleryHalveLoop width containerWidth min fuel (max / 2)
    else some max

/-- The expansion loop of `fitTextToLine` in gallery.js (lines 39-48). -/
def galleryExpandLoop (width : Int → Int) (containerWidth : Int) :
    Nat → Int → Int → Int → Option (Int × Int)
  | 0, testSize, min, optimalSize =>
    if testSize > min then none else some (min, optimalSize)
  | fuel + 1, testSize, min, optimalSize =>
    if testSize > min then
      if width testSize ≤ containerWidth then
        galleryExpandLoop width containerWidth fuel (testSize * 3 / 2) testSize testSize
      else some (min, optimalSize)
    else some (min, optimalSize)

/-- The binary search loop of `fitTextToLine` in gallery.js (lines 53-64). -/
def galleryBinarySearch (width : Int → Int) (containerWidth : Int) :
    Nat → Int → Int → Int → Option Int
  | 0, min, max, optimalSize =>
    if max - min > 1 then none else some optimalSize
  | fuel + 1, min, max, optimalSize =>
    if max - min > 1 then
      let mid := (min + max) / 2
      let textWidth := width mid
      if textWidth ≤ containerWidth then
        galleryBinarySearch width containerWidth fuel mid max mid
      else galleryBinarySearch width containerWidth fuel min mid optimalSize
    else some optimalSize

/-- The search of `fitTextToLine` in gallery.js (lines 20-64). -/
def galleryFitTextToLineSize (width : Int → Int) (containerWidth minFontSize : Int)
    (fuel : Nat) : Option Int :=
  let min := minFontSize
  let max := containerWidth * 10
  let optimalSize := min
  match galleryHalveLoop width containerWidth min fuel max with
  | none => none
  | some max =>
    if width max ≤ containerWidth then
      match galleryExpandLoop width containerWidth fuel (max * 2) max max with
      | none => none
      | some (min, optimalSize) =>
        galleryBinarySearch width containerWidth fuel min (optimalSize * 2) optimalSize
    else galleryBinarySearch width containerWidth fuel min max optimalSize

/-- The function `fitTextToLine` of gallery.js (lines 2-73). -/
def galleryFitTextToLine (element : Option Element) (minFontSize : Int) (fuel : Nat) :
    Option FitOutcome :=
  match element with
  | none => some { returned := none, element := none }
  | some el =>
    match galleryFitTextToLineSize el.textWidth (el.parentClientWidth : Int) minFontSize
        fuel with
    | none => none
    | some optimalSize =>
      some { returned := some optimalSize,
             element := some { el with styleFontSize := some optimalSize } }

/-! ## The order of font-size writes and width reads -/

/-- One read of `tempSpan.offsetWidth`: the font size the span is at when the
width is read, and the size that the comparison using this width judges. -/
structure Probe where
  spanFontSize : Int
  candidate : Int
  deriving DecidableEq

/-- The assignment `tempSpan.style.fontSize = v + 'px'` on a span at font
size `span`: a negative length is not a valid font size and the assignment is
then ignored. -/
def setSpanFontSize (span v : Int) : Int := if 0 ≤ v then v else span

/-- State of a traced run: the reads made so far, the font size of the span,
and the outcome when the code has finished within the fuel. -/
structure Traced (α : Type) where
  probes : List Probe
  span : Int
  outcome : Option α

/-- The binary search loop (script.js 131-142 and 206-217) with the span as
explicit state: each round sets the span to `mid`, then reads the width. -/
def tracedBinarySearch (width : Int → Int) (target : Int) :
    Nat → Int → Int → Int → Int → List Probe → Traced Int
  | 0, span, min, max, optimalSize, probes =>
    if max - min > 1 then { probes := probes, span := span, outcome := none }
    else { probes := probes, span := span, outcome := some optimalSize }
  | fuel + 1, span, min, max, optimalSize, probes =>
    if max - min > 1 then
      let mid := (min + max) / 2
      let span1 := setSpanFontSize span mid
      let textWidth := width span1
      let probes1 := probes ++ [{ spanFontSize := span1, candidate := mid }]
      if textWidth ≤ target then tracedBinarySearch width target fuel span1 mid max mid probes1
      else tracedBinarySearch width target fuel span1 min mid optimalSize probes1
    else { probes := probes, span := span, outcome := some optimalSize }

/-- The halving loop (script.js 181-184) with the span as explicit state: the
condition reads the width, the body halves `max` and sets the span to it. -/
def tracedHalveLoop (width : Int → Int) (containerWidth min : Int) :
    Nat → Int → Int → List Probe → Traced Int
  | 0, span, max, probes =>
    let probes1 := probes ++ [{ spanFontSize := span, candidate := max }]
    if width span > containerWidth ∧ max > min then
      { probes := probes1, span := span, outcome := none }
    else { probes := probes1, span := span, outcome := some max }
  | fuel + 1, span, max, probes =>
    let probes1 := probes ++ [{ spanFontSize := span, candidate := max }]
    if width span > containerWidth ∧ max > min then
      tracedHalveLoop width containerWidth min fuel (setSpanFontSize span (max / 2)) (max / 2)
        probes1
    else { probes := probes1, span := span, outcome := some max }

/-- The expansion loop (script.js 192-201) with the span as explicit state:
each round sets the span to `testSize`, then reads the width. -/
def tracedExpandLoop (width : Int → Int) (containerWidth : Int) :
    Nat → Int → Int → Int → Int → List Probe → Traced (Int × Int)
  | 0, span, testSize, min, optimalSize, probes =>
    if testSize > min then { probes := probes, span := span, outcome := none }
    else { probes := probes, span := span, outcome := some (min, optimalSize) }
  | fuel + 1, span, testSize, min, optimalSize, probes =>
    if testSize > min then
      let span1 := setSpanFontSize span testSize
      let probes1 := probes ++ [{ spanFontSize := span1, candidate := testSize }]
      if width span1 ≤ containerWidth then
        tracedExpandLoop width containerWidth fuel span1 (testSize * 3 / 2) testSize testSize
          probes1
      else { probes := probes1, span := span1, outcome := some (min, optimalSize) }
    else { probes := probes, span := span, outcome := some (min, optimalSize) }

/-- The search of `fitTextToLine` (script.js 173-217) with the span as
explicit state, from a span at font size `span0` (its inherited size, no
`style.fontSize` being set on it before line 180). -/
def tracedFitTextToLineSize (width : Int → Int) (span0 containerWidth minFontSize : Int)
    (fuel : Nat) : Traced Int :=
  let min := minFontSize
  let max := containerWidth * 10
  let optimalSize := min
  let halved := tracedHalveLoop width containerWidth min fuel (setSpanFontSize span0 max) max []
  match halved.outcome with
  | none => { probes := halved.probes, span := halved.span, outcome := none }
  | some max =>
    let probes1 := halved.probes ++ [{ spanFontSize := halved.span, candidate := max }]
    if width halved.span ≤ containerWidth then
      let expanded :=
        tracedExpandLoop width containerWidth fuel halved.span (max * 2) max max probes1
      match expanded.outcome with
      | none => { probes := expanded.probes, span := expanded.span, outcome := none }
      | some (min, optimalSize) =>
        tracedBinarySearch width containerWidth fuel expanded.span min (optimalSize * 2)
          optimalSize expanded.probes
    else tracedBinarySearch width containerWidth fuel halved.span min max optimalSize probes1

/-- The search of `fitTextToContainer` (script.js 126-142) with the span as
explicit state. -/
def tracedFitTextToContainerSize (width : Int → Int) (span0 maxWidth minFontSize : Int)
    (fuel : Nat) : Traced Int :=
  tracedBinarySearch width maxWidth fuel span0 minFontSize (maxWidth * 2) minFontSize []

/-! ## Text fitting in double arithmetic -/

/-- A number that the search of `fitTextToLine` holds in `min`, `max`,
`testSize` or `optimalSize`: an integer or `Infinity`.  (The doubles of
magnitude `2 ^ 52` or more are integers, so is every `Math.floor`, and the
search starts from the integers `minFontSize` and `containerWidth`.) -/
inductive JsSize where
  | finite (v : Int)
  | infinity
  deriving DecidableEq

/-- The JavaScript number `Math.floor(x)` for a real `x`: the double nearest to
`x`, rounded down; `Infinity` when the double nearest to `x` would be `2 ^ 1024`
or more. -/
def JsSize.ofRat (x : ℚ) : JsSize :=
  if 2 ^ 1024 ≤ roundDouble x then JsSize.infinity else JsSize.finite ⌊roundDouble x⌋

/-- The product `s * k` by a positive double `k`, rounded down: `max / 2` and
`testSize * 1.5` under their `Math.floor`, and `containerWidth * 10`,
`max * 2`, `optimalSize * 2`, which are integers as they stand. -/
def JsSize.scale (k : ℚ) : JsSize → JsSize
  | JsSize.finite v => JsSize.ofRat (k * v)
  | JsSize.infinity => JsSize.infinity

/-- The comparison `a > b`. -/
def JsSize.gt : JsSize → JsSize → Bool
  | JsSize.finite a, JsSize.finite b => decide (a > b)
  | JsSize.infinity, JsSize.finite _ => true
  | _, JsSize.infinity => false

/-- The test `max - min > 1` of the binary search: `Infinity - Infinity` is
`NaN` and a number minus `Infinity` is `-Infinity`, neither greater than 1. -/
def JsSize.gapOverOne : JsSize → JsSize → Bool
  | JsSize.finite max, JsSize.finite min => decide (roundDouble ((max : ℚ) - (min : ℚ)) > 1)
  | JsSize.infinity, JsSize.finite _ => true
  | _, JsSize.infinity => false

/-- The number `Math.floor((min + max) / 2)`: the sum is rounded, then the
half; a sum that reaches `2 ^ 1024` is `Infinity`, and so is its half. -/
def JsSize.mid : JsSize → JsSize → JsSize
  | JsSize.finite min, JsSize.finite max =>
    if 2 ^ 1024 ≤ roundDouble ((min : ℚ) + (max : ℚ)) then JsSize.infinity
    else JsSize.ofRat (roundDouble ((min : ℚ) + (max : ℚ)) / 2)
  | _, _ => JsSize.infinity

/-- The assignment `tempSpan.style.fontSize = s + 'px'` on a span at font size
`span`: `'Infinitypx'` and a negative length are not valid font sizes, and the
assignment is then ignored. -/
def JsSize.setSpanFontSize (span : Int) : JsSize → Int
  | JsSize.finite v => if 0 ≤ v then v else span
  | JsSize.infinity => span

/-- The halving loop of `fitTextToLine` (script.js 180-184) on doubles, the
span being explicit state.  The result is the final span and `max`. -/
def halveLoopDouble (width : Int → Int) (containerWidth : Int) (min : JsSize) :
    Nat → Int → JsSize → Option (Int × JsSize)
  | 0, span, max =>
    if width span > containerWidth ∧ max.gt min = true then none else some (span, max)
  | fuel + 1, span, max =>
    if width span > containerWidth ∧ max.gt min = true then
      halveLoopDouble width containerWidth min fuel
        (JsSize.setSpanFontSize span (max.scale (1 / 2))) (max.scale (1 / 2))
    else some (span, max)

/-- The expansion loop of `fitTextToLine` (script.js 192-201) on doubles, on
the state span, `testSize`, `min`, `optimalSize`.  The result is the final
span, `min` and `optimalSize`. -/
def expandLoopDouble (width : Int → Int) (containerWidth : Int) :
    Nat → Int → JsSize → JsSize → JsSize → Option (Int × JsSize × JsSize)
  | 0, span, testSize, min, optimalSize =>
    if testSize.gt min = true then none else some (span, min, optimalSize)
  | fuel + 1, span, testSize, min, optimalSize =>
    if testSize.gt min = true then
      if width (JsSize.setSpanFontSize span testSize) ≤ containerWidth then
        expandLoopDouble width containerWidth fuel (JsSize.setSpanFontSize span testSize)
          (testSize.scale (3 / 2)) testSize testSize
      else some (JsSize.setSpanFontSize span testSize, min, optimalSize)
    else some (span, min, optimalSize)

/-- The binary search loop of `fitTextToLine` (script.js 206-217) on doubles.
The result is the final `optimalSize`. -/
def binarySearchDouble (width : Int → Int) (containerWidth : Int) :
    Nat → Int → JsSize → JsSize → JsSize → Option JsSize
  | 0, _, min, max, optimalSize =>
    if max.gapOverOne min = true then none else some optimalSize
  | fuel + 1, span, min, max, optimalSize =>
    if max.gapOverOne min = true then
      if width (JsSize.setSpanFontSize span (min.mid max)) ≤ containerWidth then
        binarySearchDouble width containerWidth fuel
          (JsSize.setSpanFontSize span (min.mid max)) (min.mid max) max (min.mid max)
      else
        binarySearchDouble width containerWidth fuel
          (JsSize.setSpanFontSize span (min.mid max)) min (min.mid max) optimalSize
    else some optimalSize

/-- The search of `fitTextToLine` (script.js 173-217) on doubles: the value of
`optimalSize` at the end, from a span at font size `span0`; `width s` is the
`offsetWidth` of the span at font size `s`.  Each loop may run its body at
most `fuel` times.  While every size stays below `2 ^ 51` this is the search
`fitTextToLineSize` on exact integers. -/
def fitTextToLineDouble (width : Int → Int) (span0 containerWidth minFontSize : Int)
    (fuel : Nat) : Option JsSize :=
  let min := JsSize.finite minFontSize
  let max := (JsSize.finite containerWidth).scale 10
  let optimalSize := min
  match halveLoopDouble width containerWidth min fuel (JsSize.setSpanFontSize span0 max) max with
  | none => none
  | some (span, max) =>
    if width span ≤ containerWidth then
      match expandLoopDouble width containerWidth fuel span (max.scale 2) max max with
      | none => none
      | some (span1, min, optimalSize) =>
        binarySearchDouble width containerWidth fuel span1 min (optimalSize.scale 2)
          optimalSize
    else binarySearchDouble width containerWidth fuel span min max optimalSize

/-! ## Reference definitions -/

/-- One round of the binary search on the state `(min, max, optimalSize)`: the
loop test and the body of script.js 131-142; a state whose bracket is closed
is left as it is. -/
def binaryStep (width : Int → Int) (target : Int) (s : Int × Int × Int) : Int × Int × Int :=
  if s.2.1 - s.1 > 1 then
    let mid := (s.1 + s.2.1) / 2
    if width mid ≤ target then (mid, s.2.1, mid) else (s.1, mid, s.2.2)
  else s

/-- The samples as the specification words them: of the pixels at pixel
indices 0, 10, 20, ... those of alpha at least 128, as `(r, g, b)`, in buffer
order.  Pixel `q` occupies the bytes `4 q .. 4 q + 3`. -/
def visitedSamples (pixels : List Nat) : List Color :=
  (List.range ((pixels.length / 4 + 9) / 10)).filterMap fun p =>
    if 128 ≤ pixels.getD (4 * (10 * p) + 3) 0 then
      some { r := pixels.getD (4 * (10 * p)) 0, g := pixels.getD (4 * (10 * p) + 1) 0,
             b := pixels.getD (4 * (10 * p) + 2) 0 }
    else none

/-- The function `colorDistance` (script.js 2654-2659), `Math.sqrt` being the
parameter `sqrt`; a double is a rational number. -/
def colorDistance (sqrt : Int → ℚ) (c1 c2 : Color) : ℚ :=
  let dr : Int := (c1.r : Int) - (c2.r : Int)
  let dg : Int := (c1.g : Int) - (c2.g : Int)
  let db : Int := (c1.b : Int) - (c2.b : Int)
  sqrt (dr * dr + dg * dg + db * db)

/-- The inner `centroids.forEach` of the assignment step (script.js 2624-2630)
comparing the distances `colorDistance` themselves; `minDist = none` is
`Infinity`. -/
def nearestLoopSqrt (sqrt : Int → ℚ) (color : Color) :
    List Color → Nat → Option ℚ → Nat → Nat
  | [], _, _, nearestCluster => nearestCluster
  | centroid :: rest, idx, minDist, nearestCluster =>
    let dist := colorDistance sqrt color centroid
    match minDist with
    | none => nearestLoopSqrt sqrt color rest (idx + 1) (some dist) idx
    | some m =>
      if dist < m then nearestLoopSqrt sqrt color rest (idx + 1) (some dist) idx
      else nearestLoopSqrt sqrt color rest (idx + 1) (some m) nearestCluster

/-! ## Lemmas on the clustering -/

theorem nearestLoop_lt (color : Color) :
    ∀ (cs : List Color) (idx : Nat) (md : Option Int) (nc bound : Nat),
      nc < bound → idx + cs.length ≤ bound → nearestLoop color cs idx md nc < bound := by
  intro cs
  induction cs with
  | nil => intro idx md nc bound hnc _; simpa [nearestLoop] using hnc
  | cons c rest ih =>
    intro idx md nc bound hnc hlen
    simp only [List.length_cons] at hlen
    cases md with
    | none =>
      simp only [nearestLoop]
      exact ih _ _ _ _ (by omega) (by omega)
    | some m =>
      simp only [nearestLoop]
      split
      · exact ih _ _ _ _ (by omega) (by omega)
      · exact ih _ _ _ _ hnc (by omega)

theorem nearestCluster_lt (color : Color) (cs : List Color) (h : 0 < cs.length) :
    nearestCluster color cs < cs.length :=
  nearestLoop_lt color cs 0 none 0 cs.length h (by omega)

theorem pushTo_spec (P : Color → Prop) (clusters : List (List Color)) (idx : Nat)
    (color : Color) (hidx : idx < clusters.length) (hc : P color)
    (hcl : ∀ cl ∈ clusters, ∀ x ∈ cl, P x) :
    ∃ out, pushTo clusters idx color = some out ∧ out.length = clusters.length ∧
      ∀ cl ∈ out, ∀ x ∈ cl, P x := by
  refine ⟨clusters.modify (fun cl => cl ++ [color]) idx, by simp [pushTo, hidx], by simp, ?_⟩
  obtain ⟨l₁, a, l₂, hl, _, hm⟩ :=
    List.exists_of_modify (fun cl => cl ++ [color]) hidx
  rw [hm]
  intro cl hmem x hx
  have hcl1 : ∀ cl ∈ l₁ ++ a :: l₂, ∀ x ∈ cl, P x := by rw [← hl]; exact hcl
  simp only [List.mem_append, List.mem_cons] at hmem hcl1
  rcases hmem with h | h | h
  · exact hcl1 cl (Or.inl h) x hx
  · subst h
    simp only [List.mem_append, List.mem_singleton] at hx
    rcases hx with hx | hx
    · exact hcl1 a (Or.inr (Or.inl rfl)) x hx
    · exact hx ▸ hc
  · exact hcl1 cl (Or.inr (Or.inr h)) x hx

theorem assignLoop_spec (P : Color → Prop) (centroids : List Color) :
    ∀ (colors : List Color) (clusters : List (List Color)),
      0 < centroids.length → centroids.length = clusters.length →
      (∀ c ∈ colors, P c) → (∀ cl ∈ clusters, ∀ x ∈ cl, P x) →
      ∃ out, assignLoop centroids colors clusters = some out ∧
        out.length = clusters.length ∧ ∀ cl ∈ out, ∀ x ∈ cl, P x := by
  intro colors
  induction colors with
  | nil => intro clusters _ _ _ hcl; exact ⟨clusters, rfl, rfl, hcl⟩
  | cons color rest ih =>
    intro clusters hpos hlen hP hcl
    have hidx : nearestCluster color centroids < clusters.length :=
      hlen ▸ nearestCluster_lt color centroids hpos
    obtain ⟨cl1, h1, hl1, hp1⟩ :=
      pushTo_spec P clusters _ color hidx (hP color (List.mem_cons_self _ _)) hcl
    obtain ⟨out, h2, hl2, hp2⟩ := ih cl1 hpos (by omega)
      (fun c hc => hP c (List.mem_cons_of_mem _ hc)) hp1
    exact ⟨out, by simp [assignLoop, h1, h2], by omega, hp2⟩

theorem mem_zipWith_updateCentroid :
    ∀ (centroids : List Color) (clusters : List (List Color)) (c : Color),
      c ∈ List.zipWith updateCentroid centroids clusters →
      ∃ c0 ∈ centroids, ∃ cl ∈ clusters, c = updateCentroid c0 cl := by
  intro centroids
  induction centroids with
  | nil => intro clusters c h; simp at h
  | cons c0 rest ih =>
    intro clusters c h
    cases clusters with
    | nil => simp at h
    | cons cl cls =>
      simp only [List.zipWith_cons_cons, List.mem_cons] at h
      rcases h with h | h
      · exact ⟨c0, List.mem_cons_self _ _, cl, List.mem_cons_self _ _, h⟩
      · obtain ⟨a, ha, b, hb, hab⟩ := ih cls c h
        exact ⟨a, List.mem_cons_of_mem _ ha, b, List.mem_cons_of_mem _ hb, hab⟩

/-- One pass keeps the number of centroids and any property `Q` of centroids
that `updateCentroid` keeps on clusters whose members satisfy `P`. -/
theorem kMeansStep_spec (P Q : Color → Prop) (colors : List Color) (k : Nat)
    (centroids : List Color)
    (hupd : ∀ c cl, Q c → (∀ x ∈ cl, P x) → Q (updateCentroid c cl))
    (hk : 0 < k) (hlen : centroids.length = k) (hP : ∀ c ∈ colors, P c)
    (hQ : ∀ c ∈ centroids, Q c) :
    ∃ out, kMeansStep colors k centroids = some out ∧ out.length = k ∧
      ∀ c ∈ out, Q c := by
  obtain ⟨cls, h1, hl1, hp1⟩ := assignLoop_spec P centroids colors (List.replicate k [])
    (by omega) (by simp [hlen]) hP (by
      intro cl hcl x hx
      rw [List.eq_of_mem_replicate hcl] at hx
      simp at hx)
  refine ⟨List.zipWith updateCentroid centroids cls, by simp [kMeansStep, h1], ?_, ?_⟩
  · simp only [List.length_zipWith, hl1, hlen, List.length_replicate]; omega
  · intro c hc
    obtain ⟨c0, hc0, cl, hcl, rfl⟩ := mem_zipWith_updateCentroid _ _ c hc
    exact hupd c0 cl (hQ c0 hc0) (hp1 cl hcl)

theorem kMeansIterate_spec (P Q : Color → Prop) (colors : List Color) (k : Nat)
    (hupd : ∀ c cl, Q c → (∀ x ∈ cl, P x) → Q (updateCentroid c cl))
    (hk : 0 < k) (hP : ∀ c ∈ colors, P c) :
    ∀ (n : Nat) (centroids : List Color), centroids.length = k →
      (∀ c ∈ centroids, Q c) →
      ∃ out, kMeansIterate colors k n centroids = some out ∧ out.length = k ∧
        ∀ c ∈ out, Q c := by
  intro n
  induction n with
  | zero => intro centroids hlen hQ; exact ⟨centroids, rfl, hlen, hQ⟩
  | succ n ih =>
    intro centroids hlen hQ
    obtain ⟨c1, h1, hl1, hq1⟩ := kMeansStep_spec P Q colors k centroids hupd hk hlen hP hQ
    obtain ⟨out, h2, hl2, hq2⟩ := ih c1 hl1 hq1
    exact ⟨out, by simp [kMeansIterate, h1, h2], hl2, hq2⟩

theorem initCentroids_length (colors : List Color) (k : Nat) (rand : Nat → Nat) :
    (initCentroids colors k rand).length = k := by
  simp [initCentroids]

theorem initCentroids_mem (colors : List Color) (k : Nat) (rand : Nat → Nat)
    (hne : colors ≠ []) : ∀ c ∈ initCentroids colors k rand, c ∈ colors := by
  intro c hc
  simp only [initCentroids, List.mem_map, List.mem_range] at hc
  obtain ⟨i, _, rfl⟩ := hc
  have hpos : 0 < colors.length := List.length_pos.mpr hne
  have hlt : randomIndex rand i colors.length < colors.length := Nat.mod_lt _ hpos
  rw [List.getD_eq_getElem _ _ hlt]
  exact List.getElem_mem _

/-- With at least one sample and `k ≥ 1` the ten passes run to the end and
leave `k` centroids; a property of the samples that `updateCentroid` keeps
holds of all of them. -/
theorem finalCentroids_spec (P : Color → Prop) (colors : List Color) (k : Nat)
    (rand : Nat → Nat)
    (hupd : ∀ c cl, P c → (∀ x ∈ cl, P x) → P (updateCentroid c cl))
    (hk : 0 < k) (hne : colors ≠ []) (hP : ∀ c ∈ colors, P c) :
    ∃ out, finalCentroids colors k rand = some out ∧ out.length = k ∧
      ∀ c ∈ out, P c :=
  kMeansIterate_spec P P colors k hupd hk hP 10 _ (initCentroids_length colors k rand)
    (fun c hc => hP c (initCentroids_mem colors k rand hne c hc))

/-! ## Lemmas on the sampling loop -/

theorem sampleLoop_unfold (pixels : List Nat) (i : Nat) (acc : List Color) :
    sampleLoop pixels i acc =
      if i < pixels.length then
        if pixels.getD (i + 3) 0 < 128 then sampleLoop pixels (i + 40) acc
        else sampleLoop pixels (i + 40)
          (acc ++ [{ r := pixels.getD i 0, g := pixels.getD (i + 1) 0,
                     b := pixels.getD (i + 2) 0 }])
      else acc := by
  rw [sampleLoop]
  simp only [sampleRate]
  split <;> rfl

theorem sampleLoop_acc_ne_nil (pixels : List Nat) :
    ∀ (n i : Nat) (acc : List Color), pixels.length - i ≤ n → acc ≠ [] →
      sampleLoop pixels i acc ≠ [] := by
  intro n
  induction n with
  | zero =>
    intro i acc hn hacc
    rw [sampleLoop_unfold, if_neg (by omega)]
    exact hacc
  | succ n ih =>
    intro i acc hn hacc
    rw [sampleLoop_unfold]
    split
    · split
      · exact ih _ _ (by omega) hacc
      · exact ih _ _ (by omega) (by simp)
    · exact hacc

/-- A visited pixel with alpha at least 128 leaves the sample list non-empty. -/
theorem sampleLoop_ne_nil (pixels : List Nat) :
    ∀ (j i : Nat) (acc : List Color), i + 40 * j < pixels.length →
      128 ≤ pixels.getD (i + 40 * j + 3) 0 → sampleLoop pixels i acc ≠ [] := by
  intro j
  induction j with
  | zero =>
    intro i acc hlt ha
    simp only [Nat.mul_zero, Nat.add_zero] at hlt ha
    rw [sampleLoop_unfold, if_pos hlt, if_neg (by omega)]
    exact sampleLoop_acc_ne_nil pixels _ _ _ (Nat.le_refl _) (by simp)
  | succ j ih =>
    intro i acc hlt ha
    have h1 : i + 40 + 40 * j < pixels.length := by omega
    have h2 : 128 ≤ pixels.getD (i + 40 + 40 * j + 3) 0 := by
      have : i + 40 + 40 * j + 3 = i + 40 * (j + 1) + 3 := by omega
      rw [this]; exact ha
    rw [sampleLoop_unfold, if_pos (by omega)]
    split
    · exact ih _ _ h1 h2
    · exact ih _ _ h1 h2

/-- When every visited pixel has alpha below 128 nothing is pushed. -/
theorem sampleLoop_transparent (pixels : List Nat) :
    ∀ (n i : Nat) (acc : List Color), pixels.length - i ≤ n →
      (∀ j, i + 40 * j < pixels.length → pixels.getD (i + 40 * j + 3) 0 < 128) →
      sampleLoop pixels i acc = acc := by
  intro n
  induction n with
  | zero =>
    intro i acc hn _
    rw [sampleLoop_unfold, if_neg (by omega)]
  | succ n ih =>
    intro i acc hn h
    rw [sampleLoop_unfold]
    split
    · rename_i hlt
      have h0 := h 0 (by simpa using hlt)
      simp only [Nat.mul_zero, Nat.add_zero] at h0
      rw [if_pos h0]
      refine ih _ _ (by omega) ?_
      intro j hj
      have := h (j + 1) (by omega)
      have e : i + 40 * (j + 1) + 3 = i + 40 + 40 * j + 3 := by omega
      rw [e] at this
      exact this
    · rfl

/-! ## Lemmas on the centroid update and the hex encoding -/

theorem roundDiv_le (s n : Nat) (hn : 0 < n) (hs : s ≤ 255 * n) : roundDiv s n ≤ 255 := by
  unfold roundDiv
  have : (2 * s + n) / (2 * n) < 256 := Nat.div_lt_of_lt_mul (by omega)
  omega

theorem roundDiv_mul (n c : Nat) (hn : 0 < n) : roundDiv (n * c) n = c := by
  unfold roundDiv
  apply Nat.div_eq_of_lt_le
  · have : c * (2 * n) = 2 * (n * c) := by ring
    omega
  · have : (c + 1) * (2 * n) = 2 * (n * c) + 2 * n := by ring
    omega

theorem sum_foldl_le (cl : List Color) :
    ∀ acc : Color, (∀ x ∈ cl, x.InRange) →
      (cl.foldl (fun acc color =>
          ({ r := acc.r + color.r, g := acc.g + color.g, b := acc.b + color.b } : Color))
        acc).r ≤ acc.r + 255 * cl.length ∧
      (cl.foldl (fun acc color =>
          ({ r := acc.r + color.r, g := acc.g + color.g, b := acc.b + color.b } : Color))
        acc).g ≤ acc.g + 255 * cl.length ∧
      (cl.foldl (fun acc color =>
          ({ r := acc.r + color.r, g := acc.g + color.g, b := acc.b + color.b } : Color))
        acc).b ≤ acc.b + 255 * cl.length := by
  induction cl with
  | nil => intro acc _; simp
  | cons x rest ih =>
    intro acc h
    have hx : x.InRange := h x (List.mem_cons_self _ _)
    obtain ⟨h1, h2, h3⟩ := ih
      { r := acc.r + x.r, g := acc.g + x.g, b := acc.b + x.b }
      (fun y hy => h y (List.mem_cons_of_mem _ hy))
    obtain ⟨x1, x2, x3⟩ := hx
    simp only [List.foldl_cons, List.length_cons]
    simp only at h1 h2 h3
    refine ⟨by omega, by omega, by omega⟩

theorem sum_foldl_eq (C : Color) (cl : List Color) :
    ∀ acc : Color, (∀ x ∈ cl, x = C) →
      cl.foldl (fun acc color =>
          ({ r := acc.r + color.r, g := acc.g + color.g, b := acc.b + color.b } : Color))
        acc =
      { r := acc.r + cl.length * C.r, g := acc.g + cl.length * C.g,
        b := acc.b + cl.length * C.b } := by
  induction cl with
  | nil => intro acc _; simp
  | cons x rest ih =>
    intro acc h
    have hx : x = C := h x (List.mem_cons_self _ _)
    subst hx
    rw [List.foldl_cons, ih _ (fun y hy => h y (List.mem_cons_of_mem _ hy))]
    simp only [List.length_cons, Color.mk.injEq]
    refine ⟨by ring, by ring, by ring⟩

theorem updateCentroid_inRange (c : Color) (cl : List Color) (hc : c.InRange)
    (hcl : ∀ x ∈ cl, x.InRange) : (updateCentroid c cl).InRange := by
  unfold updateCentroid
  split
  · rename_i hpos
    obtain ⟨h1, h2, h3⟩ := sum_foldl_le cl { r := 0, g := 0, b := 0 } hcl
    simp only [Nat.zero_add] at h1 h2 h3
    exact ⟨roundDiv_le _ _ hpos h1, roundDiv_le _ _ hpos h2, roundDiv_le _ _ hpos h3⟩
  · exact hc

theorem updateCentroid_solid (C c : Color) (cl : List Color) (hc : c = C)
    (hcl : ∀ x ∈ cl, x = C) : updateCentroid c cl = C := by
  unfold updateCentroid
  split
  · rename_i hpos
    simp only [sum_foldl_eq C cl _ hcl, Nat.zero_add, roundDiv_mul _ _ hpos]
  · exact hc

set_option maxRecDepth 100000 in
theorem toString16_pad : ∀ x, x < 256 →
    (if (toString16 x).length = 1 then "0" ++ toString16 x else toString16 x)
      = String.mk (hexPair x) := by
  decide

theorem rgbToHex_eq (r g b : Nat) (hr : r < 256) (hg : g < 256) (hb : b < 256) :
    rgbToHex r g b = String.mk ('#' :: (hexPair r ++ hexPair g ++ hexPair b)) := by
  simp only [rgbToHex, List.map, String.join, List.foldl]
  rw [toString16_pad r hr, toString16_pad g hg, toString16_pad b hb]
  rfl

theorem kMeansClustering_of_final (colors : List Color) (k : Nat) (rand : Nat → Nat)
    (cs : List Color) (hne : colors ≠ []) (h : finalCentroids colors k rand = some cs) :
    kMeansClustering colors k rand =
      some (cs.map fun centroid => rgbToHex centroid.r centroid.g centroid.b) := by
  have hlen : colors.length ≠ 0 := fun h0 => hne (List.length_eq_zero.mp h0)
  simp only [kMeansClustering, if_neg hlen, h]

/-- With at least one sample and `k ≥ 1`, `kMeansClustering` returns `k`
strings. -/
theorem kMeansClustering_length (colors : List Color) (k : Nat) (rand : Nat → Nat)
    (hk : 0 < k) (hne : colors ≠ []) :
    ∃ out, kMeansClustering colors k rand = some out ∧ out.length = k := by
  have hu : ∀ (c : Color) (cl : List Color), True → (∀ x ∈ cl, True) → True :=
    fun _ _ _ _ => trivial
  obtain ⟨cs, h1, hl, -⟩ :=
    finalCentroids_spec (fun _ => True) colors k rand hu hk hne (fun _ _ => trivial)
  have h2 := kMeansClustering_of_final colors k rand cs hne h1
  exact ⟨_, h2, by rw [List.length_map]; exact hl⟩

theorem kMeansIterate_zero_k (colors : List Color) (hne : colors ≠ []) (n : Nat) :
    kMeansIterate colors 0 (n + 1) [] = none := by
  cases colors with
  | nil => exact absurd rfl hne
  | cons c rest => simp [kMeansIterate, kMeansStep, assignLoop, pushTo]

theorem kMeansIterate_inRange (colors : List Color) (k : Nat) (rand : Nat → Nat)
    (hne : colors ≠ []) (hr : ∀ c ∈ colors, c.InRange) (n : Nat) (cs : List Color)
    (h : kMeansIterate colors k n (initCentroids colors k rand) = some cs) :
    ∀ c ∈ cs, c.InRange := by
  rcases Nat.eq_zero_or_pos k with hk | hk
  · subst hk
    cases n with
    | zero =>
      simp only [kMeansIterate, initCentroids, List.range_zero, List.map_nil,
        Option.some.injEq] at h
      subst h
      intro c hc
      simp at hc
    | succ n =>
      have h0 : initCentroids colors 0 rand = [] := by simp [initCentroids]
      rw [h0, kMeansIterate_zero_k colors hne n] at h
      simp at h
  · obtain ⟨out, h1, _, h3⟩ := kMeansIterate_spec Color.InRange Color.InRange colors k
      updateCentroid_inRange hk hr n _ (initCentroids_length colors k rand)
      (fun c hc => hr c (initCentroids_mem colors k rand hne c hc))
    rw [h1] at h
    simp only [Option.some.injEq] at h
    subst h
    exact h3

/-! ## Claims on the palette extraction -/

/-- C1 (as stated, refuted): an image whose only opaque pixel is at pixel index 1,
which the stride of ten pixels does not visit, yields the empty palette for
`k = 5`, not five strings. -/
theorem extractColorPalette_unvisited_opaque_pixel :
    128 ≤ List.getD [0, 0, 0, 0, 255, 0, 0, 255] 7 0 ∧
      extractColorPalette [0, 0, 0, 0, 255, 0, 0, 255] 5 (fun _ => 0) = some [] := by
  refine ⟨by decide, ?_⟩
  have h : colorSamples [0, 0, 0, 0, 255, 0, 0, 255] = [] := by
    simp [colorSamples, sampleLoop, sampleRate]
  simp [extractColorPalette, h, kMeansClustering]

/-- C1 (amended): for every RGBA buffer in which some pixel visited by the
sampling stride (pixel index `10 * j`, byte index `40 * j`) has alpha at least
128, and every `k ≥ 1`, `extractColorPalette` returns exactly `k` strings. -/
theorem extractColorPalette_length_of_visited_opaque (pixels : List Nat) (k : Nat)
    (rand : Nat → Nat) (_hwf : pixels.length % 4 = 0) (j : Nat)
    (hj : 40 * j < pixels.length) (ha : 128 ≤ pixels.getD (40 * j + 3) 0)
    (hk : 1 ≤ k) :
    ∃ out, extractColorPalette pixels k rand = some out ∧ out.length = k := by
  have hne : colorSamples pixels ≠ [] :=
    sampleLoop_ne_nil pixels j 0 [] (by omega) (by simpa using ha)
  exact kMeansClustering_length (colorSamples pixels) k rand hk hne

theorem extractColorPalette_length_of_visited_opaque_witness :
    ∃ out, extractColorPalette [10, 20, 30, 255, 1, 2, 3, 0] 2 (fun i => i) = some out ∧
      out.length = 2 :=
  extractColorPalette_length_of_visited_opaque [10, 20, 30, 255, 1, 2, 3, 0] 2 (fun i => i)
    (by decide) 0 (by decide) (by decide) (by decide)

/-- C2 (the code at the failing input): with one sample and `k = 0` the first
`clusters[nearestCluster].push(color)` finds `clusters[0]` undefined, so
`kMeansClustering` throws instead of returning the empty list. -/
theorem kMeansClustering_zero_k_throws :
    kMeansClustering [{ r := 10, g := 20, b := 30 }] 0 (fun _ => 0) = none := by
  decide

/-- C3: when every pixel visited by the sampling stride has alpha below 128
(in particular on the empty buffer) `extractColorPalette` returns the empty
palette, for every `k` and every random draw, and does not throw. -/
theorem extractColorPalette_transparent (pixels : List Nat) (k : Nat) (rand : Nat → Nat)
    (_hwf : pixels.length % 4 = 0)
    (h : ∀ j, 40 * j < pixels.length → pixels.getD (40 * j + 3) 0 < 128) :
    extractColorPalette pixels k rand = some [] := by
  have hs : colorSamples pixels = [] :=
    sampleLoop_transparent pixels pixels.length 0 [] (by omega)
      (fun j hj => by simpa using h j (by omega))
  simp [extractColorPalette, hs, kMeansClustering]

theorem extractColorPalette_transparent_witness :
    extractColorPalette [1, 2, 3, 127, 4, 5, 6, 255] 5 (fun i => i) = some [] :=
  extractColorPalette_transparent [1, 2, 3, 127, 4, 5, 6, 255] 5 (fun i => i) (by decide)
    (by
      intro j hj
      have hj0 : j = 0 := by simp at hj; omega
      subst hj0
      decide)

/-- C4: when all samples are the one colour `C` and `k ≥ 1`, whatever the
initial draws, `kMeansClustering` returns the hex string of `C` exactly `k`
times; so every returned string encodes a colour within one of `C` on each
channel. -/
theorem kMeansClustering_solid (colors : List Color) (C : Color) (k : Nat)
    (rand : Nat → Nat) (hne : colors ≠ []) (hC : ∀ c ∈ colors, c = C) (hk : 1 ≤ k) :
    ∃ out, kMeansClustering colors k rand = some out ∧
      out = List.replicate k (rgbToHex C.r C.g C.b) ∧
      ∀ s ∈ out, ∃ c : Color, s = rgbToHex c.r c.g c.b ∧
        c.r ≤ C.r + 1 ∧ C.r ≤ c.r + 1 ∧ c.g ≤ C.g + 1 ∧ C.g ≤ c.g + 1 ∧
        c.b ≤ C.b + 1 ∧ C.b ≤ c.b + 1 := by
  obtain ⟨cs, h1, hl, hall⟩ := finalCentroids_spec (fun c => c = C) colors k rand
    (fun c cl hc hcl => updateCentroid_solid C c cl hc hcl) hk hne hC
  have hcs : cs = List.replicate k C := by
    rw [← hl]
    exact List.eq_replicate_iff.mpr ⟨rfl, hall⟩
  have h2 := kMeansClustering_of_final colors k rand cs hne h1
  rw [hcs, List.map_replicate] at h2
  refine ⟨_, h2, rfl, ?_⟩
  intro s hs
  rw [List.eq_of_mem_replicate hs]
  exact ⟨C, rfl, by omega, by omega, by omega, by omega, by omega, by omega⟩

theorem kMeansClustering_solid_witness :
    ∃ out, kMeansClustering [{ r := 18, g := 52, b := 86 }, { r := 18, g := 52, b := 86 }] 5
        (fun i => i) = some out ∧
      out = List.replicate 5 (rgbToHex 18 52 86) ∧
      ∀ s ∈ out, ∃ c : Color, s = rgbToHex c.r c.g c.b ∧
        c.r ≤ 18 + 1 ∧ 18 ≤ c.r + 1 ∧ c.g ≤ 52 + 1 ∧ 52 ≤ c.g + 1 ∧
        c.b ≤ 86 + 1 ∧ 86 ≤ c.b + 1 :=
  kMeansClustering_solid [{ r := 18, g := 52, b := 86 }, { r := 18, g := 52, b := 86 }]
    { r := 18, g := 52, b := 86 } 5 (fun i => i) (by decide) (by decide) (by decide)

/-- C5: for samples with byte channels, the centroids stay byte-valued through
every number of passes, and the strings returned by `kMeansClustering` are, in
centroid order, `#` followed by the two-digit lowercase hex of the red, green
and blue channel of the final centroids: seven characters each.  For `k ≥ 1`
there are `k` of them. -/
theorem kMeansClustering_hex_format (colors : List Color) (k : Nat) (rand : Nat → Nat)
    (hne : colors ≠ []) (hr : ∀ c ∈ colors, c.InRange) :
    (∀ n cs, kMeansIterate colors k n (initCentroids colors k rand) = some cs →
      ∀ c ∈ cs, c.InRange) ∧
    (∀ out, kMeansClustering colors k rand = some out →
      ∃ cs, finalCentroids colors k rand = some cs ∧
        out = cs.map (fun c =>
          String.mk ('#' :: (hexPair c.r ++ hexPair c.g ++ hexPair c.b))) ∧
        ∀ s ∈ out, s.length = 7) ∧
    (1 ≤ k → ∃ out, kMeansClustering colors k rand = some out ∧ out.length = k) := by
  refine ⟨kMeansIterate_inRange colors k rand hne hr, ?_,
    fun hk => kMeansClustering_length colors k rand hk hne⟩
  intro out hout
  cases hfin : finalCentroids colors k rand with
  | none =>
    have hlen : colors.length ≠ 0 := fun h0 => hne (List.length_eq_zero.mp h0)
    simp [kMeansClustering, hlen, hfin] at hout
  | some cs =>
    have hin : ∀ c ∈ cs, c.InRange := kMeansIterate_inRange colors k rand hne hr 10 cs hfin
    have h2 := kMeansClustering_of_final colors k rand cs hne hfin
    rw [h2] at hout
    simp only [Option.some.injEq] at hout
    have hmap : out = cs.map (fun c =>
        String.mk ('#' :: (hexPair c.r ++ hexPair c.g ++ hexPair c.b))) := by
      rw [← hout]
      apply List.map_congr_left
      intro c hc
      obtain ⟨h1, h2, h3⟩ := hin c hc
      exact rgbToHex_eq c.r c.g c.b (by omega) (by omega) (by omega)
    refine ⟨cs, rfl, hmap, ?_⟩
    intro s hs
    rw [hmap] at hs
    simp only [List.mem_map] at hs
    obtain ⟨c, _, rfl⟩ := hs
    rfl

theorem kMeansClustering_hex_format_witness :
    (∀ n cs, kMeansIterate [{ r := 255, g := 0, b := 16 }, { r := 1, g := 2, b := 3 }] 3 n
        (initCentroids [{ r := 255, g := 0, b := 16 }, { r := 1, g := 2, b := 3 }] 3
          (fun i => i)) = some cs → ∀ c ∈ cs, c.InRange) ∧
    (∀ out, kMeansClustering [{ r := 255, g := 0, b := 16 }, { r := 1, g := 2, b := 3 }] 3
        (fun i => i) = some out →
      ∃ cs, finalCentroids [{ r := 255, g := 0, b := 16 }, { r := 1, g := 2, b := 3 }] 3
          (fun i => i) = some cs ∧
        out = cs.map (fun c =>
          String.mk ('#' :: (hexPair c.r ++ hexPair c.g ++ hexPair c.b))) ∧
        ∀ s ∈ out, s.length = 7) ∧
    (1 ≤ 3 → ∃ out, kMeansClustering [{ r := 255, g := 0, b := 16 }, { r := 1, g := 2, b := 3 }]
        3 (fun i => i) = some out ∧ out.length = 3) :=
  kMeansClustering_hex_format [{ r := 255, g := 0, b := 16 }, { r := 1, g := 2, b := 3 }] 3
    (fun i => i) (by decide) (by
      intro c hc
      simp only [List.mem_cons, List.mem_singleton, List.not_mem_nil, or_false] at hc
      rcases hc with rfl | rfl <;> simp [Color.InRange])

/-! ## Lemmas on the search loops -/

/-- Started on a bracket whose lower end fits and whose upper end does not, the
binary search stops at a size that fits while the next size does not. -/
theorem binarySearch_spec (width : Int → Int) (T : Int) :
    ∀ (n : Nat) (lo hi : Int), (hi - lo).toNat ≤ n → lo < hi → width lo ≤ T →
      T < width hi →
      ∃ S, lo ≤ S ∧ S < hi ∧ width S ≤ T ∧ T < width (S + 1) ∧
        ∀ fuel, n ≤ fuel → binarySearch width T fuel lo hi lo = some S := by
  intro n
  induction n with
  | zero => intro lo hi hn hlt _ _; omega
  | succ n ih =>
    intro lo hi hn hlt hlo hhi
    by_cases hgap : hi - lo > 1
    · by_cases hfit : width ((lo + hi) / 2) ≤ T
      · obtain ⟨S, h1, h2, h3, h4, h5⟩ :=
          ih ((lo + hi) / 2) hi (by omega) (by omega) hfit hhi
        refine ⟨S, by omega, h2, h3, h4, ?_⟩
        intro fuel hf
        cases fuel with
        | zero => omega
        | succ f =>
          simp only [binarySearch, if_pos hgap, if_pos hfit]
          exact h5 f (by omega)
      · obtain ⟨S, h1, h2, h3, h4, h5⟩ :=
          ih lo ((lo + hi) / 2) (by omega) (by omega) hlo (by omega)
        refine ⟨S, h1, by omega, h3, h4, ?_⟩
        intro fuel hf
        cases fuel with
        | zero => omega
        | succ f =>
          simp only [binarySearch, if_pos hgap, if_neg hfit]
          exact h5 f (by omega)
    · have hhi1 : hi = lo + 1 := by omega
      refine ⟨lo, by omega, hlt, hlo, hhi1 ▸ hhi, ?_⟩
      intro fuel _
      cases fuel <;> simp only [binarySearch, if_neg hgap]

/-- On an empty or one-step bracket the binary search returns `optimalSize`
unchanged, whatever the fuel. -/
theorem binarySearch_skip (width : Int → Int) (T : Int) (fuel : Nat) (lo hi opt : Int)
    (h : ¬ hi - lo > 1) : binarySearch width T fuel lo hi opt = some opt := by
  cases fuel <;> simp only [binarySearch, if_neg h]

/-- The halving loop stops, for a non-negative minimum, at a size that fits or
is not above the minimum; when it has halved at all, the size `2 * m + 1` does
not fit. -/
theorem halveLoop_spec (width : Int → Int) (W min : Int) (hmono : Monotone width)
    (hmin : 0 ≤ min) :
    ∀ (n : Nat) (max : Int), max.toNat ≤ n → 0 ≤ max →
      ∃ m, 0 ≤ m ∧ m ≤ max ∧ ¬ (width m > W ∧ m > min) ∧
        (m = max ∨ W < width (2 * m + 1)) ∧
        ∀ fuel, n ≤ fuel → halveLoop width W min fuel max = some m := by
  intro n
  induction n with
  | zero =>
    intro max hn hmax
    have h0 : max = 0 := by omega
    subst h0
    have hc : ¬ (width 0 > W ∧ (0 : Int) > min) := by
      intro h; omega
    refine ⟨0, le_refl _, le_refl _, hc, Or.inl rfl, ?_⟩
    intro fuel _
    cases fuel <;> simp only [halveLoop, if_neg hc]
  | succ n ih =>
    intro max hn hmax
    by_cases hc : width max > W ∧ max > min
    · obtain ⟨m, h1, h2, h3, h4, h5⟩ := ih (max / 2) (by omega) (by omega)
      refine ⟨m, h1, by omega, h3, Or.inr ?_, ?_⟩
      · rcases h4 with h4 | h4
        · have hle : max ≤ 2 * m + 1 := by omega
          have := hmono hle
          omega
        · exact h4
      · intro fuel hf
        cases fuel with
        | zero => omega
        | succ f =>
          simp only [halveLoop, if_pos hc]
          exact h5 f (by omega)
    · refine ⟨max, hmax, le_refl _, hc, Or.inl rfl, ?_⟩
      intro fuel _
      cases fuel <;> simp only [halveLoop, if_neg hc]

/-- The expansion loop stops when some size does not fit: it ends with
`min = optimalSize = o'`, a size that fits whose double does not (or `o' = 0`
when it started from 0). -/
theorem expandLoop_spec (width : Int → Int) (W : Int) (hmono : Monotone width)
    (s0 : Int) (hs0 : W < width s0) :
    ∀ (n : Nat) (t o : Int), (s0 - t).toNat ≤ n → 0 ≤ o → width o ≤ W → t ≤ 2 * o →
      ((t = 0 ∧ o = 0) ∨ (2 ≤ t ∧ o < t)) →
      ∃ o2, o ≤ o2 ∧ width o2 ≤ W ∧ ((o2 = 0 ∧ o = 0) ∨ W < width (2 * o2)) ∧
        ∀ fuel, n + 1 ≤ fuel → expandLoop width W fuel t o o = some (o2, o2) := by
  intro n
  induction n with
  | zero =>
    intro t o hn ho hfit ht hshape
    by_cases hgt : t > o
    · have hle : s0 ≤ t := by omega
      have hw : ¬ width t ≤ W := by
        have := hmono hle
        omega
      refine ⟨o, le_refl _, hfit, Or.inr ?_, ?_⟩
      · have := hmono ht
        omega
      · intro fuel hf
        cases fuel with
        | zero => omega
        | succ f => simp only [expandLoop, if_pos hgt, if_neg hw]
    · refine ⟨o, le_refl _, hfit, Or.inl ?_, ?_⟩
      · omega
      · intro fuel _
        cases fuel <;> simp only [expandLoop, if_neg hgt]
  | succ n ih =>
    intro t o hn ho hfit ht hshape
    by_cases hgt : t > o
    · by_cases hw : width t ≤ W
      · have hlt : t < s0 := by
          by_contra hcon
          have := hmono (not_lt.mp hcon)
          omega
        obtain ⟨o2, h1, h2, h3, h4⟩ :=
          ih (t * 3 / 2) t (by omega) (by omega) hw (by omega) (Or.inr (by omega))
        refine ⟨o2, by omega, h2, Or.inr ?_, ?_⟩
        · rcases h3 with h3 | h3
          · omega
          · exact h3
        · intro fuel hf
          cases fuel with
          | zero => omega
          | succ f =>
            simp only [expandLoop, if_pos hgt, if_pos hw]
            exact h4 f (by omega)
      · refine ⟨o, le_refl _, hfit, Or.inr ?_, ?_⟩
        · have := hmono ht
          omega
        · intro fuel hf
          cases fuel with
          | zero => omega
          | succ f => simp only [expandLoop, if_pos hgt, if_neg hw]
    · refine ⟨o, le_refl _, hfit, Or.inl ?_, ?_⟩
      · omega
      · intro fuel _
        cases fuel <;> simp only [expandLoop, if_neg hgt]

/-- For a monotone measurement, a positive container width, a non-negative
minimum that fits and some size that does not fit, the search of
`fitTextToLine` ends, with enough fuel, at a size that fits while the next one
does not. -/
theorem fitTextToLineSize_spec (width : Int → Int) (W min : Int) (hmono : Monotone width)
    (hmin : 0 ≤ min) (hW : 0 < W) (hfitmin : width min ≤ W) (s0 : Int)
    (hs0 : W < width s0) :
    ∃ S, width S ≤ W ∧ W < width (S + 1) ∧
      ∃ N, ∀ fuel, N ≤ fuel → fitTextToLineSize width W min fuel = some S := by
  obtain ⟨m, hm0, _, hstop, hhalved, hrun1⟩ :=
    halveLoop_spec width W min hmono hmin (W * 10).toNat (W * 10) (le_refl _) (by omega)
  have hfitm : width m ≤ W := by
    by_cases h : width m ≤ W
    · exact h
    · have hm : ¬ m > min := fun hgt => hstop ⟨by omega, hgt⟩
      have := hmono (not_lt.mp hm)
      omega
  obtain ⟨o2, h1, h2, h3, hrun2⟩ :=
    expandLoop_spec width W hmono s0 hs0 (s0 - m * 2).toNat (m * 2) m (le_refl _) hm0 hfitm
      (by omega) (by omega)
  by_cases ho2 : o2 = 0
  · subst ho2
    have hm : m = 0 := by omega
    subst hm
    have h1' : W < width (0 + 1) := by
      rcases hhalved with h | h
      · omega
      · simpa using h
    refine ⟨0, h2, h1', (W * 10).toNat + ((s0 - 0 * 2).toNat + 1), ?_⟩
    intro fuel hf
    simp only [fitTextToLineSize, hrun1 fuel (by omega), if_pos hfitm,
      hrun2 fuel (by omega)]
    exact binarySearch_skip width W fuel 0 (0 * 2) 0 (by omega)
  · have hpos : 0 < o2 := by omega
    have hbig : W < width (o2 * 2) := by
      rcases h3 with h | h
      · omega
      · rw [mul_comm]; exact h
    obtain ⟨S, _, _, hS1, hS2, hrun3⟩ :=
      binarySearch_spec width W (o2 * 2 - o2).toNat o2 (o2 * 2) (le_refl _) (by omega) h2
        hbig
    refine ⟨S, hS1, hS2,
      (W * 10).toNat + ((s0 - m * 2).toNat + 1) + (o2 * 2 - o2).toNat, ?_⟩
    intro fuel hf
    simp only [fitTextToLineSize, hrun1 fuel (by omega), if_pos hfitm,
      hrun2 fuel (by omega)]
    exact hrun3 fuel (by omega)

/-- The binary search ends from every bracket. -/
theorem binarySearch_terminates (width : Int → Int) (T : Int) :
    ∀ (n : Nat) (lo hi opt : Int), (hi - lo).toNat ≤ n →
      ∃ S, ∀ fuel, n ≤ fuel → binarySearch width T fuel lo hi opt = some S := by
  intro n
  induction n with
  | zero =>
    intro lo hi opt hn
    exact ⟨opt, fun fuel _ => binarySearch_skip width T fuel lo hi opt (by omega)⟩
  | succ n ih =>
    intro lo hi opt hn
    by_cases hgap : hi - lo > 1
    · by_cases hfit : width ((lo + hi) / 2) ≤ T
      · obtain ⟨S, hS⟩ := ih ((lo + hi) / 2) hi ((lo + hi) / 2) (by omega)
        refine ⟨S, ?_⟩
        intro fuel hf
        cases fuel with
        | zero => omega
        | succ f =>
          simp only [binarySearch, if_pos hgap, if_pos hfit]
          exact hS f (by omega)
      · obtain ⟨S, hS⟩ := ih lo ((lo + hi) / 2) opt (by omega)
        refine ⟨S, ?_⟩
        intro fuel hf
        cases fuel with
        | zero => omega
        | succ f =>
          simp only [binarySearch, if_pos hgap, if_neg hfit]
          exact hS f (by omega)
    · exact ⟨opt, fun fuel _ => binarySearch_skip width T fuel lo hi opt hgap⟩

/-- For a monotone measurement, a non-negative minimum and container width, the
three loops of `fitTextToLine` all end as soon as some size does not fit. -/
theorem fitTextToLineSize_terminates (width : Int → Int) (W min : Int)
    (hmono : Monotone width) (hmin : 0 ≤ min) (hW : 0 ≤ W) (s0 : Int)
    (hs0 : W < width s0) :
    ∃ S N, ∀ fuel, N ≤ fuel → fitTextToLineSize width W min fuel = some S := by
  obtain ⟨m, hm0, _, _, _, hrun1⟩ :=
    halveLoop_spec width W min hmono hmin (W * 10).toNat (W * 10) (le_refl _) (by omega)
  by_cases hfitm : width m ≤ W
  · obtain ⟨o2, _, _, _, hrun2⟩ :=
      expandLoop_spec width W hmono s0 hs0 (s0 - m * 2).toNat (m * 2) m (le_refl _) hm0
        hfitm (by omega) (by omega)
    obtain ⟨S, hS⟩ :=
      binarySearch_terminates width W (o2 * 2 - o2).toNat o2 (o2 * 2) o2 (le_refl _)
    refine ⟨S, (W * 10).toNat + ((s0 - m * 2).toNat + 1) + (o2 * 2 - o2).toNat, ?_⟩
    intro fuel hf
    simp only [fitTextToLineSize, hrun1 fuel (by omega), if_pos hfitm,
      hrun2 fuel (by omega)]
    exact hS fuel (by omega)
  · obtain ⟨S, hS⟩ :=
      binarySearch_terminates width W (m - min).toNat min m min (le_refl _)
    refine ⟨S, (W * 10).toNat + (m - min).toNat, ?_⟩
    intro fuel hf
    simp only [fitTextToLineSize, hrun1 fuel (by omega), if_neg hfitm]
    exact hS fuel (by omega)

/-- A null element makes both functions return `undefined` at once, and so
does `maxWidth = 0` in `fitTextToContainer`, the element left as it was. -/
theorem fit_guards (el : Element) (maxWidth minFontSize : Int) (fuel : Nat) :
    fitTextToContainer none maxWidth minFontSize fuel
        = some { returned := none, element := none } ∧
      fitTextToLine none minFontSize fuel = some { returned := none, element := none } ∧
      fitTextToContainer (some el) 0 minFontSize fuel
        = some { returned := none, element := some el } :=
  ⟨rfl, rfl, by simp [fitTextToContainer]⟩

/-! ## Claims on the text fitting -/

/-- C6 (as stated, refuted): with the monotone measurement `width s = 10 * s`,
container width 5 and minimum 20, `fitTextToLine` returns 20, whose width 200
exceeds 5. -/
theorem fitTextToLine_minimum_does_not_fit :
    Monotone (fun s : Int => 10 * s) ∧
      (fitTextToLine
          (some { textWidth := fun s => 10 * s, parentClientWidth := 5,
                  styleFontSize := none }) 20 4).map FitOutcome.returned
        = some (some 20) ∧
      ¬ ((fun s : Int => 10 * s) 20 ≤ 5) := by
  refine ⟨?_, by decide, by decide⟩
  intro a b hab
  show 10 * a ≤ 10 * b
  omega

/-- C6 (amended): for every measurement that is monotone in the font size,
every container width `W > 0` and every minimum `minFontSize ≥ 0` whose width
fits, if some size does not fit then `fitTextToLine` ends and the size `S` it
returns and applies satisfies `width S ≤ W` and `width (S + 1) > W`. -/
theorem fitTextToLine_fits_maximal (el : Element) (minFontSize : Int)
    (hmono : Monotone el.textWidth) (hmin : 0 ≤ minFontSize)
    (hW : 0 < el.parentClientWidth)
    (hfitmin : el.textWidth minFontSize ≤ (el.parentClientWidth : Int))
    (s0 : Int) (hs0 : (el.parentClientWidth : Int) < el.textWidth s0) :
    ∃ S, el.textWidth S ≤ (el.parentClientWidth : Int) ∧
      (el.parentClientWidth : Int) < el.textWidth (S + 1) ∧
      ∃ N, ∀ fuel, N ≤ fuel →
        fitTextToLine (some el) minFontSize fuel =
          some { returned := some S, element := some { el with styleFontSize := some S } } := by
  obtain ⟨S, h1, h2, N, hN⟩ := fitTextToLineSize_spec el.textWidth
    (el.parentClientWidth : Int) minFontSize hmono hmin (by omega) hfitmin s0 hs0
  refine ⟨S, h1, h2, N, ?_⟩
  intro fuel hf
  simp only [fitTextToLine, hN fuel hf]

theorem fitTextToLine_fits_maximal_witness :
    ∃ S, (fun s : Int => 3 * s) S ≤ ((300 : Nat) : Int) ∧
      ((300 : Nat) : Int) < (fun s : Int => 3 * s) (S + 1) ∧
      ∃ N, ∀ fuel, N ≤ fuel →
        fitTextToLine
            (some { textWidth := fun s => 3 * s, parentClientWidth := 300,
                    styleFontSize := none }) 20 fuel =
          some { returned := some S,
                 element := some { textWidth := fun s => 3 * s, parentClientWidth := 300,
                                   styleFontSize := some S } } :=
  fitTextToLine_fits_maximal
    { textWidth := fun s => 3 * s, parentClientWidth := 300, styleFontSize := none } 20
    (by intro a b hab; show 3 * a ≤ 3 * b; omega) (by decide) (by decide) (by decide)
    101 (by decide)

/-- C7 (as stated, refuted): with `width s = s`, `maxWidth = 5` and minimum 12
`fitTextToContainer` returns 12, which does not fit; with `width s = s / 4`,
`maxWidth = 100` and minimum 12 it returns 199 although 200 still fits. -/
theorem fitTextToContainer_bracket_excludes_answer :
    (Monotone (fun s : Int => s) ∧
      (fitTextToContainer
          (some { textWidth := fun s => s, parentClientWidth := 5, styleFontSize := none })
          5 12 0).map FitOutcome.returned = some (some 12) ∧
      ¬ ((fun s : Int => s) 12 ≤ 5)) ∧
    (Monotone (fun s : Int => s / 4) ∧
      (fitTextToContainer
          (some { textWidth := fun s => s / 4, parentClientWidth := 100,
                  styleFontSize := none })
          100 12 8).map FitOutcome.returned = some (some 199) ∧
      ¬ ((fun s : Int => s / 4) (199 + 1) > 100)) := by
  refine ⟨⟨fun a b hab => hab, by decide, by decide⟩, ⟨?_, by decide, by decide⟩⟩
  intro a b hab
  show a / 4 ≤ b / 4
  omega

/-- C7 (amended): for every measurement that is monotone in the font size,
every `maxWidth = W > 0` and every minimum whose width fits, if the width at the upper bound `2 * W` exceeds `W`
then `fitTextToContainer` ends and the size `S` it returns and applies
satisfies `width S ≤ W` and `width (S + 1) > W`. -/
theorem fitTextToContainer_fits_maximal (el : Element) (W minFontSize : Int)
    (hmono : Monotone el.textWidth) (hW : 0 < W)
    (hfitmin : el.textWidth minFontSize ≤ W) (hmax : W < el.textWidth (2 * W)) :
    ∃ S, el.textWidth S ≤ W ∧ W < el.textWidth (S + 1) ∧
      ∃ N, ∀ fuel, N ≤ fuel →
        fitTextToContainer (some el) W minFontSize fuel =
          some { returned := some S, element := some { el with styleFontSize := some S } } := by
  have hmax2 : W < el.textWidth (W * 2) := by rw [mul_comm]; exact hmax
  have hmin : minFontSize < 2 * W := by
    by_contra hcon
    have := hmono (not_lt.mp hcon)
    omega
  obtain ⟨S, _, _, h1, h2, hrun⟩ :=
    binarySearch_spec el.textWidth W (W * 2 - minFontSize).toNat minFontSize (W * 2)
      (le_refl _) (by omega) hfitmin hmax2
  refine ⟨S, h1, h2, (W * 2 - minFontSize).toNat, ?_⟩
  intro fuel hf
  have hW0 : W ≠ 0 := by omega
  simp only [fitTextToContainer, if_neg hW0, fitTextToContainerSize, hrun fuel hf]

theorem fitTextToContainer_fits_maximal_witness :
    ∃ S, (fun s : Int => 3 * s) S ≤ 300 ∧ 300 < (fun s : Int => 3 * s) (S + 1) ∧
      ∃ N, ∀ fuel, N ≤ fuel →
        fitTextToContainer
            (some { textWidth := fun s => 3 * s, parentClientWidth := 300,
                    styleFontSize := none }) 300 12 fuel =
          some { returned := some S,
                 element := some { textWidth := fun s => 3 * s, parentClientWidth := 300,
                                   styleFontSize := some S } } :=
  fitTextToContainer_fits_maximal
    { textWidth := fun s => 3 * s, parentClientWidth := 300, styleFontSize := none } 300 12
    (by intro a b hab; show 3 * a ≤ 3 * b; omega) (by decide) (by decide) (by decide)

/-- C8 (the code at the failing input): a title of width `18 * s` in a
container 300 wide with minimum 20.  The halving goes 3000, 1500, ..., 46, 23,
11 and stops at 11, below the minimum; 11 fits, so the search continues from
there and the function returns and applies 16, less than 20. -/
theorem fitTextToLine_below_minimum :
    (fitTextToLine
        (some { textWidth := fun s => 18 * s, parentClientWidth := 300,
                styleFontSize := none }) 20 12).map
        (fun o => (o.returned, o.element.map Element.styleFontSize))
      = some (some 16, some (some 16)) ∧
    (16 : Int) < 20 := by
  decide

/-- C9 (the code at the failing inputs): `fitTextToLine` has no guard on the
width: with a parent of `clientWidth` 0 it sets the font size to 0 and returns
0.  `fitTextToContainer` lets a negative `maxWidth` through: with -5 it sets
and returns the minimum 12. -/
theorem fit_nonpositive_width_not_noop :
    (fitTextToLine
        (some { textWidth := fun s => 3 * s, parentClientWidth := 0,
                styleFontSize := none }) 20 0).map
        (fun o => (o.returned, o.element.map Element.styleFontSize))
      = some (some 0, some (some 0)) ∧
    (fitTextToContainer
        (some { textWidth := fun s => 3 * s, parentClientWidth := 300,
                styleFontSize := none }) (-5) 12 0).map
        (fun o => (o.returned, o.element.map Element.styleFontSize))
      = some (some 12, some (some 12)) := by
  decide

/-! ## Lemmas on the double precision rounding -/

theorem roundHalfEven_ge_floor (x : ℚ) : ⌊x⌋ ≤ roundHalfEven x := by
  unfold roundHalfEven
  split_ifs <;> omega

theorem roundHalfEven_le_floor_succ (x : ℚ) : roundHalfEven x ≤ ⌊x⌋ + 1 := by
  unfold roundHalfEven
  split_ifs <;> omega

theorem roundHalfEven_intCast (n : Int) : roundHalfEven (n : ℚ) = n := by
  unfold roundHalfEven
  rw [Int.floor_intCast]
  norm_num

theorem roundHalfEven_sub_le (x : ℚ) : |(roundHalfEven x : ℚ) - x| ≤ 1 / 2 := by
  have h1 := Int.floor_le x
  have h2 := Int.lt_floor_add_one x
  unfold roundHalfEven
  rw [abs_le]
  split_ifs with ha hb hc
  · constructor <;> linarith
  · push_cast
    constructor <;> linarith
  · constructor <;> linarith
  · push_cast
    constructor <;> linarith

theorem roundHalfEven_mono {x y : ℚ} (h : x ≤ y) : roundHalfEven x ≤ roundHalfEven y := by
  have hf : ⌊x⌋ ≤ ⌊y⌋ := Int.floor_mono h
  rcases lt_or_eq_of_le hf with hlt | heq
  · have := roundHalfEven_le_floor_succ x
    have := roundHalfEven_ge_floor y
    omega
  · unfold roundHalfEven
    rw [heq]
    have hxy : x - (⌊y⌋ : ℚ) ≤ y - (⌊y⌋ : ℚ) := by linarith
    split_ifs <;> first | omega | (exfalso; linarith)

/-- The nearest integer, given with the distance that makes it the nearest. -/
theorem roundHalfEven_eq_of_near (x : ℚ) (m : Int) (h : |x - (m : ℚ)| < 1 / 2) :
    roundHalfEven x = m := by
  rw [abs_lt] at h
  have hb := roundHalfEven_sub_le x
  rw [abs_le] at hb
  have h1 : ((roundHalfEven x - m : Int) : ℚ) < 1 := by
    push_cast
    linarith
  have h2 : (-1 : ℚ) < ((roundHalfEven x - m : Int) : ℚ) := by
    push_cast
    linarith
  have h3 : roundHalfEven x - m < 1 := by exact_mod_cast h1
  have h4 : -1 < roundHalfEven x - m := by exact_mod_cast h2
  omega

/-- Half way between two integers the even one is taken. -/
theorem roundHalfEven_eq_of_tie (x : ℚ) (m : Int) (h : |x - (m : ℚ)| = 1 / 2)
    (hm : m % 2 = 0) : roundHalfEven x = m := by
  rcases abs_eq (by norm_num : (0 : ℚ) ≤ 1 / 2) |>.mp h with h1 | h1
  · have hx : x = (m : ℚ) + 1 / 2 := by linarith
    have hfl : ⌊x⌋ = m := by
      rw [Int.floor_eq_iff]
      constructor <;> linarith
    unfold roundHalfEven
    rw [hfl]
    have e : x - (m : ℚ) = 1 / 2 := by linarith
    rw [e]
    simp [hm]
  · have hx : x = (m : ℚ) - 1 / 2 := by linarith
    have hfl : ⌊x⌋ = m - 1 := by
      rw [Int.floor_eq_iff]
      push_cast
      constructor <;> linarith
    unfold roundHalfEven
    rw [hfl]
    have e : x - ((m - 1 : Int) : ℚ) = 1 / 2 := by
      push_cast
      linarith
    rw [e]
    have hodd : (m - 1) % 2 ≠ 0 := by omega
    simp [hodd]

theorem two_zpow_pos (e : Int) : (0 : ℚ) < 2 ^ e := zpow_pos (by norm_num) e

theorem two_zpow_le {a b : Int} (h : a ≤ b) : (2 : ℚ) ^ a ≤ 2 ^ b :=
  zpow_le_zpow_right₀ (by norm_num) h

theorem two_zpow_add (a b : Int) : (2 : ℚ) ^ (a + b) = 2 ^ a * 2 ^ b :=
  zpow_add₀ (by norm_num) a b

/-- The binade of a number fixes its logarithm. -/
theorem log_two_eq_of_bounds (x : ℚ) (e : Int) (h1 : (2 : ℚ) ^ e ≤ x) (h2 : x < 2 ^ (e + 1)) :
    Int.log 2 x = e := by
  have hx : 0 < x := lt_of_lt_of_le (two_zpow_pos e) h1
  have a1 : e ≤ Int.log 2 x :=
    (Int.zpow_le_iff_le_log (by norm_num : 1 < 2) hx).mp (by simpa using h1)
  have a2 : Int.log 2 x < e + 1 :=
    (Int.lt_zpow_iff_log_lt (by norm_num : 1 < 2) hx).mp (by simpa using h2)
  omega

theorem two_zpow_log_le (x : ℚ) (hx : 0 < x) : (2 : ℚ) ^ Int.log 2 x ≤ x := by
  simpa using Int.zpow_log_le_self (by norm_num : 1 < 2) hx

theorem lt_two_zpow_log_succ (x : ℚ) : x < (2 : ℚ) ^ (Int.log 2 x + 1) := by
  simpa using Int.lt_zpow_succ_log_self (by norm_num : 1 < 2) x

theorem ulpExponent_ge (x : ℚ) : -1074 ≤ ulpExponent x := by
  unfold ulpExponent
  have := le_max_right (Int.log 2 |x|) (-1022)
  omega

theorem ulpExponent_of_bounds (x : ℚ) (e : Int) (he : -1022 ≤ e) (h1 : (2 : ℚ) ^ e ≤ |x|)
    (h2 : |x| < 2 ^ (e + 1)) : ulpExponent x = e - 52 := by
  unfold ulpExponent
  rw [log_two_eq_of_bounds |x| e h1 h2, max_eq_left he]

/-- The rounding of a number whose binade and nearest multiple are given. -/
theorem roundDouble_eq_of (x : ℚ) (e m : Int) (he : -1022 ≤ e) (h1 : (2 : ℚ) ^ e ≤ |x|)
    (h2 : |x| < 2 ^ (e + 1)) (hm : roundHalfEven (x / 2 ^ (e - 52)) = m) :
    roundDouble x = (m : ℚ) * 2 ^ (e - 52) := by
  unfold roundDouble
  rw [ulpExponent_of_bounds x e he h1 h2, hm]

theorem roundDouble_zero : roundDouble 0 = 0 := by
  unfold roundDouble
  rw [zero_div]
  have := roundHalfEven_intCast 0
  simp only [Int.cast_zero] at this
  rw [this]
  simp

theorem roundDouble_nonneg {x : ℚ} (hx : 0 ≤ x) : 0 ≤ roundDouble x := by
  unfold roundDouble
  apply mul_nonneg _ (le_of_lt (two_zpow_pos _))
  have h0 : (0 : ℚ) ≤ x / 2 ^ ulpExponent x := div_nonneg hx (le_of_lt (two_zpow_pos _))
  have := roundHalfEven_mono h0
  have h00 := roundHalfEven_intCast 0
  simp only [Int.cast_zero] at h00
  rw [h00] at this
  exact_mod_cast this

/-- A double is a multiple of the spacing around the number it rounds. -/
theorem roundDouble_exact (x : ℚ) (n : Int) (h : x = (n : ℚ) * 2 ^ ulpExponent x) :
    roundDouble x = x := by
  unfold roundDouble
  have hdiv : x / 2 ^ ulpExponent x = (n : ℚ) := by
    rw [div_eq_iff (ne_of_gt (two_zpow_pos _))]
    exact h
  rw [hdiv, roundHalfEven_intCast]
  exact h.symm

/-- Rounding keeps the order of non-negative numbers. -/
theorem roundDouble_mono {x y : ℚ} (hx : 0 ≤ x) (h : x ≤ y) : roundDouble x ≤ roundDouble y := by
  rcases eq_or_lt_of_le hx with h0 | hpos
  · rw [← h0, roundDouble_zero]
    exact roundDouble_nonneg (le_trans hx h)
  have hypos : 0 < y := lt_of_lt_of_le hpos h
  have hlog : Int.log 2 |x| ≤ Int.log 2 |y| := by
    rw [abs_of_pos hpos, abs_of_pos hypos]
    exact Int.log_mono_right hpos h
  have hpq : ulpExponent x ≤ ulpExponent y := by
    unfold ulpExponent
    have := max_le_max hlog (le_refl (-1022 : Int))
    omega
  rcases eq_or_lt_of_le hpq with heq | hlt
  · unfold roundDouble
    rw [heq]
    apply mul_le_mul_of_nonneg_right _ (le_of_lt (two_zpow_pos _))
    have : x / 2 ^ ulpExponent y ≤ y / 2 ^ ulpExponent y :=
      div_le_div_of_nonneg_right h (le_of_lt (two_zpow_pos _))
    exact_mod_cast roundHalfEven_mono this
  · -- different binades: a power of two lies between the two roundings
    have hxup : roundDouble x ≤ 2 ^ (ulpExponent x + 53) := by
      have hxlt : x < 2 ^ (ulpExponent x + 53) := by
        have h1 := lt_two_zpow_log_succ x
        have h2 : Int.log 2 x + 1 ≤ ulpExponent x + 53 := by
          unfold ulpExponent
          rw [abs_of_pos hpos]
          have := le_max_left (Int.log 2 x) (-1022)
          omega
        exact lt_of_lt_of_le h1 (two_zpow_le h2)
      have hdiv : x / 2 ^ ulpExponent x ≤ ((2 ^ 53 : Int) : ℚ) := by
        rw [div_le_iff₀ (two_zpow_pos _)]
        have e : ((2 ^ 53 : Int) : ℚ) * 2 ^ ulpExponent x = 2 ^ (ulpExponent x + 53) := by
          rw [add_comm, two_zpow_add]
          norm_num
        rw [e]
        exact le_of_lt hxlt
      have hr := roundHalfEven_mono hdiv
      rw [roundHalfEven_intCast] at hr
      unfold roundDouble
      have hr' : (roundHalfEven (x / 2 ^ ulpExponent x) : ℚ) ≤ ((2 ^ 53 : Int) : ℚ) := by
        exact_mod_cast hr
      calc (roundHalfEven (x / 2 ^ ulpExponent x) : ℚ) * 2 ^ ulpExponent x
          ≤ ((2 ^ 53 : Int) : ℚ) * 2 ^ ulpExponent x :=
            mul_le_mul_of_nonneg_right hr' (le_of_lt (two_zpow_pos _))
        _ = 2 ^ (ulpExponent x + 53) := by
            rw [add_comm, two_zpow_add]
            norm_num
    have hylow : (2 : ℚ) ^ (ulpExponent y + 52) ≤ roundDouble y := by
      have hge := ulpExponent_ge x
      have hlogy : ulpExponent y + 52 = Int.log 2 y := by
        unfold ulpExponent at hlt hge ⊢
        rw [abs_of_pos hypos] at hlt ⊢
        rcases max_cases (Int.log 2 y) (-1022) with ⟨hm, _⟩ | ⟨hm, _⟩
        · rw [hm]
          omega
        · rw [hm] at hlt
          omega
      have hyge : (2 : ℚ) ^ (ulpExponent y + 52) ≤ y := by
        rw [hlogy]
        exact two_zpow_log_le y hypos
      have hdiv : ((2 ^ 52 : Int) : ℚ) ≤ y / 2 ^ ulpExponent y := by
        rw [le_div_iff₀ (two_zpow_pos _)]
        have e : ((2 ^ 52 : Int) : ℚ) * 2 ^ ulpExponent y = 2 ^ (ulpExponent y + 52) := by
          rw [add_comm, two_zpow_add]
          norm_num
        rw [e]
        exact hyge
      have hr := roundHalfEven_mono hdiv
      rw [roundHalfEven_intCast] at hr
      unfold roundDouble
      have hr' : ((2 ^ 52 : Int) : ℚ) ≤ (roundHalfEven (y / 2 ^ ulpExponent y) : ℚ) := by
        exact_mod_cast hr
      calc (2 : ℚ) ^ (ulpExponent y + 52) = ((2 ^ 52 : Int) : ℚ) * 2 ^ ulpExponent y := by
            rw [add_comm, two_zpow_add]
            norm_num
        _ ≤ (roundHalfEven (y / 2 ^ ulpExponent y) : ℚ) * 2 ^ ulpExponent y :=
            mul_le_mul_of_nonneg_right hr' (le_of_lt (two_zpow_pos _))
    have hmid : (2 : ℚ) ^ (ulpExponent x + 53) ≤ 2 ^ (ulpExponent y + 52) :=
      two_zpow_le (by omega)
    exact le_trans hxup (le_trans hmid hylow)

/-- The rounding error is at most half the spacing. -/
theorem roundDouble_sub_le (x : ℚ) : |roundDouble x - x| ≤ 2 ^ ulpExponent x / 2 := by
  have h := roundHalfEven_sub_le (x / 2 ^ ulpExponent x)
  have hp := two_zpow_pos (ulpExponent x)
  have e : roundDouble x - x =
      ((roundHalfEven (x / 2 ^ ulpExponent x) : ℚ) - x / 2 ^ ulpExponent x) *
        2 ^ ulpExponent x := by
    unfold roundDouble
    field_simp
  rw [e, abs_mul, abs_of_pos hp]
  calc |(roundHalfEven (x / 2 ^ ulpExponent x) : ℚ) - x / 2 ^ ulpExponent x| * 2 ^ ulpExponent x
      ≤ 1 / 2 * 2 ^ ulpExponent x := mul_le_mul_of_nonneg_right h (le_of_lt hp)
    _ = 2 ^ ulpExponent x / 2 := by ring

/-- Every double is a multiple of the least positive double `2 ^ (-1074)`. -/
theorem roundDouble_lattice (x : ℚ) : ∃ k : Int, roundDouble x = (k : ℚ) * 2 ^ (-1074 : Int) := by
  have hge := ulpExponent_ge x
  refine ⟨roundHalfEven (x / 2 ^ ulpExponent x) * 2 ^ (ulpExponent x + 1074).toNat, ?_⟩
  unfold roundDouble
  have e : (2 : ℚ) ^ ulpExponent x = 2 ^ (ulpExponent x + 1074).toNat * 2 ^ (-1074 : Int) := by
    rw [← zpow_natCast, ← two_zpow_add]
    congr 1
    omega
  rw [e]
  push_cast
  ring

/-- The sign of a difference of doubles survives the rounding: the test
`a - b <= 0` on doubles is the test `a <= b`. -/
theorem roundDouble_sub_nonpos_iff (a b : ℚ) :
    roundDouble (roundDouble a - roundDouble b) ≤ 0 ↔ roundDouble a ≤ roundDouble b := by
  constructor
  · intro h
    by_contra hcon
    have hpos : 0 < roundDouble a - roundDouble b := by linarith
    obtain ⟨ka, hka⟩ := roundDouble_lattice a
    obtain ⟨kb, hkb⟩ := roundDouble_lattice b
    have hu := two_zpow_pos (-1074)
    have hk : 0 < ka - kb := by
      have : (0 : ℚ) < ((ka - kb : Int) : ℚ) * 2 ^ (-1074 : Int) := by
        push_cast
        rw [sub_mul, ← hka, ← hkb]
        exact hpos
      have h2 : (0 : ℚ) < ((ka - kb : Int) : ℚ) := by
        by_contra hc
        have := mul_nonpos_of_nonpos_of_nonneg (not_lt.mp hc) (le_of_lt hu)
        linarith
      exact_mod_cast h2
    have hge : (2 : ℚ) ^ (-1074 : Int) ≤ roundDouble a - roundDouble b := by
      rw [hka, hkb, ← sub_mul]
      have h1 : (1 : ℚ) ≤ (ka : ℚ) - (kb : ℚ) := by
        have : (1 : Int) ≤ ka - kb := by omega
        exact_mod_cast this
      calc (2 : ℚ) ^ (-1074 : Int) = 1 * 2 ^ (-1074 : Int) := by ring
        _ ≤ ((ka : ℚ) - (kb : ℚ)) * 2 ^ (-1074 : Int) :=
            mul_le_mul_of_nonneg_right h1 (le_of_lt hu)
    have hmono := roundDouble_mono (le_of_lt hu) hge
    have hex : roundDouble (2 ^ (-1074 : Int)) = 2 ^ (-1074 : Int) := by
      have hu1 : ulpExponent (2 ^ (-1074 : Int)) = -1074 := by
        unfold ulpExponent
        rw [abs_of_pos hu]
        have hl : Int.log 2 ((2 : ℚ) ^ (-1074 : Int)) = -1074 := by
          have := Int.log_zpow (R := ℚ) (by norm_num : 1 < 2) (-1074)
          simpa using this
        rw [hl]
        rfl
      apply roundDouble_exact _ 1
      rw [hu1]
      simp
    rw [hex] at hmono
    linarith
  · intro h
    have hd : roundDouble a - roundDouble b ≤ 0 := by linarith
    unfold roundDouble
    apply mul_nonpos_of_nonpos_of_nonneg _ (le_of_lt (two_zpow_pos _))
    have h0 : (roundDouble a - roundDouble b) / 2 ^ ulpExponent (roundDouble a - roundDouble b)
        ≤ ((0 : Int) : ℚ) := by
      rw [Int.cast_zero]
      exact div_nonpos_of_nonpos_of_nonneg hd (le_of_lt (two_zpow_pos _))
    have := roundHalfEven_mono h0
    rw [roundHalfEven_intCast] at this
    exact_mod_cast this

/-! ## Lemmas on the text fitting in double arithmetic -/

theorem two_pow_lt_overflow : (2 : ℚ) ^ 53 < 2 ^ 1024 :=
  pow_lt_pow_right₀ (by norm_num) (by norm_num)

/-- The numbers `n * 2 ^ j` with `|n| < 2 ^ 53` are doubles. -/
theorem roundDouble_dyadic_lt (n j : Int) (hn : |n| < 2 ^ 53) (hj : -1074 ≤ j) :
    roundDouble ((n : ℚ) * 2 ^ j) = (n : ℚ) * 2 ^ j := by
  by_cases h0 : n = 0
  · rw [h0]
    simp [roundDouble_zero]
  have hu := two_zpow_pos j
  have habs : |(n : ℚ) * 2 ^ j| = (|n| : Int) * 2 ^ j := by
    rw [abs_mul, abs_of_pos hu, Int.cast_abs]
  have hpos : 0 < |(n : ℚ) * 2 ^ j| := by
    rw [abs_pos]
    exact mul_ne_zero (by exact_mod_cast h0) (ne_of_gt hu)
  have hlt : |(n : ℚ) * 2 ^ j| < 2 ^ (53 + j) := by
    rw [habs, two_zpow_add]
    apply mul_lt_mul_of_pos_right _ hu
    exact_mod_cast hn
  have hlog : Int.log 2 |(n : ℚ) * 2 ^ j| < 53 + j :=
    (Int.lt_zpow_iff_log_lt (by norm_num : 1 < 2) hpos).mp (by simpa using hlt)
  have hp : ulpExponent ((n : ℚ) * 2 ^ j) ≤ j := by
    unfold ulpExponent
    have : max (Int.log 2 |(n : ℚ) * 2 ^ j|) (-1022) ≤ j + 52 := max_le (by omega) (by omega)
    omega
  apply roundDouble_exact _ (n * 2 ^ (j - ulpExponent ((n : ℚ) * 2 ^ j)).toNat)
  have e : (2 : ℚ) ^ j =
      2 ^ (j - ulpExponent ((n : ℚ) * 2 ^ j)).toNat * 2 ^ ulpExponent ((n : ℚ) * 2 ^ j) := by
    rw [← zpow_natCast, ← two_zpow_add]
    congr 1
    omega
  push_cast
  rw [mul_assoc, ← e]

/-- The numbers `n * 2 ^ j` with `|n| ≤ 2 ^ 53` and `j ≥ -1074` are doubles. -/
theorem roundDouble_dyadic (n j : Int) (hn : |n| ≤ 2 ^ 53) (hj : -1074 ≤ j) :
    roundDouble ((n : ℚ) * 2 ^ j) = (n : ℚ) * 2 ^ j := by
  rcases lt_or_eq_of_le hn with hlt | heq
  · exact roundDouble_dyadic_lt n j hlt hj
  · have h2 : n = 2 * (n / 2) := by
      rcases abs_eq (by norm_num : (0 : Int) ≤ 2 ^ 53) |>.mp heq with h | h <;> omega
    have hhalf : |n / 2| < 2 ^ 53 := by
      rw [abs_lt]
      rw [abs_eq (by norm_num : (0 : Int) ≤ 2 ^ 53)] at heq
      constructor <;> omega
    have e : (n : ℚ) * 2 ^ j = ((n / 2 : Int) : ℚ) * 2 ^ (j + 1) := by
      rw [two_zpow_add]
      have : (n : ℚ) = 2 * ((n / 2 : Int) : ℚ) := by exact_mod_cast h2
      rw [this]
      norm_num
      ring
    rw [e]
    exact roundDouble_dyadic_lt (n / 2) (j + 1) hhalf (by omega)

theorem roundDouble_intCast (n : Int) (hn : |n| ≤ 2 ^ 53) : roundDouble (n : ℚ) = (n : ℚ) := by
  have := roundDouble_dyadic n 0 hn (by norm_num)
  simpa using this

theorem roundDouble_half_int (k : Int) (hk : |k| ≤ 2 ^ 53) :
    roundDouble ((k : ℚ) / 2) = (k : ℚ) / 2 := by
  have := roundDouble_dyadic k (-1) hk (by norm_num)
  have e : (k : ℚ) * 2 ^ (-1 : Int) = (k : ℚ) / 2 := by
    rw [zpow_neg_one]
    rfl
  rwa [e] at this

theorem floor_half_int (k : Int) : ⌊(k : ℚ) / 2⌋ = k / 2 := by
  rw [Int.floor_eq_iff]
  have h1 : k = 2 * (k / 2) + k % 2 := (Int.ediv_add_emod k 2).symm
  have h2 : 0 ≤ k % 2 := Int.emod_nonneg k (by norm_num)
  have h3 : k % 2 < 2 := Int.emod_lt_of_pos k (by norm_num)
  have h1q : (k : ℚ) = 2 * ((k / 2 : Int) : ℚ) + ((k % 2 : Int) : ℚ) := by exact_mod_cast h1
  have h2q : (0 : ℚ) ≤ ((k % 2 : Int) : ℚ) := by exact_mod_cast h2
  have h3q : ((k % 2 : Int) : ℚ) < 2 := by exact_mod_cast h3
  constructor <;> linarith

theorem intCast_abs_le {k : Int} {b : Nat} (hk : |k| ≤ 2 ^ b) : |(k : ℚ)| ≤ 2 ^ b := by
  have : ((|k| : Int) : ℚ) ≤ ((2 ^ b : Int) : ℚ) := by exact_mod_cast hk
  simpa using this

/-- The floor of half an integer of magnitude at most `2 ^ 53` is computed
exactly. -/
theorem JsSize.ofRat_half (k : Int) (hk : |k| ≤ 2 ^ 53) :
    JsSize.ofRat ((k : ℚ) / 2) = JsSize.finite (k / 2) := by
  unfold JsSize.ofRat
  rw [roundDouble_half_int k hk, floor_half_int]
  have hlt : ¬ (2 : ℚ) ^ 1024 ≤ (k : ℚ) / 2 := by
    have h1 := intCast_abs_le hk
    rw [abs_le] at h1
    have := two_pow_lt_overflow
    intro hcon
    linarith [h1.2]
  rw [if_neg hlt]

theorem JsSize.scale_half (v : Int) (hv : |v| ≤ 2 ^ 53) :
    (JsSize.finite v).scale (1 / 2) = JsSize.finite (v / 2) := by
  have := JsSize.ofRat_half v hv
  simp only [JsSize.scale]
  rwa [show (1 / 2 : ℚ) * (v : ℚ) = (v : ℚ) / 2 by ring]

theorem JsSize.scale_two (v : Int) (hv : |v| ≤ 2 ^ 51) :
    (JsSize.finite v).scale 2 = JsSize.finite (v * 2) := by
  have hk : |4 * v| ≤ 2 ^ 53 := by
    rw [abs_le] at hv ⊢
    constructor <;> omega
  have := JsSize.ofRat_half (4 * v) hk
  simp only [JsSize.scale]
  rw [show (2 : ℚ) * (v : ℚ) = ((4 * v : Int) : ℚ) / 2 by push_cast; ring, this]
  congr 1
  omega

theorem JsSize.scale_three_halves (v : Int) (hv : |v| ≤ 2 ^ 51) :
    (JsSize.finite v).scale (3 / 2) = JsSize.finite (v * 3 / 2) := by
  have hk : |v * 3| ≤ 2 ^ 53 := by
    rw [abs_le] at hv ⊢
    constructor <;> omega
  have := JsSize.ofRat_half (v * 3) hk
  simp only [JsSize.scale]
  rw [show (3 / 2 : ℚ) * (v : ℚ) = ((v * 3 : Int) : ℚ) / 2 by push_cast; ring, this]

theorem JsSize.scale_ten (v : Int) (hv : |v| ≤ 2 ^ 48) :
    (JsSize.finite v).scale 10 = JsSize.finite (v * 10) := by
  have hk : |20 * v| ≤ 2 ^ 53 := by
    rw [abs_le] at hv ⊢
    constructor <;> omega
  have := JsSize.ofRat_half (20 * v) hk
  simp only [JsSize.scale]
  rw [show (10 : ℚ) * (v : ℚ) = ((20 * v : Int) : ℚ) / 2 by push_cast; ring, this]
  congr 1
  omega

theorem JsSize.gapOverOne_finite (a b : Int) (h : |a - b| ≤ 2 ^ 53) :
    (JsSize.finite a).gapOverOne (JsSize.finite b) = decide (a - b > 1) := by
  simp only [JsSize.gapOverOne]
  have e : (a : ℚ) - (b : ℚ) = ((a - b : Int) : ℚ) := by push_cast; ring
  rw [e, roundDouble_intCast (a - b) h]
  apply decide_eq_decide.mpr
  constructor
  · intro hgt
    have : ((1 : Int) : ℚ) < ((a - b : Int) : ℚ) := by simpa using hgt
    exact_mod_cast this
  · intro hgt
    have : ((1 : Int) : ℚ) < ((a - b : Int) : ℚ) := by exact_mod_cast hgt
    simpa using this

theorem JsSize.mid_finite (a b : Int) (h : |a + b| ≤ 2 ^ 53) :
    (JsSize.finite a).mid (JsSize.finite b) = JsSize.finite ((a + b) / 2) := by
  simp only [JsSize.mid]
  have e : (a : ℚ) + (b : ℚ) = ((a + b : Int) : ℚ) := by push_cast; ring
  rw [e, roundDouble_intCast (a + b) h]
  have hlt : ¬ (2 : ℚ) ^ 1024 ≤ ((a + b : Int) : ℚ) := by
    have h1 := intCast_abs_le h
    rw [abs_le] at h1
    have := two_pow_lt_overflow
    intro hcon
    linarith [h1.2]
  rw [if_neg hlt]
  exact JsSize.ofRat_half (a + b) h

/-- On sizes up to `2 ^ 51` the binary search on doubles is the binary search
on exact integers. -/
theorem binarySearchDouble_eq (width : Int → Int) (W : Int) :
    ∀ (fuel : Nat) (span lo hi o : Int), 0 ≤ lo → lo ≤ 2 ^ 51 → 0 ≤ hi → hi ≤ 2 ^ 51 →
      binarySearchDouble width W fuel span (JsSize.finite lo) (JsSize.finite hi)
          (JsSize.finite o) =
        (binarySearch width W fuel lo hi o).map JsSize.finite := by
  intro fuel
  induction fuel with
  | zero =>
    intro span lo hi o h1 h2 h3 h4
    have hg := JsSize.gapOverOne_finite hi lo (by rw [abs_le]; constructor <;> omega)
    simp only [binarySearchDouble, binarySearch, hg, decide_eq_true_eq]
    by_cases hgap : hi - lo > 1
    · simp only [if_pos hgap, Option.map_none']
    · simp only [if_neg hgap, Option.map_some']
  | succ f ih =>
    intro span lo hi o h1 h2 h3 h4
    have hg := JsSize.gapOverOne_finite hi lo (by rw [abs_le]; constructor <;> omega)
    have hm := JsSize.mid_finite lo hi (by rw [abs_le]; constructor <;> omega)
    have hm0 : 0 ≤ (lo + hi) / 2 := by omega
    have hmB : (lo + hi) / 2 ≤ 2 ^ 51 := by omega
    simp only [binarySearchDouble, binarySearch, hg, hm, decide_eq_true_eq,
      JsSize.setSpanFontSize, if_pos hm0]
    by_cases hgap : hi - lo > 1
    · simp only [if_pos hgap]
      by_cases hfit : width ((lo + hi) / 2) ≤ W
      · simp only [if_pos hfit]
        exact ih _ _ _ _ hm0 hmB h3 h4
      · simp only [if_neg hfit]
        exact ih _ _ _ _ h1 h2 hm0 hmB
    · simp only [if_neg hgap, Option.map_some']

/-- On sizes up to `2 ^ 53` the halving loop on doubles is the halving loop on
exact integers, the span being at the size `max`. -/
theorem halveLoopDouble_eq (width : Int → Int) (W m : Int) :
    ∀ (fuel : Nat) (v : Int), 0 ≤ v → v ≤ 2 ^ 53 →
      halveLoopDouble width W (JsSize.finite m) fuel v (JsSize.finite v) =
        (halveLoop width W m fuel v).map fun r => (r, JsSize.finite r) := by
  intro fuel
  induction fuel with
  | zero =>
    intro v h1 h2
    simp only [halveLoopDouble, halveLoop, JsSize.gt, decide_eq_true_eq]
    by_cases hc : width v > W ∧ v > m
    · simp only [if_pos hc, Option.map_none']
    · simp only [if_neg hc, Option.map_some']
  | succ f ih =>
    intro v h1 h2
    have hs := JsSize.scale_half v (by rw [abs_le]; constructor <;> omega)
    have h0 : 0 ≤ v / 2 := by omega
    simp only [halveLoopDouble, halveLoop, JsSize.gt, decide_eq_true_eq, hs,
      JsSize.setSpanFontSize, if_pos h0]
    by_cases hc : width v > W ∧ v > m
    · simp only [if_pos hc]
      exact ih _ h0 (by omega)
    · simp only [if_neg hc, Option.map_some']

/-- When only sizes up to `2 ^ 51` fit, the expansion loop on doubles computes
the `min` and `optimalSize` of the expansion loop on exact integers. -/
theorem expandLoopDouble_eq (width : Int → Int) (W : Int)
    (hfitB : ∀ s, width s ≤ W → s ≤ 2 ^ 51) :
    ∀ (fuel : Nat) (span c t o : Int), 0 ≤ c →
      (expandLoopDouble width W fuel span (JsSize.finite c) (JsSize.finite t)
          (JsSize.finite o)).map (fun r => r.2) =
        (expandLoop width W fuel c t o).map fun r => (JsSize.finite r.1, JsSize.finite r.2) := by
  intro fuel
  induction fuel with
  | zero =>
    intro span c t o _
    simp only [expandLoopDouble, expandLoop, JsSize.gt, decide_eq_true_eq]
    by_cases hgt : c > t
    · simp only [if_pos hgt, Option.map_none']
    · simp only [if_neg hgt, Option.map_some']
  | succ f ih =>
    intro span c t o hc
    simp only [expandLoopDouble, expandLoop, JsSize.gt, decide_eq_true_eq,
      JsSize.setSpanFontSize, if_pos hc]
    by_cases hgt : c > t
    · simp only [if_pos hgt]
      by_cases hfit : width c ≤ W
      · have hcB := hfitB c hfit
        have hs := JsSize.scale_three_halves c (by rw [abs_le]; constructor <;> omega)
        simp only [if_pos hfit, hs]
        exact ih _ _ _ _ (by omega)
      · simp only [if_neg hfit, Option.map_some']
    · simp only [if_neg hgt, Option.map_some']

/-- The halving loop on exact integers ends between 0 and the size it starts
from. -/
theorem halveLoop_range (width : Int → Int) (W m : Int) :
    ∀ (fuel : Nat) (v r : Int), 0 ≤ v → halveLoop width W m fuel v = some r →
      0 ≤ r ∧ r ≤ v := by
  intro fuel
  induction fuel with
  | zero =>
    intro v r hv h
    simp only [halveLoop] at h
    split at h
    · simp at h
    · simp only [Option.some.injEq] at h
      omega
  | succ f ih =>
    intro v r hv h
    simp only [halveLoop] at h
    split at h
    · have := ih (v / 2) r (by omega) h
      omega
    · simp only [Option.some.injEq] at h
      omega

/-- The expansion loop on exact integers ends with `min` and `optimalSize`
that are the ones it started from or sizes that fit. -/
theorem expandLoop_range (width : Int → Int) (W : Int) :
    ∀ (fuel : Nat) (c t o mn op : Int), 0 ≤ c → 0 ≤ t → 0 ≤ o →
      expandLoop width W fuel c t o = some (mn, op) →
      0 ≤ mn ∧ 0 ≤ op ∧ (mn = t ∨ width mn ≤ W) ∧ (op = o ∨ width op ≤ W) := by
  intro fuel
  induction fuel with
  | zero =>
    intro c t o mn op hc ht ho h
    simp only [expandLoop] at h
    split at h
    · simp at h
    · simp only [Option.some.injEq, Prod.mk.injEq] at h
      obtain ⟨rfl, rfl⟩ := h
      exact ⟨ht, ho, Or.inl rfl, Or.inl rfl⟩
  | succ f ih =>
    intro c t o mn op hc ht ho h
    simp only [expandLoop] at h
    split at h
    · split at h
      · rename_i hfit
        obtain ⟨h1, h2, h3, h4⟩ := ih (c * 3 / 2) c c mn op (by omega) hc hc h
        refine ⟨h1, h2, Or.inr ?_, Or.inr ?_⟩
        · rcases h3 with rfl | h3
          · exact hfit
          · exact h3
        · rcases h4 with rfl | h4
          · exact hfit
          · exact h4
      · simp only [Option.some.injEq, Prod.mk.injEq] at h
        obtain ⟨rfl, rfl⟩ := h
        exact ⟨ht, ho, Or.inl rfl, Or.inl rfl⟩
    · simp only [Option.some.injEq, Prod.mk.injEq] at h
      obtain ⟨rfl, rfl⟩ := h
      exact ⟨ht, ho, Or.inl rfl, Or.inl rfl⟩

/-- While every size stays in the range of exact integers the search on
doubles is the search on exact integers: for a monotone measurement that
overflows the container at some size up to `2 ^ 50`, a container width up to
`2 ^ 31` and a minimum between 0 and `2 ^ 50`. -/
theorem fitTextToLineDouble_eq (width : Int → Int) (span0 W min : Int)
    (hmono : Monotone width) (hmin : 0 ≤ min) (hminB : min ≤ 2 ^ 50) (hW : 0 ≤ W)
    (hWB : W ≤ 2 ^ 31) (s0 : Int) (hs0B : s0 ≤ 2 ^ 50) (hs0 : W < width s0) (fuel : Nat) :
    fitTextToLineDouble width span0 W min fuel =
      (fitTextToLineSize width W min fuel).map JsSize.finite := by
  have hfitB : ∀ s, width s ≤ W → s ≤ 2 ^ 50 := by
    intro s hs
    by_contra hcon
    have := hmono (show s0 ≤ s by omega)
    omega
  have hfitB2 : ∀ s, width s ≤ W → s ≤ 2 ^ 51 := fun s hs => by
    have := hfitB s hs
    omega
  have h10 := JsSize.scale_ten W (by rw [abs_le]; constructor <;> omega)
  have hspan : JsSize.setSpanFontSize span0 (JsSize.finite (W * 10)) = W * 10 := by
    simp only [JsSize.setSpanFontSize, if_pos (show (0 : Int) ≤ W * 10 by omega)]
  have hhalve := halveLoopDouble_eq width W min fuel (W * 10) (by omega) (by omega)
  simp only [fitTextToLineDouble, fitTextToLineSize, h10, hspan, hhalve]
  cases hh : halveLoop width W min fuel (W * 10) with
  | none => simp only [Option.map_none']
  | some m =>
    obtain ⟨hm0, hmB⟩ := halveLoop_range width W min fuel (W * 10) m (by omega) hh
    simp only [Option.map_some']
    by_cases hfit : width m ≤ W
    · have hm50 := hfitB m hfit
      have h2 := JsSize.scale_two m (by rw [abs_le]; constructor <;> omega)
      have hexp := expandLoopDouble_eq width W hfitB2 fuel m (m * 2) m m (by omega)
      simp only [if_pos hfit, h2]
      cases he : expandLoop width W fuel (m * 2) m m with
      | none =>
        rw [he] at hexp
        simp only [Option.map_none', Option.map_eq_none'] at hexp
        simp only [hexp, Option.map_none']
      | some r =>
        obtain ⟨mn, op⟩ := r
        rw [he] at hexp
        simp only [Option.map_some', Option.map_eq_some'] at hexp
        obtain ⟨⟨sp, mn', op'⟩, hd, heq⟩ := hexp
        simp only [Prod.mk.injEq] at heq
        obtain ⟨rfl, rfl⟩ := heq
        obtain ⟨a1, a2, a3, a4⟩ :=
          expandLoop_range width W fuel (m * 2) m m mn op (by omega) hm0 hm0 he
        have hmn : mn ≤ 2 ^ 50 := by
          rcases a3 with rfl | a3
          · exact hm50
          · exact hfitB mn a3
        have hop : op ≤ 2 ^ 50 := by
          rcases a4 with rfl | a4
          · exact hm50
          · exact hfitB op a4
        have h2o := JsSize.scale_two op (by rw [abs_le]; constructor <;> omega)
        simp only [hd, h2o]
        exact binarySearchDouble_eq width W fuel sp mn (op * 2) op a1 (by omega) (by omega)
          (by omega)
    · simp only [if_neg hfit]
      exact binarySearchDouble_eq width W fuel m min m min hmin (by omega) hm0 (by omega)

theorem JsSize.scale_infinity (k : ℚ) : JsSize.infinity.scale k = JsSize.infinity := rfl

set_option exponentiation.threshold 1100 in
theorem overflow_intCast : (((2 : Int) ^ 1024 : Int) : ℚ) = (2 : ℚ) ^ 1024 :=
  @Int.cast_pow ℚ _ 2 1024

/-- From 1 on the rounding loses less than a quarter. -/
theorem roundDouble_ge_three_quarters (x : ℚ) (hx : 1 ≤ x) : 3 / 4 * x ≤ roundDouble x := by
  have hpos : 0 < x := by linarith
  have hlog : 0 ≤ Int.log 2 x :=
    (Int.zpow_le_iff_le_log (by norm_num : 1 < 2) hpos).mp (by simpa using hx)
  have hulp : ulpExponent x = Int.log 2 x - 52 := by
    unfold ulpExponent
    rw [abs_of_pos hpos, max_eq_left (by omega)]
  have herr := roundDouble_sub_le x
  rw [hulp, abs_le] at herr
  have h2 : (2 : ℚ) ^ (Int.log 2 x - 52) ≤ x / 2 := by
    have e : (2 : ℚ) ^ (Int.log 2 x - 52) = 2 ^ Int.log 2 x * 2 ^ (-52 : Int) := by
      rw [← two_zpow_add]
      congr 1
    rw [e]
    have h3 := two_zpow_log_le x hpos
    have h4 : (2 : ℚ) ^ (-52 : Int) ≤ 1 / 2 := by norm_num
    calc (2 : ℚ) ^ Int.log 2 x * 2 ^ (-52 : Int) ≤ x * (1 / 2) :=
          mul_le_mul h3 h4 (le_of_lt (two_zpow_pos _)) (le_of_lt hpos)
      _ = x / 2 := by ring
  linarith [herr.1]

/-- One round of `Math.floor(testSize * 1.5)` from a size of at least 8: the
result is `Infinity` or a larger size. -/
theorem JsSize.scale_grows (c : Int) (hc : 8 ≤ c) :
    (JsSize.finite c).scale (3 / 2) = JsSize.infinity ∨
      ∃ c2, (JsSize.finite c).scale (3 / 2) = JsSize.finite c2 ∧ c < c2 ∧ c2 < 2 ^ 1024 := by
  simp only [JsSize.scale, JsSize.ofRat]
  by_cases h : (2 : ℚ) ^ 1024 ≤ roundDouble (3 / 2 * (c : ℚ))
  · left
    rw [if_pos h]
  · right
    rw [if_neg h]
    refine ⟨_, rfl, ?_, ?_⟩
    · have hcq : (8 : ℚ) ≤ (c : ℚ) := by exact_mod_cast hc
      have hr := roundDouble_ge_three_quarters (3 / 2 * (c : ℚ)) (by linarith)
      have : c + 1 ≤ ⌊roundDouble (3 / 2 * (c : ℚ))⌋ := by
        rw [Int.le_floor]
        push_cast
        linarith
      omega
    · rw [Int.floor_lt, overflow_intCast]
      exact not_le.mp h

/-- When every size fits, the expansion loop ends with `min` and
`optimalSize` both `Infinity`: the sizes grow until the product overflows, the
span keeps its last size at `'Infinitypx'`, and `Infinity > Infinity` fails. -/
theorem expandLoopDouble_always_fits (width : Int → Int) (W : Int)
    (hfit : ∀ s, width s ≤ W) :
    ∀ (k fuel : Nat) (span c t : Int) (o : JsSize), 8 ≤ c → c < 2 ^ 1024 → t < c →
      ((2 : Int) ^ 1024 - c).toNat ≤ k → k + 3 ≤ fuel →
      ∃ sp, expandLoopDouble width W fuel span (JsSize.finite c) (JsSize.finite t) o =
        some (sp, JsSize.infinity, JsSize.infinity) := by
  have htail : ∀ (f : Nat) (c : Int), 0 ≤ c → 2 ≤ f →
      expandLoopDouble width W f c JsSize.infinity (JsSize.finite c) (JsSize.finite c) =
        some (c, JsSize.infinity, JsSize.infinity) := by
    intro f c hc hf
    obtain ⟨f1, rfl⟩ : ∃ f1, f = f1 + 1 := ⟨f - 1, by omega⟩
    simp only [expandLoopDouble, JsSize.gt, JsSize.setSpanFontSize, if_true, if_pos (hfit c),
      JsSize.scale_infinity]
    cases f1 <;> simp [expandLoopDouble, JsSize.gt]
  intro k
  induction k with
  | zero =>
    intro fuel span c t o hc hcB htc hk hfuel
    omega
  | succ k ih =>
    intro fuel span c t o hc hcB htc hk hfuel
    obtain ⟨f, rfl⟩ : ∃ f, fuel = f + 1 := ⟨fuel - 1, by omega⟩
    have hc0 : 0 ≤ c := by omega
    have hgt : (JsSize.finite c).gt (JsSize.finite t) = true := by
      simp only [JsSize.gt, decide_eq_true_eq]
      omega
    simp only [expandLoopDouble, hgt, if_true, JsSize.setSpanFontSize, if_pos hc0,
      if_pos (hfit c)]
    rcases JsSize.scale_grows c hc with hinf | ⟨c2, hfin, hlt, hB⟩
    · rw [hinf]
      exact ⟨c, htail f c hc0 (by omega)⟩
    · rw [hfin]
      exact ih f c c2 c (JsSize.finite c) (by omega) hB hlt (by omega) (by omega)

/-- A text that never overflows a container of positive width: the search on
doubles returns, and what it returns is `Infinity`. -/
theorem fitTextToLineDouble_always_fits (width : Int → Int) (span0 W min : Int)
    (hfit : ∀ s, width s ≤ W) (hW : 0 < W) (hWB : W ≤ 2 ^ 31) :
    ∀ fuel, ((2 : Int) ^ 1024 - W * 10 * 2).toNat + 3 ≤ fuel →
      fitTextToLineDouble width span0 W min fuel = some JsSize.infinity := by
  intro fuel hfuel
  have h10 := JsSize.scale_ten W (by rw [abs_le]; constructor <;> omega)
  have hspan : JsSize.setSpanFontSize span0 (JsSize.finite (W * 10)) = W * 10 := by
    simp only [JsSize.setSpanFontSize, if_pos (show (0 : Int) ≤ W * 10 by omega)]
  have hnot : ¬ (width (W * 10) > W ∧ (JsSize.finite (W * 10)).gt (JsSize.finite min) = true) := by
    intro h
    have := hfit (W * 10)
    omega
  have hhalve : halveLoopDouble width W (JsSize.finite min) fuel (W * 10)
      (JsSize.finite (W * 10)) = some (W * 10, JsSize.finite (W * 10)) := by
    cases fuel <;> simp only [halveLoopDouble, if_neg hnot]
  have h2 := JsSize.scale_two (W * 10) (by rw [abs_le]; constructor <;> omega)
  obtain ⟨sp, hexp⟩ := expandLoopDouble_always_fits width W hfit
    ((2 : Int) ^ 1024 - W * 10 * 2).toNat fuel (W * 10) (W * 10 * 2) (W * 10)
    (JsSize.finite (W * 10)) (by omega) (by omega) (by omega) (le_refl _) hfuel
  simp only [fitTextToLineDouble, h10, hspan, hhalve, if_pos (hfit (W * 10)), h2, hexp,
    JsSize.scale_infinity]
  cases fuel <;> simp [binarySearchDouble, JsSize.gapOverOne]

/-- A container of width 0 in which every size fits: the search on doubles
returns 0 at once. -/
theorem fitTextToLineDouble_zero_width (width : Int → Int) (span0 min : Int)
    (hfit : ∀ s, width s ≤ 0) (fuel : Nat) :
    fitTextToLineDouble width span0 0 min fuel = some (JsSize.finite 0) := by
  have h10 := JsSize.scale_ten 0 (by norm_num)
  have hspan : JsSize.setSpanFontSize span0 (JsSize.finite 0) = 0 := by
    simp only [JsSize.setSpanFontSize, if_pos (le_refl (0 : Int))]
  have hnot : ¬ (width 0 > 0 ∧ (JsSize.finite 0).gt (JsSize.finite min) = true) := by
    intro h
    have := hfit 0
    omega
  have hhalve : halveLoopDouble width 0 (JsSize.finite min) fuel 0 (JsSize.finite 0) =
      some (0, JsSize.finite 0) := by
    cases fuel <;> simp only [halveLoopDouble, if_neg hnot]
  have h2 := JsSize.scale_two 0 (by norm_num)
  have hgap := JsSize.gapOverOne_finite 0 0 (by norm_num)
  have hexp : expandLoopDouble width 0 fuel 0 (JsSize.finite 0) (JsSize.finite 0)
      (JsSize.finite 0) = some (0, JsSize.finite 0, JsSize.finite 0) := by
    cases fuel <;> simp [expandLoopDouble, JsSize.gt]
  simp only [Int.zero_mul] at h10 h2
  simp only [fitTextToLineDouble, h10, hspan, hhalve, if_pos (hfit 0), h2, hexp]
  cases fuel <;> simp [binarySearchDouble, hgap]

theorem roundDouble_two_pow (b : Nat) : roundDouble ((2 : ℚ) ^ b) = (2 : ℚ) ^ b := by
  have h := roundDouble_dyadic 1 (b : Int) (by norm_num) (by omega)
  simpa using h

/-- The rounding of a positive number is at most the top of its binade. -/
theorem roundDouble_le_binade_top (x : ℚ) (hpos : 0 < x) :
    roundDouble x ≤ 2 ^ (ulpExponent x + 53) := by
  have hxlt : x < 2 ^ (ulpExponent x + 53) := by
    have h1 := lt_two_zpow_log_succ x
    have h2 : Int.log 2 x + 1 ≤ ulpExponent x + 53 := by
      unfold ulpExponent
      rw [abs_of_pos hpos]
      have := le_max_left (Int.log 2 x) (-1022)
      omega
    exact lt_of_lt_of_le h1 (two_zpow_le h2)
  have e : ((2 ^ 53 : Int) : ℚ) * 2 ^ ulpExponent x = 2 ^ (ulpExponent x + 53) := by
    rw [add_comm, two_zpow_add]
    norm_num
  have hdiv : x / 2 ^ ulpExponent x ≤ ((2 ^ 53 : Int) : ℚ) := by
    rw [div_le_iff₀ (two_zpow_pos _), e]
    exact le_of_lt hxlt
  have hr := roundHalfEven_mono hdiv
  rw [roundHalfEven_intCast] at hr
  have hr2 : (roundHalfEven (x / 2 ^ ulpExponent x) : ℚ) ≤ ((2 ^ 53 : Int) : ℚ) := by
    exact_mod_cast hr
  unfold roundDouble
  rw [← e]
  exact mul_le_mul_of_nonneg_right hr2 (le_of_lt (two_zpow_pos _))

/-- The doubles from `2 ^ 53` on are even integers. -/
theorem roundDouble_even_of_ge (y : ℚ) (h : (2 : ℚ) ^ 53 ≤ roundDouble y) (hy : 0 ≤ y) :
    ∃ k : Int, roundDouble y = 2 * (k : ℚ) := by
  have hypos : 0 < y := by
    rcases eq_or_lt_of_le hy with h0 | h0
    · rw [← h0, roundDouble_zero] at h
      have : (0 : ℚ) < 2 ^ 53 := by positivity
      linarith
    · exact h0
  by_cases hp : 1 ≤ ulpExponent y
  · refine ⟨roundHalfEven (y / 2 ^ ulpExponent y) * 2 ^ (ulpExponent y - 1).toNat, ?_⟩
    have e : (2 : ℚ) ^ ulpExponent y = 2 ^ (ulpExponent y - 1).toNat * 2 := by
      have : ulpExponent y = ((ulpExponent y - 1).toNat : Int) + 1 := by omega
      conv_lhs => rw [this, two_zpow_add, zpow_natCast]
      norm_num
    unfold roundDouble
    rw [e]
    push_cast
    ring
  · have htop := roundDouble_le_binade_top y hypos
    have hle : (2 : ℚ) ^ (ulpExponent y + 53) ≤ 2 ^ (53 : Int) := two_zpow_le (by omega)
    have h53 : (2 : ℚ) ^ (53 : Int) = 2 ^ 53 := by norm_num
    refine ⟨2 ^ 52, ?_⟩
    have : roundDouble y = 2 ^ 53 := le_antisymm (by linarith) h
    rw [this]
    norm_num

/-- A bracket whose lower end is at most `2 ^ 53` and whose upper end is a
double above `2 ^ 53` never closes when the sizes up to `2 ^ 53` fit and the
larger ones do not: the ends differ by 2 at least, and the rounded midpoint is
one of the doubles in between. -/
theorem binarySearchDouble_stalls :
    ∀ (fuel : Nat) (span l h : Int) (opt : JsSize), 0 ≤ l → l ≤ 2 ^ 53 → 2 ^ 53 < h →
      h ≤ 2 ^ 55 → h ≠ 2 ^ 53 + 1 →
      binarySearchDouble (fun s => if s ≤ 2 ^ 53 then 0 else 1000) 300 fuel span
        (JsSize.finite l) (JsSize.finite h) opt = none := by
  intro fuel
  induction fuel with
  | zero =>
    intro span l h opt hl0 hl hh hhB hodd
    have hgap : (JsSize.finite h).gapOverOne (JsSize.finite l) = true := by
      simp only [JsSize.gapOverOne, decide_eq_true_eq]
      have h2 : (2 : ℚ) ≤ (h : ℚ) - (l : ℚ) := by
        have : (2 : Int) ≤ h - l := by omega
        have : ((2 : Int) : ℚ) ≤ ((h - l : Int) : ℚ) := by exact_mod_cast this
        push_cast at this
        linarith
      have := roundDouble_mono (by norm_num : (0 : ℚ) ≤ 2) h2
      have e2 : roundDouble 2 = 2 := by
        have := roundDouble_intCast 2 (by norm_num)
        simpa using this
      rw [e2] at this
      linarith
    simp only [binarySearchDouble, hgap, if_true]
  | succ f ih =>
    intro span l h opt hl0 hl hh hhB hodd
    have hgap : (JsSize.finite h).gapOverOne (JsSize.finite l) = true := by
      simp only [JsSize.gapOverOne, decide_eq_true_eq]
      have h2 : (2 : ℚ) ≤ (h : ℚ) - (l : ℚ) := by
        have : (2 : Int) ≤ h - l := by omega
        have : ((2 : Int) : ℚ) ≤ ((h - l : Int) : ℚ) := by exact_mod_cast this
        push_cast at this
        linarith
      have := roundDouble_mono (by norm_num : (0 : ℚ) ≤ 2) h2
      have e2 : roundDouble 2 = 2 := by
        have := roundDouble_intCast 2 (by norm_num)
        simpa using this
      rw [e2] at this
      linarith
    -- the midpoint is a size between 0 and `2 ^ 55`, never `2 ^ 53 + 1`
    have hlq : (0 : ℚ) ≤ (l : ℚ) := by exact_mod_cast hl0
    have hlq2 : (l : ℚ) ≤ 2 ^ 53 := by exact_mod_cast hl
    have hhq : (h : ℚ) ≤ 2 ^ 55 := by exact_mod_cast hhB
    have hhq0 : (0 : ℚ) ≤ (h : ℚ) := by
      have : (0 : Int) ≤ h := by omega
      exact_mod_cast this
    have hs0 : 0 ≤ roundDouble ((l : ℚ) + (h : ℚ)) := roundDouble_nonneg (by linarith)
    have hsB : roundDouble ((l : ℚ) + (h : ℚ)) ≤ 2 ^ 56 := by
      have := roundDouble_mono (show (0 : ℚ) ≤ (l : ℚ) + (h : ℚ) by linarith)
        (show (l : ℚ) + (h : ℚ) ≤ 2 ^ 56 by norm_num at hlq2 hhq ⊢; linarith)
      rwa [roundDouble_two_pow 56] at this
    have hr0 : 0 ≤ roundDouble (roundDouble ((l : ℚ) + (h : ℚ)) / 2) :=
      roundDouble_nonneg (by linarith)
    have hrB : roundDouble (roundDouble ((l : ℚ) + (h : ℚ)) / 2) ≤ 2 ^ 55 := by
      have := roundDouble_mono (show (0 : ℚ) ≤ roundDouble ((l : ℚ) + (h : ℚ)) / 2 by linarith)
        (show roundDouble ((l : ℚ) + (h : ℚ)) / 2 ≤ 2 ^ 55 by norm_num at hsB ⊢; linarith)
      rwa [roundDouble_two_pow 55] at this
    have hbig : (2 : ℚ) ^ 56 < 2 ^ 1024 := pow_lt_pow_right₀ (by norm_num) (by norm_num)
    have hbig2 : (2 : ℚ) ^ 55 < 2 ^ 1024 := pow_lt_pow_right₀ (by norm_num) (by norm_num)
    have hmid : JsSize.mid (JsSize.finite l) (JsSize.finite h) =
        JsSize.finite ⌊roundDouble (roundDouble ((l : ℚ) + (h : ℚ)) / 2)⌋ := by
      simp only [JsSize.mid, JsSize.ofRat]
      rw [if_neg (by linarith), if_neg (by linarith)]
    have hm0 : 0 ≤ ⌊roundDouble (roundDouble ((l : ℚ) + (h : ℚ)) / 2)⌋ := Int.floor_nonneg.mpr hr0
    have hmB : ⌊roundDouble (roundDouble ((l : ℚ) + (h : ℚ)) / 2)⌋ ≤ 2 ^ 55 := by
      have h1 : ((⌊roundDouble (roundDouble ((l : ℚ) + (h : ℚ)) / 2)⌋ : Int) : ℚ) ≤
          ((2 ^ 55 : Int) : ℚ) := by
        push_cast
        exact le_trans (Int.floor_le _) hrB
      exact_mod_cast h1
    have hmodd : ⌊roundDouble (roundDouble ((l : ℚ) + (h : ℚ)) / 2)⌋ ≠ 2 ^ 53 + 1 := by
      intro hcon
      have hge : (2 : ℚ) ^ 53 ≤ roundDouble (roundDouble ((l : ℚ) + (h : ℚ)) / 2) := by
        have h1 := Int.floor_le (roundDouble (roundDouble ((l : ℚ) + (h : ℚ)) / 2))
        rw [hcon] at h1
        push_cast at h1
        linarith
      obtain ⟨k, hk⟩ := roundDouble_even_of_ge _ hge (by linarith)
      rw [hk] at hcon
      have : ⌊(2 : ℚ) * (k : ℚ)⌋ = 2 * k := by
        have : (2 : ℚ) * (k : ℚ) = ((2 * k : Int) : ℚ) := by push_cast; ring
        rw [this, Int.floor_intCast]
      rw [this] at hcon
      omega
    simp only [binarySearchDouble, hgap, if_true, hmid, JsSize.setSpanFontSize, if_pos hm0]
    by_cases hfit : ⌊roundDouble (roundDouble ((l : ℚ) + (h : ℚ)) / 2)⌋ ≤ 2 ^ 53
    · have hw : (if ⌊roundDouble (roundDouble ((l : ℚ) + (h : ℚ)) / 2)⌋ ≤ 2 ^ 53
          then (0 : Int) else 1000) ≤ 300 := by
        rw [if_pos hfit]
        norm_num
      rw [if_pos hw]
      exact ih _ _ _ _ hm0 hfit hh hhB hodd
    · have hw : ¬ (if ⌊roundDouble (roundDouble ((l : ℚ) + (h : ℚ)) / 2)⌋ ≤ 2 ^ 53
          then (0 : Int) else 1000) ≤ 300 := by
        rw [if_neg hfit]
        norm_num
      rw [if_neg hw]
      exact ih _ _ _ _ hl0 hl (by omega) hmB hmodd

/-- One round of `Math.floor(testSize * 1.5)` from a size between 8 and
`2 ^ 53`: a larger size, at most the double. -/
theorem JsSize.scale_grows_bounded (c : Int) (hc : 8 ≤ c) (hcB : c ≤ 2 ^ 53) :
    ∃ c2, (JsSize.finite c).scale (3 / 2) = JsSize.finite c2 ∧ c < c2 ∧ c2 ≤ 2 * c := by
  have hcq : (8 : ℚ) ≤ (c : ℚ) := by exact_mod_cast hc
  have hup : roundDouble (3 / 2 * (c : ℚ)) ≤ 2 * (c : ℚ) := by
    have h1 := roundDouble_mono (show (0 : ℚ) ≤ 3 / 2 * (c : ℚ) by linarith)
      (show 3 / 2 * (c : ℚ) ≤ (c : ℚ) * 2 ^ (1 : Int) by norm_num; linarith)
    rw [roundDouble_dyadic c 1 (by rw [abs_le]; constructor <;> omega) (by norm_num)] at h1
    norm_num at h1
    linarith
  have hcq2 : (c : ℚ) ≤ 2 ^ 53 := by exact_mod_cast hcB
  have hbig : (2 : ℚ) ^ 54 < 2 ^ 1024 := pow_lt_pow_right₀ (by norm_num) (by norm_num)
  have hnot : ¬ (2 : ℚ) ^ 1024 ≤ roundDouble (3 / 2 * (c : ℚ)) := by
    intro hcon
    have : (2 : ℚ) * 2 ^ 53 = 2 ^ 54 := by norm_num
    linarith
  simp only [JsSize.scale, JsSize.ofRat, if_neg hnot]
  refine ⟨_, rfl, ?_, ?_⟩
  · have hr := roundDouble_ge_three_quarters (3 / 2 * (c : ℚ)) (by linarith)
    have : c + 1 ≤ ⌊roundDouble (3 / 2 * (c : ℚ))⌋ := by
      rw [Int.le_floor]
      push_cast
      linarith
    omega
  · have h1 : ((⌊roundDouble (3 / 2 * (c : ℚ))⌋ : Int) : ℚ) ≤ ((2 * c : Int) : ℚ) := by
      push_cast
      exact le_trans (Int.floor_le _) hup
    exact_mod_cast h1

/-- With the sizes up to `2 ^ 53` fitting and the larger ones not, the
expansion loop is still running or ends at a size that fits whose double does
not. -/
theorem expandLoopDouble_threshold :
    ∀ (fuel : Nat) (span c t : Int), 8 ≤ t → t < c → c ≤ 2 * t → t ≤ 2 ^ 53 →
      expandLoopDouble (fun s => if s ≤ 2 ^ 53 then 0 else 1000) 300 fuel span
          (JsSize.finite c) (JsSize.finite t) (JsSize.finite t) = none ∨
        ∃ sp t2, expandLoopDouble (fun s => if s ≤ 2 ^ 53 then 0 else 1000) 300 fuel span
            (JsSize.finite c) (JsSize.finite t) (JsSize.finite t) =
            some (sp, JsSize.finite t2, JsSize.finite t2) ∧
          8 ≤ t2 ∧ t2 ≤ 2 ^ 53 ∧ 2 ^ 53 < 2 * t2 := by
  intro fuel
  induction fuel with
  | zero =>
    intro span c t ht htc _ _
    left
    have hgt : (JsSize.finite c).gt (JsSize.finite t) = true := by
      simp only [JsSize.gt, decide_eq_true_eq]
      omega
    simp only [expandLoopDouble, hgt, if_true]
  | succ f ih =>
    intro span c t ht htc hc2 htB
    have hgt : (JsSize.finite c).gt (JsSize.finite t) = true := by
      simp only [JsSize.gt, decide_eq_true_eq]
      omega
    have hc0 : 0 ≤ c := by omega
    simp only [expandLoopDouble, hgt, if_true, JsSize.setSpanFontSize, if_pos hc0]
    by_cases hfit : c ≤ 2 ^ 53
    · have hw : (if c ≤ 2 ^ 53 then (0 : Int) else 1000) ≤ 300 := by
        rw [if_pos hfit]
        norm_num
      obtain ⟨c2, hs, h1, h2⟩ := JsSize.scale_grows_bounded c (by omega) hfit
      rw [if_pos hw, hs]
      exact ih c c2 c (by omega) h1 h2 hfit
    · have hw : ¬ (if c ≤ 2 ^ 53 then (0 : Int) else 1000) ≤ 300 := by
        rw [if_neg hfit]
        norm_num
      rw [if_neg hw]
      right
      exact ⟨c, t, rfl, ht, htB, by omega⟩

/-- Outside the range of exact integers: for a measurement that fits up to
`2 ^ 53` px and at no larger size (a monotone one), in a container 300 wide
with minimum 20, the search on doubles is still running after any number of
rounds; the bracket of the binary search cannot close on `2 ^ 53 + 1`, which
is not a double. -/
theorem fitTextToLineDouble_threshold_runs_on :
    Monotone (fun s : Int => if s ≤ 2 ^ 53 then (0 : Int) else 1000) ∧
      ∀ fuel, fitTextToLineDouble (fun s => if s ≤ 2 ^ 53 then 0 else 1000) 16 300 20 fuel =
        none := by
  constructor
  · intro a b hab
    show (if a ≤ 2 ^ 53 then (0 : Int) else 1000) ≤ (if b ≤ 2 ^ 53 then (0 : Int) else 1000)
    split_ifs <;> omega
  · intro fuel
    have h10 := JsSize.scale_ten 300 (by norm_num)
    have hspan : JsSize.setSpanFontSize 16 (JsSize.finite (300 * 10)) = 300 * 10 := by
      simp [JsSize.setSpanFontSize]
    have hw : (if (300 * 10 : Int) ≤ 2 ^ 53 then (0 : Int) else 1000) = 0 := by norm_num
    have hhalve : halveLoopDouble (fun s => if s ≤ 2 ^ 53 then 0 else 1000) 300
        (JsSize.finite 20) fuel (300 * 10) (JsSize.finite (300 * 10)) =
        some (300 * 10, JsSize.finite (300 * 10)) := by
      cases fuel <;> simp [halveLoopDouble, hw]
    have h2 := JsSize.scale_two (300 * 10) (by norm_num)
    simp only [fitTextToLineDouble, h10, hspan, hhalve, hw, h2]
    rw [if_pos (by norm_num)]
    rcases expandLoopDouble_threshold fuel (300 * 10) (300 * 10 * 2) (300 * 10)
      (by norm_num) (by norm_num) (by norm_num) (by norm_num) with hnone | ⟨sp, t2, hsome, a1, a2, a3⟩
    · rw [hnone]
    · rw [hsome]
      have hd : (JsSize.finite t2).scale 2 = JsSize.finite (2 * t2) := by
        have hr := roundDouble_dyadic t2 1 (by rw [abs_le]; constructor <;> omega) (by norm_num)
        have e : (2 : ℚ) * (t2 : ℚ) = (t2 : ℚ) * 2 ^ (1 : Int) := by norm_num; ring
        have e2 : (t2 : ℚ) * 2 ^ (1 : Int) = ((2 * t2 : Int) : ℚ) := by push_cast; norm_num; ring
        have hbig : (2 : ℚ) ^ 54 < 2 ^ 1024 := pow_lt_pow_right₀ (by norm_num) (by norm_num)
        have hq : ((2 * t2 : Int) : ℚ) ≤ ((2 ^ 54 : Int) : ℚ) := by
          have : 2 * t2 ≤ 2 ^ 54 := by omega
          exact_mod_cast this
        simp only [JsSize.scale, JsSize.ofRat]
        rw [e, hr, e2, Int.floor_intCast, if_neg]
        intro hcon
        push_cast at hq
        linarith
      simp only [hd]
      exact binarySearchDouble_stalls fuel sp t2 (2 * t2) (JsSize.finite t2) (by omega) a2 a3
        (by omega) (by omega)

/-- For a measurement that exceeds the container width at every size and a
negative minimum, the halving loop is still running after any number of
rounds: `max` reaches 0 and stays there, above the minimum. -/
theorem halveLoopDouble_too_wide (width : Int → Int) (W m : Int) (hm : m < 0)
    (hwide : ∀ s, W < width s) :
    ∀ (fuel : Nat) (span v : Int), 0 ≤ v → v ≤ 2 ^ 53 →
      halveLoopDouble width W (JsSize.finite m) fuel span (JsSize.finite v) = none := by
  intro fuel
  induction fuel with
  | zero =>
    intro span v hv _
    have hc : width span > W ∧ (JsSize.finite v).gt (JsSize.finite m) = true :=
      ⟨hwide span, by simp only [JsSize.gt, decide_eq_true_eq]; omega⟩
    simp only [halveLoopDouble, if_pos hc]
  | succ f ih =>
    intro span v hv hvB
    have hc : width span > W ∧ (JsSize.finite v).gt (JsSize.finite m) = true :=
      ⟨hwide span, by simp only [JsSize.gt, decide_eq_true_eq]; omega⟩
    have hh := JsSize.scale_half v (by rw [abs_le]; constructor <;> omega)
    simp only [halveLoopDouble, if_pos hc, hh]
    exact ih _ (v / 2) (by omega) (by omega)

/-- A negative minimum: for a measurement that is 1000 wide at every size, in
a container 300 wide with minimum -5, the search on doubles is still in its
halving loop after any number of rounds. -/
theorem fitTextToLineDouble_negative_minimum_runs_on :
    ∀ fuel, fitTextToLineDouble (fun _ => 1000) 16 300 (-5) fuel = none := by
  intro fuel
  have h10 := JsSize.scale_ten 300 (by norm_num)
  have hrun := halveLoopDouble_too_wide (fun _ => 1000) 300 (-5) (by norm_num)
    (fun _ => by norm_num) fuel (JsSize.setSpanFontSize 16 (JsSize.finite (300 * 10)))
    (300 * 10) (by norm_num) (by norm_num)
  simp only [fitTextToLineDouble, h10, hrun]

/-! ## Claims on the text fitting in double arithmetic -/

/-- C10 (counterexample): in a container 300 wide the search of `fitTextToLine`
does not end for every monotone measurement and every minimum.  For a
measurement that is 1000 wide at every size and the minimum -5 the halving
loop never ends: `max` reaches 0 and stays there, above the minimum.  For a
measurement that fits up to `2 ^ 53` px and at no larger size and the minimum
20 the binary search never ends: its bracket comes to `2 ^ 53`, `2 ^ 53 + 2`,
whose midpoint is computed as `2 ^ 53`. -/
theorem fitTextToLineDouble_runs_on :
    (Monotone (fun _ : Int => (1000 : Int)) ∧
        ∀ fuel, fitTextToLineDouble (fun _ => 1000) 16 300 (-5) fuel = none) ∧
      (Monotone (fun s : Int => if s ≤ 2 ^ 53 then (0 : Int) else 1000) ∧
        ∀ fuel, fitTextToLineDouble (fun s => if s ≤ 2 ^ 53 then 0 else 1000) 16 300 20 fuel =
          none) :=
  ⟨⟨fun _ _ _ => le_refl _, fitTextToLineDouble_negative_minimum_runs_on⟩,
    fitTextToLineDouble_threshold_runs_on⟩

/-- C10 (amended): on doubles the three loops of `fitTextToLine` all end: the search
returns, with enough rounds allowed, for every monotone measurement that never
overflows the container or overflows it at some size up to `2 ^ 50`, every
container width from 0 to `2 ^ 31` and every minimum from 0 to `2 ^ 50`.  In
the second case the search is the search on exact integers; in the first case,
for a positive width, the sizes grow until `testSize * 1.5` overflows and the
search returns `Infinity`. -/
theorem fitTextToLineDouble_terminates (width : Int → Int) (span0 W minFontSize : Int)
    (hmono : Monotone width) (hmin : 0 ≤ minFontSize) (hminB : minFontSize ≤ 2 ^ 50)
    (hW : 0 ≤ W) (hWB : W ≤ 2 ^ 31)
    (hshape : (∀ s, width s ≤ W) ∨ ∃ s0, s0 ≤ 2 ^ 50 ∧ W < width s0) :
    (∃ S N, ∀ fuel, N ≤ fuel →
        fitTextToLineDouble width span0 W minFontSize fuel = some S) ∧
      ((∃ s0, s0 ≤ 2 ^ 50 ∧ W < width s0) → ∀ fuel,
        fitTextToLineDouble width span0 W minFontSize fuel =
          (fitTextToLineSize width W minFontSize fuel).map JsSize.finite) ∧
      ((∀ s, width s ≤ W) → 0 < W → ∃ N, ∀ fuel, N ≤ fuel →
        fitTextToLineDouble width span0 W minFontSize fuel = some JsSize.infinity) := by
  have hexact : (∃ s0, s0 ≤ 2 ^ 50 ∧ W < width s0) → ∀ fuel,
      fitTextToLineDouble width span0 W minFontSize fuel =
        (fitTextToLineSize width W minFontSize fuel).map JsSize.finite := by
    rintro ⟨s0, hs0B, hs0⟩ fuel
    exact fitTextToLineDouble_eq width span0 W minFontSize hmono hmin hminB hW hWB s0 hs0B hs0
      fuel
  have hinf : (∀ s, width s ≤ W) → 0 < W → ∃ N, ∀ fuel, N ≤ fuel →
      fitTextToLineDouble width span0 W minFontSize fuel = some JsSize.infinity :=
    fun hfit hpos => ⟨_, fitTextToLineDouble_always_fits width span0 W minFontSize hfit hpos hWB⟩
  refine ⟨?_, hexact, hinf⟩
  rcases hshape with hfit | ⟨s0, hs0B, hs0⟩
  · rcases eq_or_lt_of_le hW with h0 | hpos
    · subst h0
      exact ⟨JsSize.finite 0, 0, fun fuel _ =>
        fitTextToLineDouble_zero_width width span0 minFontSize hfit fuel⟩
    · obtain ⟨N, hN⟩ := hinf hfit hpos
      exact ⟨JsSize.infinity, N, hN⟩
  · obtain ⟨S, N, hN⟩ := fitTextToLineSize_terminates width W minFontSize hmono hmin hW s0 hs0
    refine ⟨JsSize.finite S, N, ?_⟩
    intro fuel hf
    rw [hexact ⟨s0, hs0B, hs0⟩ fuel, hN fuel hf]
    rfl

theorem fitTextToLineDouble_terminates_witness :
    (∃ S N, ∀ fuel, N ≤ fuel →
        fitTextToLineDouble (fun s => 3 * s) 16 300 20 fuel = some S) ∧
      (∀ fuel, fitTextToLineDouble (fun s => 3 * s) 16 300 20 fuel =
        (fitTextToLineSize (fun s => 3 * s) 300 20 fuel).map JsSize.finite) ∧
      fitTextToLineSize (fun s => 3 * s) 300 20 20 = some 100 ∧
      ∃ N, ∀ fuel, N ≤ fuel →
        fitTextToLineDouble (fun _ => 0) 16 300 20 fuel = some JsSize.infinity :=
  ⟨(fitTextToLineDouble_terminates (fun s => 3 * s) 16 300 20
      (by intro a b hab; show 3 * a ≤ 3 * b; omega) (by norm_num) (by norm_num) (by norm_num)
      (by norm_num) (Or.inr ⟨101, by norm_num, by norm_num⟩)).1,
    (fitTextToLineDouble_terminates (fun s => 3 * s) 16 300 20
      (by intro a b hab; show 3 * a ≤ 3 * b; omega) (by norm_num) (by norm_num) (by norm_num)
      (by norm_num) (Or.inr ⟨101, by norm_num, by norm_num⟩)).2.1
      ⟨101, by norm_num, by norm_num⟩,
    by decide,
    (fitTextToLineDouble_terminates (fun _ => 0) 16 300 20 (fun _ _ _ => le_refl _)
      (by norm_num) (by norm_num) (by norm_num) (by norm_num)
      (Or.inl (fun _ => by norm_num))).2.2 (fun _ => by norm_num) (by norm_num)⟩

/-! ## Lemmas on the palette ordering -/

theorem hexDigitValue_le (c : Char) (v : Nat) (h : hexDigitValue c = some v) : v ≤ 15 := by
  unfold hexDigitValue at h
  split_ifs at h <;> simp at h <;> omega

theorem getColorLightness_digits (d1 d2 d3 d4 d5 d6 : Char) (v1 v2 v3 v4 v5 v6 : Nat)
    (h1 : hexDigitValue d1 = some v1) (h2 : hexDigitValue d2 = some v2)
    (h3 : hexDigitValue d3 = some v3) (h4 : hexDigitValue d4 = some v4)
    (h5 : hexDigitValue d5 = some v5) (h6 : hexDigitValue d6 = some v6) (c0 : Char) :
    getColorLightness (String.mk [c0, d1, d2, d3, d4, d5, d6]) =
      some (jsDiv (jsAdd (jsAdd (jsMul (roundDouble 0.299) ((16 * v1 + v2 : Nat) : ℚ))
          (jsMul (roundDouble 0.587) ((16 * v3 + v4 : Nat) : ℚ)))
        (jsMul (roundDouble 0.114) ((16 * v5 + v6 : Nat) : ℚ))) 255) := by
  simp [getColorLightness, slice, parseInt16, parseHexDigits, h1, h2, h3, h4, h5, h6]

theorem getContrastColor_digits (d1 d2 d3 d4 d5 d6 : Char) (v1 v2 v3 v4 v5 v6 : Nat)
    (h1 : hexDigitValue d1 = some v1) (h2 : hexDigitValue d2 = some v2)
    (h3 : hexDigitValue d3 = some v3) (h4 : hexDigitValue d4 = some v4)
    (h5 : hexDigitValue d5 = some v5) (h6 : hexDigitValue d6 = some v6) (c0 : Char) :
    getContrastColor (String.mk [c0, d1, d2, d3, d4, d5, d6]) =
      if jsDiv (jsAdd (jsAdd (jsMul (roundDouble 0.299) ((16 * v1 + v2 : Nat) : ℚ))
          (jsMul (roundDouble 0.587) ((16 * v3 + v4 : Nat) : ℚ)))
        (jsMul (roundDouble 0.114) ((16 * v5 + v6 : Nat) : ℚ))) 255 > 0.5
      then "#000000" else "#ffffff" := by
  simp [getContrastColor, slice, parseInt16, parseHexDigits, h1, h2, h3, h4, h5, h6]

/-- The luminance of a `#rrggbb` string is a number, not `NaN`. -/
theorem IsHexColor.lightness {hex : String} (h : IsHexColor hex) :
    ∃ v, getColorLightness hex = some v := by
  obtain ⟨data⟩ := hex
  unfold IsHexColor at h
  split at h
  · rename_i c0 d1 d2 d3 d4 d5 d6 hdata
    simp only at hdata
    subst hdata
    obtain ⟨_, h1, h2, h3, h4, h5, h6⟩ := h
    obtain ⟨v1, e1⟩ := Option.isSome_iff_exists.mp h1
    obtain ⟨v2, e2⟩ := Option.isSome_iff_exists.mp h2
    obtain ⟨v3, e3⟩ := Option.isSome_iff_exists.mp h3
    obtain ⟨v4, e4⟩ := Option.isSome_iff_exists.mp h4
    obtain ⟨v5, e5⟩ := Option.isSome_iff_exists.mp h5
    obtain ⟨v6, e6⟩ := Option.isSome_iff_exists.mp h6
    exact ⟨_, getColorLightness_digits d1 d2 d3 d4 d5 d6 v1 v2 v3 v4 v5 v6 e1 e2 e3 e4 e5 e6 c0⟩
  · exact absurd h id

/-- The value of `getColorLightness` is a double. -/
theorem getColorLightness_isDouble (hex : String) (v : ℚ) (h : getColorLightness hex = some v) :
    ∃ q, v = roundDouble q := by
  unfold getColorLightness at h
  split at h
  · simp only [Option.some.injEq] at h
    exact ⟨_, h.symm⟩
  · simp at h

theorem keepsBefore_iff (a b : String) (x y : ℚ) (ha : getColorLightness a = some x)
    (hb : getColorLightness b = some y) : keepsBefore a b ↔ y ≤ x := by
  obtain ⟨qa, rfl⟩ := getColorLightness_isDouble a x ha
  obtain ⟨qb, rfl⟩ := getColorLightness_isDouble b y hb
  simp only [keepsBefore, compareLightness, ha, hb, jsSub]
  exact roundDouble_sub_nonpos_iff qb qa

theorem keepsBefore_of_eq (a b : String) (h : getColorLightness a = getColorLightness b) :
    keepsBefore a b := by
  unfold keepsBefore compareLightness
  rw [h]
  cases getColorLightness b with
  | none => trivial
  | some v =>
    simp only [jsSub, sub_self, roundDouble_zero]
    exact le_refl _

theorem keepsBefore_total (a b : String) (ha : ∃ v, getColorLightness a = some v)
    (hb : ∃ v, getColorLightness b = some v) : keepsBefore a b ∨ keepsBefore b a := by
  obtain ⟨x, hx⟩ := ha
  obtain ⟨y, hy⟩ := hb
  rw [keepsBefore_iff a b x y hx hy, keepsBefore_iff b a y x hy hx]
  exact le_total y x

theorem keepsBefore_trans (a b c : String) (ha : ∃ v, getColorLightness a = some v)
    (hb : ∃ v, getColorLightness b = some v) (hc : ∃ v, getColorLightness c = some v)
    (hab : keepsBefore a b) (hbc : keepsBefore b c) : keepsBefore a c := by
  obtain ⟨x, hx⟩ := ha
  obtain ⟨y, hy⟩ := hb
  obtain ⟨z, hz⟩ := hc
  rw [keepsBefore_iff a b x y hx hy] at hab
  rw [keepsBefore_iff b c y z hy hz] at hbc
  rw [keepsBefore_iff a c x z hx hz]
  exact le_trans hbc hab

/-- Inserting keeps a list sorted when the relation is total and transitive on
the entries at hand. -/
theorem sorted_orderedInsert_on {α : Type} (r : α → α → Prop) [DecidableRel r]
    (P : α → Prop) (htot : ∀ a b, P a → P b → r a b ∨ r b a)
    (htr : ∀ a b c, P a → P b → P c → r a b → r b c → r a c) (a : α) (ha : P a) :
    ∀ l : List α, (∀ x ∈ l, P x) → l.Sorted r → (l.orderedInsert r a).Sorted r := by
  intro l
  induction l with
  | nil => intro _ _; exact List.sorted_singleton a
  | cons b l ih =>
    intro hP hs
    have hb : P b := hP b (List.mem_cons_self _ _)
    have hl : ∀ x ∈ l, P x := fun x hx => hP x (List.mem_cons_of_mem _ hx)
    by_cases h : r a b
    · rw [List.orderedInsert, if_pos h, List.sorted_cons]
      refine ⟨?_, hs⟩
      intro c hc
      rcases List.mem_cons.mp hc with rfl | hc
      · exact h
      · exact htr a b c ha hb (hl c hc) h (List.rel_of_sorted_cons hs c hc)
    · rw [List.orderedInsert, if_neg h, List.sorted_cons]
      refine ⟨?_, ih hl hs.of_cons⟩
      intro c hc
      rcases (List.mem_orderedInsert r).mp hc with rfl | hc
      · exact (htot c b ha hb).resolve_left h
      · exact List.rel_of_sorted_cons hs c hc

theorem sorted_insertionSort_on {α : Type} (r : α → α → Prop) [DecidableRel r]
    (P : α → Prop) (htot : ∀ a b, P a → P b → r a b ∨ r b a)
    (htr : ∀ a b c, P a → P b → P c → r a b → r b c → r a c) :
    ∀ l : List α, (∀ x ∈ l, P x) → (l.insertionSort r).Sorted r := by
  intro l
  induction l with
  | nil => intro _; exact List.sorted_nil
  | cons a l ih =>
    intro hP
    have hl : ∀ x ∈ l, P x := fun x hx => hP x (List.mem_cons_of_mem _ hx)
    exact sorted_orderedInsert_on r P htot htr a (hP a (List.mem_cons_self _ _)) _
      (fun x hx => hl x ((List.mem_insertionSort r).mp hx)) (ih hl)

/-- On a palette of `#rrggbb` strings the output is ordered by the comparator. -/
theorem sortPaletteByLightness_sorted (palette : List String)
    (h : ∀ s ∈ palette, IsHexColor s) :
    (sortPaletteByLightness palette).Sorted keepsBefore :=
  sorted_insertionSort_on keepsBefore (fun s => ∃ v, getColorLightness s = some v)
    keepsBefore_total keepsBefore_trans palette (fun s hs => (h s hs).lightness)

/-- The rounding of a positive number, from its binade `e` and the multiple
`m` of the spacing that is nearer to it than half the spacing. -/
theorem roundDouble_eq_of_pos (x y : ℚ) (e m : Int) (he : -1022 ≤ e)
    (h1 : (2 : ℚ) ^ e ≤ x) (h2 : x < 2 ^ (e + 1))
    (hlo : ((m : ℚ) - 1 / 2) * 2 ^ (e - 52) < x) (hhi : x < ((m : ℚ) + 1 / 2) * 2 ^ (e - 52))
    (hy : y = (m : ℚ) * 2 ^ (e - 52)) : roundDouble x = y := by
  have hx : 0 < x := lt_of_lt_of_le (two_zpow_pos e) h1
  have hu := two_zpow_pos (e - 52)
  rw [hy]
  apply roundDouble_eq_of x e m he (by rwa [abs_of_pos hx]) (by rwa [abs_of_pos hx])
  apply roundHalfEven_eq_of_near
  rw [abs_lt]
  constructor
  · rw [lt_sub_iff_add_lt, lt_div_iff₀ hu]
    have : (-(1 / 2) + (m : ℚ)) * 2 ^ (e - 52) = ((m : ℚ) - 1 / 2) * 2 ^ (e - 52) := by ring
    rw [this]
    exact hlo
  · rw [sub_lt_iff_lt_add, div_lt_iff₀ hu]
    have : (1 / 2 + (m : ℚ)) * 2 ^ (e - 52) = ((m : ℚ) + 1 / 2) * 2 ^ (e - 52) := by ring
    rw [this]
    exact hhi

/-- The rounding of a positive number half way between two multiples of the
spacing: the even multiple `m`. -/
theorem roundDouble_eq_of_pos_tie (x y : ℚ) (e m : Int) (he : -1022 ≤ e)
    (h1 : (2 : ℚ) ^ e ≤ x) (h2 : x < 2 ^ (e + 1))
    (htie : x = ((m : ℚ) + 1 / 2) * 2 ^ (e - 52) ∨ x = ((m : ℚ) - 1 / 2) * 2 ^ (e - 52))
    (hm : m % 2 = 0) (hy : y = (m : ℚ) * 2 ^ (e - 52)) : roundDouble x = y := by
  have hx : 0 < x := lt_of_lt_of_le (two_zpow_pos e) h1
  have hu := two_zpow_pos (e - 52)
  rw [hy]
  apply roundDouble_eq_of x e m he (by rwa [abs_of_pos hx]) (by rwa [abs_of_pos hx])
  apply roundHalfEven_eq_of_tie _ _ _ hm
  rcases htie with h | h
  · have e1 : x / 2 ^ (e - 52) - (m : ℚ) = 1 / 2 := by
      rw [h]
      field_simp
      ring
    rw [e1]
    norm_num
  · have e1 : x / 2 ^ (e - 52) - (m : ℚ) = -(1 / 2) := by
      rw [h]
      field_simp
      ring
    rw [e1, abs_neg]
    norm_num

theorem roundDouble_299 : roundDouble 0.299 = 5386305154335113 / 18014398509481984 :=
  roundDouble_eq_of_pos _ _ (-2) 5386305154335113 (by norm_num) (by norm_num) (by norm_num)
      (by norm_num) (by norm_num) (by norm_num)

theorem roundDouble_587 : roundDouble 0.587 = 2643612981266481 / 4503599627370496 :=
  roundDouble_eq_of_pos _ _ (-1) 5287225962532962 (by norm_num) (by norm_num) (by norm_num)
      (by norm_num) (by norm_num) (by norm_num)

theorem roundDouble_114 : roundDouble 0.114 = 8214565720323785 / 72057594037927936 :=
  roundDouble_eq_of_pos _ _ (-4) 8214565720323785 (by norm_num) (by norm_num) (by norm_num)
      (by norm_num) (by norm_num) (by norm_num)

/-- The luminance expression evaluated step by step: the three products, the
two sums and the quotient, each with its rounding. -/
theorem luminance_steps (r g b : Nat) (p1 p2 p3 s1 s2 v : ℚ)
    (hp1 : roundDouble (5386305154335113 / 18014398509481984 * ((r : Nat) : ℚ)) = p1)
    (hp2 : roundDouble (2643612981266481 / 4503599627370496 * ((g : Nat) : ℚ)) = p2)
    (hp3 : roundDouble (8214565720323785 / 72057594037927936 * ((b : Nat) : ℚ)) = p3)
    (hs1 : roundDouble (p1 + p2) = s1) (hs2 : roundDouble (s1 + p3) = s2)
    (hv : roundDouble (s2 / 255) = v) :
    jsDiv (jsAdd (jsAdd (jsMul (roundDouble 0.299) ((r : Nat) : ℚ))
        (jsMul (roundDouble 0.587) ((g : Nat) : ℚ)))
      (jsMul (roundDouble 0.114) ((b : Nat) : ℚ))) 255 = v := by
  simp only [jsDiv, jsAdd, jsMul, roundDouble_299, roundDouble_587, roundDouble_114]
  rw [hp1, hp2, hp3, hs1, hs2, hv]

theorem luminance_black :
    jsDiv (jsAdd (jsAdd (jsMul (roundDouble 0.299) ((0 : Nat) : ℚ))
        (jsMul (roundDouble 0.587) ((0 : Nat) : ℚ)))
      (jsMul (roundDouble 0.114) ((0 : Nat) : ℚ))) 255 = 0 :=
  luminance_steps 0 0 0
    0
    0
    0
    0
    0
    0
    (by rw [Nat.cast_zero, mul_zero, roundDouble_zero])
    (by rw [Nat.cast_zero, mul_zero, roundDouble_zero])
    (by rw [Nat.cast_zero, mul_zero, roundDouble_zero])
    (by rw [add_zero, roundDouble_zero])
    (by rw [add_zero, roundDouble_zero])
    (by rw [zero_div, roundDouble_zero])

theorem luminance_white :
    jsDiv (jsAdd (jsAdd (jsMul (roundDouble 0.299) ((255 : Nat) : ℚ))
        (jsMul (roundDouble 0.587) ((255 : Nat) : ℚ)))
      (jsMul (roundDouble 0.114) ((255 : Nat) : ℚ))) 255 = 1 :=
  luminance_steps 255 255 255
    (5365264899825991 / 70368744177664)
    (2633286368058409 / 17592186044416)
    (4091238786489385 / 140737488355328)
    (3974602593014907 / 17592186044416)
    255
    1
    (roundDouble_eq_of_pos _ _ 6 5365264899825991 (by norm_num) (by norm_num) (by norm_num)
      (by norm_num) (by norm_num) (by norm_num))
    (roundDouble_eq_of_pos _ _ 7 5266572736116818 (by norm_num) (by norm_num) (by norm_num)
      (by norm_num) (by norm_num) (by norm_num))
    (roundDouble_eq_of_pos _ _ 4 8182477572978770 (by norm_num) (by norm_num) (by norm_num)
      (by norm_num) (by norm_num) (by norm_num))
    (roundDouble_eq_of_pos_tie _ _ 7 7949205186029814 (by norm_num) (by norm_num) (by norm_num)
      (Or.inr (by norm_num)) (by decide) (by norm_num))
    (roundDouble_eq_of_pos _ _ 7 8972014882652160 (by norm_num) (by norm_num) (by norm_num)
      (by norm_num) (by norm_num) (by norm_num))
    (roundDouble_eq_of_pos _ _ 0 4503599627370496 (by norm_num) (by norm_num) (by norm_num)
      (by norm_num) (by norm_num) (by norm_num))

theorem luminance_da3af8 :
    jsDiv (jsAdd (jsAdd (jsMul (roundDouble 0.299) ((218 : Nat) : ℚ))
        (jsMul (roundDouble 0.587) ((58 : Nat) : ℚ)))
      (jsMul (roundDouble 0.114) ((248 : Nat) : ℚ))) 255 = 4503599627370497 / 9007199254740992 :=
  luminance_steps 218 58 248
    (4586775482988495 / 70368744177664)
    (4791548528545497 / 140737488355328)
    (7957860541563667 / 281474976710656)
    (1745637436815311 / 17592186044416)
    (8972014882652161 / 70368744177664)
    (4503599627370497 / 9007199254740992)
    (roundDouble_eq_of_pos _ _ 6 4586775482988495 (by norm_num) (by norm_num) (by norm_num)
      (by norm_num) (by norm_num) (by norm_num))
    (roundDouble_eq_of_pos _ _ 5 4791548528545497 (by norm_num) (by norm_num) (by norm_num)
      (by norm_num) (by norm_num) (by norm_num))
    (roundDouble_eq_of_pos _ _ 4 7957860541563667 (by norm_num) (by norm_num) (by norm_num)
      (by norm_num) (by norm_num) (by norm_num))
    (roundDouble_eq_of_pos_tie _ _ 6 6982549747261244 (by norm_num) (by norm_num) (by norm_num)
      (Or.inr (by norm_num)) (by decide) (by norm_num))
    (roundDouble_eq_of_pos _ _ 6 8972014882652161 (by norm_num) (by norm_num) (by norm_num)
      (by norm_num) (by norm_num) (by norm_num))
    (roundDouble_eq_of_pos _ _ (-1) 4503599627370497 (by norm_num) (by norm_num) (by norm_num)
      (by norm_num) (by norm_num) (by norm_num))

theorem luminance_01ade1 :
    jsDiv (jsAdd (jsAdd (jsMul (roundDouble 0.299) ((1 : Nat) : ℚ))
        (jsMul (roundDouble 0.587) ((173 : Nat) : ℚ)))
      (jsMul (roundDouble 0.114) ((225 : Nat) : ℚ))) 255 = 1 / 2 :=
  luminance_steps 1 173 225
    (5386305154335113 / 18014398509481984)
    (1786504084996489 / 17592186044416)
    (7219833152628327 / 281474976710656)
    (3583528297247539 / 35184372088832)
    (255 / 2)
    (1 / 2)
    (roundDouble_eq_of_pos _ _ (-2) 5386305154335113 (by norm_num) (by norm_num) (by norm_num)
      (by norm_num) (by norm_num) (by norm_num))
    (roundDouble_eq_of_pos _ _ 6 7146016339985956 (by norm_num) (by norm_num) (by norm_num)
      (by norm_num) (by norm_num) (by norm_num))
    (roundDouble_eq_of_pos _ _ 4 7219833152628327 (by norm_num) (by norm_num) (by norm_num)
      (by norm_num) (by norm_num) (by norm_num))
    (roundDouble_eq_of_pos _ _ 6 7167056594495078 (by norm_num) (by norm_num) (by norm_num)
      (by norm_num) (by norm_num) (by norm_num))
    (roundDouble_eq_of_pos _ _ 6 8972014882652160 (by norm_num) (by norm_num) (by norm_num)
      (by norm_num) (by norm_num) (by norm_num))
    (roundDouble_eq_of_pos _ _ (-1) 4503599627370496 (by norm_num) (by norm_num) (by norm_num)
      (by norm_num) (by norm_num) (by norm_num))

theorem luminance_0b0100 :
    jsDiv (jsAdd (jsAdd (jsMul (roundDouble 0.299) ((11 : Nat) : ℚ))
        (jsMul (roundDouble 0.587) ((1 : Nat) : ℚ)))
      (jsMul (roundDouble 0.114) ((0 : Nat) : ℚ))) 255 = 2190550858753009 / 144115188075855872 :=
  luminance_steps 11 1 0
    (1851542396802695 / 562949953421312)
    (2643612981266481 / 4503599627370496)
    0
    (2181994019461005 / 562949953421312)
    (2181994019461005 / 562949953421312)
    (2190550858753009 / 144115188075855872)
    (roundDouble_eq_of_pos _ _ 1 7406169587210780 (by norm_num) (by norm_num) (by norm_num)
      (by norm_num) (by norm_num) (by norm_num))
    (roundDouble_eq_of_pos _ _ (-1) 5287225962532962 (by norm_num) (by norm_num) (by norm_num)
      (by norm_num) (by norm_num) (by norm_num))
    (by rw [Nat.cast_zero, mul_zero, roundDouble_zero])
    (roundDouble_eq_of_pos_tie _ _ 1 8727976077844020 (by norm_num) (by norm_num) (by norm_num)
      (Or.inl (by norm_num)) (by decide) (by norm_num))
    (roundDouble_eq_of_pos _ _ 1 8727976077844020 (by norm_num) (by norm_num) (by norm_num)
      (by norm_num) (by norm_num) (by norm_num))
    (roundDouble_eq_of_pos _ _ (-7) 8762203435012036 (by norm_num) (by norm_num) (by norm_num)
      (by norm_num) (by norm_num) (by norm_num))

theorem luminance_000022 :
    jsDiv (jsAdd (jsAdd (jsMul (roundDouble 0.299) ((0 : Nat) : ℚ))
        (jsMul (roundDouble 0.587) ((0 : Nat) : ℚ)))
      (jsMul (roundDouble 0.114) ((34 : Nat) : ℚ))) 255 = 4381101717506019 / 288230376151711744 :=
  luminance_steps 0 0 34
    0
    0
    (4363988038922011 / 1125899906842624)
    0
    (4363988038922011 / 1125899906842624)
    (4381101717506019 / 288230376151711744)
    (by rw [Nat.cast_zero, mul_zero, roundDouble_zero])
    (by rw [Nat.cast_zero, mul_zero, roundDouble_zero])
    (roundDouble_eq_of_pos _ _ 1 8727976077844022 (by norm_num) (by norm_num) (by norm_num)
      (by norm_num) (by norm_num) (by norm_num))
    (by rw [add_zero, roundDouble_zero])
    (roundDouble_eq_of_pos _ _ 1 8727976077844022 (by norm_num) (by norm_num) (by norm_num)
      (by norm_num) (by norm_num) (by norm_num))
    (roundDouble_eq_of_pos _ _ (-7) 8762203435012038 (by norm_num) (by norm_num) (by norm_num)
      (by norm_num) (by norm_num) (by norm_num))

/-- The rounding error of a number below `2 ^ (E + 1)` in magnitude is at most
`2 ^ (E - 53)`. -/
theorem roundDouble_sub_le_of_lt (x : ℚ) (E : Int) (hE : -1022 ≤ E)
    (hx : |x| < 2 ^ (E + 1)) : |roundDouble x - x| ≤ 2 ^ (E - 53) := by
  by_cases h0 : x = 0
  · rw [h0, roundDouble_zero, sub_zero, abs_zero]
    exact le_of_lt (two_zpow_pos _)
  · have hpos : 0 < |x| := abs_pos.mpr h0
    have hlog : Int.log 2 |x| < E + 1 :=
      (Int.lt_zpow_iff_log_lt (by norm_num : 1 < 2) hpos).mp (by simpa using hx)
    have hulp : ulpExponent x ≤ E - 52 := by
      unfold ulpExponent
      have : max (Int.log 2 |x|) (-1022) ≤ E := max_le (by omega) hE
      omega
    calc |roundDouble x - x| ≤ 2 ^ ulpExponent x / 2 := roundDouble_sub_le x
      _ ≤ 2 ^ (E - 52) / 2 := by
          apply div_le_div_of_nonneg_right (two_zpow_le hulp) (by norm_num)
      _ = 2 ^ (E - 53) := by
          have : (2 : ℚ) ^ (E - 52) = 2 ^ (E - 53) * 2 ^ (1 : Int) := by
            rw [← two_zpow_add]
            congr 1
            omega
          rw [this]
          norm_num

/-- The luminance expression does not decrease when a channel grows. -/
theorem luminance_mono (r g b r2 g2 b2 : ℚ) (hr : 0 ≤ r) (hg : 0 ≤ g) (hb : 0 ≤ b)
    (hr2 : r ≤ r2) (hg2 : g ≤ g2) (hb2 : b ≤ b2) :
    jsDiv (jsAdd (jsAdd (jsMul (roundDouble 0.299) r) (jsMul (roundDouble 0.587) g))
        (jsMul (roundDouble 0.114) b)) 255 ≤
      jsDiv (jsAdd (jsAdd (jsMul (roundDouble 0.299) r2) (jsMul (roundDouble 0.587) g2))
        (jsMul (roundDouble 0.114) b2)) 255 := by
  have hc1 : 0 ≤ roundDouble 0.299 := roundDouble_nonneg (by norm_num)
  have hc2 : 0 ≤ roundDouble 0.587 := roundDouble_nonneg (by norm_num)
  have hc3 : 0 ≤ roundDouble 0.114 := roundDouble_nonneg (by norm_num)
  unfold jsDiv jsAdd jsMul
  have p1 := roundDouble_mono (mul_nonneg hc1 hr) (mul_le_mul_of_nonneg_left hr2 hc1)
  have p2 := roundDouble_mono (mul_nonneg hc2 hg) (mul_le_mul_of_nonneg_left hg2 hc2)
  have p3 := roundDouble_mono (mul_nonneg hc3 hb) (mul_le_mul_of_nonneg_left hb2 hc3)
  have n1 := roundDouble_nonneg (mul_nonneg hc1 hr)
  have n2 := roundDouble_nonneg (mul_nonneg hc2 hg)
  have n3 := roundDouble_nonneg (mul_nonneg hc3 hb)
  have s1 := roundDouble_mono (add_nonneg n1 n2) (add_le_add p1 p2)
  have m1 := roundDouble_nonneg (add_nonneg n1 n2)
  have s2 := roundDouble_mono (add_nonneg m1 n3) (add_le_add s1 p3)
  have m2 := roundDouble_nonneg (add_nonneg m1 n3)
  exact roundDouble_mono (div_nonneg m2 (by norm_num))
    (div_le_div_of_nonneg_right s2 (by norm_num))

theorem luminance_nonneg (r g b : ℚ) (hr : 0 ≤ r) (hg : 0 ≤ g) (hb : 0 ≤ b) :
    0 ≤ jsDiv (jsAdd (jsAdd (jsMul (roundDouble 0.299) r) (jsMul (roundDouble 0.587) g))
        (jsMul (roundDouble 0.114) b)) 255 := by
  have hc1 : 0 ≤ roundDouble 0.299 := roundDouble_nonneg (by norm_num)
  have hc2 : 0 ≤ roundDouble 0.587 := roundDouble_nonneg (by norm_num)
  have hc3 : 0 ≤ roundDouble 0.114 := roundDouble_nonneg (by norm_num)
  unfold jsDiv jsAdd jsMul
  have n1 := roundDouble_nonneg (mul_nonneg hc1 hr)
  have n2 := roundDouble_nonneg (mul_nonneg hc2 hg)
  have n3 := roundDouble_nonneg (mul_nonneg hc3 hb)
  have m1 := roundDouble_nonneg (add_nonneg n1 n2)
  have m2 := roundDouble_nonneg (add_nonneg m1 n3)
  exact roundDouble_nonneg (div_nonneg m2 (by norm_num))

/-- The double that the luminance expression gives differs from the exact
value of the formula by at most `2 ^ (-50)`. -/
theorem luminance_sub_exact_le (r g b : ℚ) (hr : 0 ≤ r) (hg : 0 ≤ g) (hb : 0 ≤ b)
    (hr2 : r ≤ 255) (hg2 : g ≤ 255) (hb2 : b ≤ 255) :
    |jsDiv (jsAdd (jsAdd (jsMul (roundDouble 0.299) r) (jsMul (roundDouble 0.587) g))
        (jsMul (roundDouble 0.114) b)) 255 - (0.299 * r + 0.587 * g + 0.114 * b) / 255|
      ≤ 1 / 2 ^ 50 := by
  simp only [jsDiv, jsAdd, jsMul, roundDouble_299, roundDouble_587, roundDouble_114]
  have e1 := roundDouble_sub_le_of_lt (5386305154335113 / 18014398509481984 * r) 6
    (by norm_num) (by
      rw [abs_lt]
      constructor <;> norm_num <;> linarith)
  have e2 := roundDouble_sub_le_of_lt (2643612981266481 / 4503599627370496 * g) 7
    (by norm_num) (by
      rw [abs_lt]
      constructor <;> norm_num <;> linarith)
  have e3 := roundDouble_sub_le_of_lt (8214565720323785 / 72057594037927936 * b) 4
    (by norm_num) (by
      rw [abs_lt]
      constructor <;> norm_num <;> linarith)
  rw [abs_le] at e1 e2 e3
  norm_num at e1 e2 e3
  have n1 := roundDouble_nonneg (x := 5386305154335113 / 18014398509481984 * r)
    (mul_nonneg (by norm_num) hr)
  have n2 := roundDouble_nonneg (x := 2643612981266481 / 4503599627370496 * g)
    (mul_nonneg (by norm_num) hg)
  have n3 := roundDouble_nonneg (x := 8214565720323785 / 72057594037927936 * b)
    (mul_nonneg (by norm_num) hb)
  have e4 := roundDouble_sub_le_of_lt
    (roundDouble (5386305154335113 / 18014398509481984 * r) +
      roundDouble (2643612981266481 / 4503599627370496 * g)) 7 (by norm_num) (by
      rw [abs_lt]
      constructor <;> norm_num <;> linarith)
  rw [abs_le] at e4
  norm_num at e4
  have m1 := roundDouble_nonneg (add_nonneg n1 n2)
  have e5 := roundDouble_sub_le_of_lt
    (roundDouble (roundDouble (5386305154335113 / 18014398509481984 * r) +
      roundDouble (2643612981266481 / 4503599627370496 * g)) +
      roundDouble (8214565720323785 / 72057594037927936 * b)) 7 (by norm_num) (by
      rw [abs_lt]
      constructor <;> norm_num <;> linarith)
  rw [abs_le] at e5
  norm_num at e5
  have m2 := roundDouble_nonneg (add_nonneg m1 n3)
  have e6 := roundDouble_sub_le_of_lt
    (roundDouble (roundDouble (roundDouble (5386305154335113 / 18014398509481984 * r) +
      roundDouble (2643612981266481 / 4503599627370496 * g)) +
      roundDouble (8214565720323785 / 72057594037927936 * b)) / 255) 0 (by norm_num) (by
      rw [abs_lt]
      constructor <;> norm_num <;> linarith)
  rw [abs_le] at e6
  norm_num at e6
  rw [abs_le]
  constructor <;> norm_num <;> linarith

theorem getColorLightness_black : getColorLightness "#000000" = some 0 := by
  have h := getColorLightness_digits '0' '0' '0' '0' '0' '0' 0 0 0 0 0 0
    (by decide) (by decide) (by decide) (by decide) (by decide) (by decide) '#'
  rw [show ("#000000" : String) = String.mk ['#', '0', '0', '0', '0', '0', '0'] from rfl, h]
  exact congrArg some luminance_black

theorem getColorLightness_white : getColorLightness "#ffffff" = some 1 := by
  have h := getColorLightness_digits 'f' 'f' 'f' 'f' 'f' 'f' 15 15 15 15 15 15
    (by decide) (by decide) (by decide) (by decide) (by decide) (by decide) '#'
  rw [show ("#ffffff" : String) = String.mk ['#', 'f', 'f', 'f', 'f', 'f', 'f'] from rfl, h]
  exact congrArg some luminance_white

/-- The code's double for `#da3af8`, whose exact luminance is one half: it is
`0.5000000000000001`, one spacing above. -/
theorem getColorLightness_da3af8 :
    getColorLightness "#da3af8" = some (4503599627370497 / 9007199254740992) := by
  have h := getColorLightness_digits 'd' 'a' '3' 'a' 'f' '8' 13 10 3 10 15 8
    (by decide) (by decide) (by decide) (by decide) (by decide) (by decide) '#'
  rw [show ("#da3af8" : String) = String.mk ['#', 'd', 'a', '3', 'a', 'f', '8'] from rfl, h]
  exact congrArg some luminance_da3af8

theorem getColorLightness_01ade1 : getColorLightness "#01ade1" = some (1 / 2) := by
  have h := getColorLightness_digits '0' '1' 'a' 'd' 'e' '1' 0 1 10 13 14 1
    (by decide) (by decide) (by decide) (by decide) (by decide) (by decide) '#'
  rw [show ("#01ade1" : String) = String.mk ['#', '0', '1', 'a', 'd', 'e', '1'] from rfl, h]
  exact congrArg some luminance_01ade1

/-- The code's double for `#0b0100`: `0.015199999999999998`. -/
theorem getColorLightness_0b0100 :
    getColorLightness "#0b0100" = some (2190550858753009 / 144115188075855872) := by
  have h := getColorLightness_digits '0' 'b' '0' '1' '0' '0' 0 11 0 1 0 0
    (by decide) (by decide) (by decide) (by decide) (by decide) (by decide) '#'
  rw [show ("#0b0100" : String) = String.mk ['#', '0', 'b', '0', '1', '0', '0'] from rfl, h]
  exact congrArg some luminance_0b0100

/-- The code's double for `#000022`: `0.015200000000000002`. -/
theorem getColorLightness_000022 :
    getColorLightness "#000022" = some (4381101717506019 / 288230376151711744) := by
  have h := getColorLightness_digits '0' '0' '0' '0' '2' '2' 0 0 0 0 2 2
    (by decide) (by decide) (by decide) (by decide) (by decide) (by decide) '#'
  rw [show ("#000022" : String) = String.mk ['#', '0', '0', '0', '0', '2', '2'] from rfl, h]
  exact congrArg some luminance_000022

/-- Two colours of the same exact luminance 0.0152 whose doubles differ: the
sort moves the second before the first. -/
theorem sortPaletteByLightness_rounded_pair :
    sortPaletteByLightness ["#0b0100", "#000022"] = ["#000022", "#0b0100"] := by
  have hnot : ¬ keepsBefore "#0b0100" "#000022" := by
    rw [keepsBefore_iff _ _ _ _ getColorLightness_0b0100 getColorLightness_000022]
    norm_num
  simp [sortPaletteByLightness, List.insertionSort, List.orderedInsert, hnot]

/-! ## Claims on the palette ordering -/

/-- C11: for every palette of `#rrggbb` strings the output of
`sortPaletteByLightness` is a permutation of the input, and of any two
adjacent entries the first has a luminance at least that of the second, the
luminance being the double that `getColorLightness` returns. -/
theorem sortPaletteByLightness_perm_descending (palette : List String)
    (h : ∀ s ∈ palette, IsHexColor s) :
    (sortPaletteByLightness palette).Perm palette ∧
      ∀ (i : Nat) (a b : String), (sortPaletteByLightness palette)[i]? = some a →
        (sortPaletteByLightness palette)[i + 1]? = some b →
        ∃ x y, getColorLightness a = some x ∧ getColorLightness b = some y ∧ y ≤ x := by
  refine ⟨List.perm_insertionSort keepsBefore palette, ?_⟩
  intro i a b hia hib
  obtain ⟨hi, rfl⟩ := List.getElem?_eq_some.mp hia
  obtain ⟨hj, rfl⟩ := List.getElem?_eq_some.mp hib
  have hrel := List.pairwise_iff_getElem.mp (sortPaletteByLightness_sorted palette h)
    i (i + 1) hi hj (Nat.lt_succ_self i)
  have hmem : ∀ s ∈ sortPaletteByLightness palette, ∃ v, getColorLightness s = some v :=
    fun s hs => (h s ((List.mem_insertionSort keepsBefore).mp hs)).lightness
  obtain ⟨x, hx⟩ := hmem _ (List.getElem_mem hi)
  obtain ⟨y, hy⟩ := hmem _ (List.getElem_mem hj)
  exact ⟨x, y, hx, hy, (keepsBefore_iff _ _ x y hx hy).mp hrel⟩

theorem sortPaletteByLightness_perm_descending_witness :
    (sortPaletteByLightness ["#333333", "#f5f5f5", "#01ade1", "#04c26d"]).Perm
        ["#333333", "#f5f5f5", "#01ade1", "#04c26d"] ∧
      ∀ (i : Nat) (a b : String),
        (sortPaletteByLightness ["#333333", "#f5f5f5", "#01ade1", "#04c26d"])[i]? = some a →
        (sortPaletteByLightness ["#333333", "#f5f5f5", "#01ade1", "#04c26d"])[i + 1]?
          = some b →
        ∃ x y, getColorLightness a = some x ∧ getColorLightness b = some y ∧ y ≤ x :=
  sortPaletteByLightness_perm_descending ["#333333", "#f5f5f5", "#01ade1", "#04c26d"]
    (by decide)

/-- C12: `sortPaletteByLightness`, ordering by the doubles of
`getColorLightness`, is idempotent on palettes of `#rrggbb` strings: sorting
the sorted palette returns it unchanged. -/
theorem sortPaletteByLightness_idempotent (palette : List String)
    (h : ∀ s ∈ palette, IsHexColor s) :
    sortPaletteByLightness (sortPaletteByLightness palette) =
      sortPaletteByLightness palette :=
  (sortPaletteByLightness_sorted palette h).insertionSort_eq

theorem sortPaletteByLightness_idempotent_witness :
    sortPaletteByLightness (sortPaletteByLightness ["#333333", "#f5f5f5", "#01ade1"]) =
      sortPaletteByLightness ["#333333", "#f5f5f5", "#01ade1"] :=
  sortPaletteByLightness_idempotent ["#333333", "#f5f5f5", "#01ade1"] (by decide)

/-- C13: `sortPaletteByLightness` is stable on palettes of `#rrggbb` strings:
for every value `k`, the entries whose luminance, the double that
`getColorLightness` returns, is `k` stand in the output in the order they have
in the input. -/
theorem sortPaletteByLightness_stable (palette : List String)
    (_h : ∀ s ∈ palette, IsHexColor s) (k : ℚ) :
    (sortPaletteByLightness palette).filter (fun s => decide (getColorLightness s = some k)) =
      palette.filter (fun s => decide (getColorLightness s = some k)) := by
  have hsub : List.Sublist (palette.filter (fun s => decide (getColorLightness s = some k)))
      (sortPaletteByLightness palette) := by
    apply List.sublist_insertionSort _ (List.filter_sublist _)
    apply List.pairwise_of_forall_mem_list
    intro a ha b hb
    have ha' := (List.mem_filter.mp ha).2
    have hb' := (List.mem_filter.mp hb).2
    simp only [decide_eq_true_eq] at ha' hb'
    exact keepsBefore_of_eq a b (ha'.trans hb'.symm)
  have hsub2 := hsub.filter (fun s => decide (getColorLightness s = some k))
  rw [List.filter_filter] at hsub2
  simp only [Bool.and_self] at hsub2
  have hlen := ((List.perm_insertionSort keepsBefore palette).filter
    (fun s => decide (getColorLightness s = some k))).length_eq
  exact (hsub2.eq_of_length hlen.symm).symm

theorem sortPaletteByLightness_stable_witness :
    (sortPaletteByLightness ["#01ade1", "#333333", "#04c26d", "#f5f5f5"]).filter
        (fun s => decide (getColorLightness s = some (1 / 2))) =
      ["#01ade1", "#333333", "#04c26d", "#f5f5f5"].filter
        (fun s => decide (getColorLightness s = some (1 / 2))) :=
  sortPaletteByLightness_stable ["#01ade1", "#333333", "#04c26d", "#f5f5f5"] (by decide)
    (1 / 2)

/-- C14: for a string `#rrggbb` of hexadecimal digits with values `v1 .. v6`,
`getColorLightness` returns the value of `(0.299 * r + 0.587 * g + 0.114 * b) / 255`
in double arithmetic for the integers `r = 16 v1 + v2`, `g = 16 v3 + v4`,
`b = 16 v5 + v6`, each between 0 and 255; this double is within `2 ^ (-50)` of
the exact value of the formula, it lies between 0 and 1, and it is 0 for
`#000000` and 1 for `#ffffff`. -/
theorem getColorLightness_formula (d1 d2 d3 d4 d5 d6 : Char) (v1 v2 v3 v4 v5 v6 : Nat)
    (h1 : hexDigitValue d1 = some v1) (h2 : hexDigitValue d2 = some v2)
    (h3 : hexDigitValue d3 = some v3) (h4 : hexDigitValue d4 = some v4)
    (h5 : hexDigitValue d5 = some v5) (h6 : hexDigitValue d6 = some v6) :
    (16 * v1 + v2 ≤ 255 ∧ 16 * v3 + v4 ≤ 255 ∧ 16 * v5 + v6 ≤ 255) ∧
      (∃ v, getColorLightness (String.mk ['#', d1, d2, d3, d4, d5, d6]) = some v ∧
        v = jsDiv (jsAdd (jsAdd (jsMul (roundDouble 0.299) ((16 * v1 + v2 : Nat) : ℚ))
            (jsMul (roundDouble 0.587) ((16 * v3 + v4 : Nat) : ℚ)))
          (jsMul (roundDouble 0.114) ((16 * v5 + v6 : Nat) : ℚ))) 255 ∧
        |v - (0.299 * ((16 * v1 + v2 : Nat) : ℚ) + 0.587 * ((16 * v3 + v4 : Nat) : ℚ)
          + 0.114 * ((16 * v5 + v6 : Nat) : ℚ)) / 255| ≤ 1 / 2 ^ 50 ∧
        0 ≤ v ∧ v ≤ 1) ∧
      getColorLightness "#000000" = some 0 ∧ getColorLightness "#ffffff" = some 1 := by
  have b1 := hexDigitValue_le d1 v1 h1
  have b2 := hexDigitValue_le d2 v2 h2
  have b3 := hexDigitValue_le d3 v3 h3
  have b4 := hexDigitValue_le d4 v4 h4
  have b5 := hexDigitValue_le d5 v5 h5
  have b6 := hexDigitValue_le d6 v6 h6
  have hr : 16 * v1 + v2 ≤ 255 := by omega
  have hg : 16 * v3 + v4 ≤ 255 := by omega
  have hb : 16 * v5 + v6 ≤ 255 := by omega
  have hr' : ((16 * v1 + v2 : Nat) : ℚ) ≤ ((255 : Nat) : ℚ) := by exact_mod_cast hr
  have hg' : ((16 * v3 + v4 : Nat) : ℚ) ≤ ((255 : Nat) : ℚ) := by exact_mod_cast hg
  have hb' : ((16 * v5 + v6 : Nat) : ℚ) ≤ ((255 : Nat) : ℚ) := by exact_mod_cast hb
  have hr0 : (0 : ℚ) ≤ ((16 * v1 + v2 : Nat) : ℚ) := Nat.cast_nonneg _
  have hg0 : (0 : ℚ) ≤ ((16 * v3 + v4 : Nat) : ℚ) := Nat.cast_nonneg _
  have hb0 : (0 : ℚ) ≤ ((16 * v5 + v6 : Nat) : ℚ) := Nat.cast_nonneg _
  refine ⟨⟨hr, hg, hb⟩, ⟨_,
    getColorLightness_digits d1 d2 d3 d4 d5 d6 v1 v2 v3 v4 v5 v6 h1 h2 h3 h4 h5 h6 '#',
    rfl, ?_, ?_, ?_⟩, getColorLightness_black, getColorLightness_white⟩
  · exact luminance_sub_exact_le _ _ _ hr0 hg0 hb0 (by simpa using hr') (by simpa using hg')
      (by simpa using hb')
  · exact luminance_nonneg _ _ _ hr0 hg0 hb0
  · have h := luminance_mono _ _ _ _ _ _ hr0 hg0 hb0 hr' hg' hb'
    rw [luminance_white] at h
    exact h

theorem getColorLightness_formula_witness :
    (16 * 0 + 1 ≤ 255 ∧ 16 * 10 + 13 ≤ 255 ∧ 16 * 14 + 1 ≤ 255) ∧
      (∃ v, getColorLightness (String.mk ['#', '0', '1', 'a', 'D', 'e', '1']) = some v ∧
        v = jsDiv (jsAdd (jsAdd (jsMul (roundDouble 0.299) ((16 * 0 + 1 : Nat) : ℚ))
            (jsMul (roundDouble 0.587) ((16 * 10 + 13 : Nat) : ℚ)))
          (jsMul (roundDouble 0.114) ((16 * 14 + 1 : Nat) : ℚ))) 255 ∧
        |v - (0.299 * ((16 * 0 + 1 : Nat) : ℚ) + 0.587 * ((16 * 10 + 13 : Nat) : ℚ)
          + 0.114 * ((16 * 14 + 1 : Nat) : ℚ)) / 255| ≤ 1 / 2 ^ 50 ∧
        0 ≤ v ∧ v ≤ 1) ∧
      getColorLightness "#000000" = some 0 ∧ getColorLightness "#ffffff" = some 1 :=
  getColorLightness_formula '0' '1' 'a' 'D' 'e' '1' 0 1 10 13 14 1
    (by decide) (by decide) (by decide) (by decide) (by decide) (by decide)

/-- C15: `getContrastColor` returns `#000000` exactly when the luminance
`getColorLightness(hex)`, a double, is greater than 0.5, and `#ffffff` in
every other case; `#01ade1`, whose double is exactly 0.5, gives `#ffffff`, and
`#da3af8`, whose double is `0.5000000000000001`, gives `#000000`. -/
theorem getContrastColor_threshold (hex : String) :
    (getContrastColor hex = "#000000" ↔
        ∃ v, getColorLightness hex = some v ∧ v > 0.5) ∧
      (getContrastColor hex = "#ffffff" ↔
        ¬ ∃ v, getColorLightness hex = some v ∧ v > 0.5) ∧
      (getColorLightness "#01ade1" = some 0.5 ∧ getContrastColor "#01ade1" = "#ffffff") ∧
      (getColorLightness "#da3af8" = some (4503599627370497 / 9007199254740992) ∧
        getContrastColor "#da3af8" = "#000000") := by
  have hne : ("#ffffff" : String) ≠ "#000000" := by decide
  have hiff : getContrastColor hex = "#000000" ↔
      ∃ v, getColorLightness hex = some v ∧ v > 0.5 := by
    unfold getContrastColor getColorLightness
    split
    · rename_i r g b _ _ _
      by_cases hl : jsDiv (jsAdd (jsAdd (jsMul (roundDouble 0.299) (r : ℚ))
          (jsMul (roundDouble 0.587) (g : ℚ))) (jsMul (roundDouble 0.114) (b : ℚ))) 255 > 0.5
      · simp only [if_pos hl, true_iff]
        exact ⟨_, rfl, hl⟩
      · simp only [if_neg hl, hne, false_iff]
        rintro ⟨v, hv, hgt⟩
        simp only [Option.some.injEq] at hv
        exact hl (hv ▸ hgt)
    · simp only [hne, false_iff]
      rintro ⟨v, hv, _⟩
      simp at hv
  have hvals : getContrastColor hex = "#000000" ∨ getContrastColor hex = "#ffffff" := by
    unfold getContrastColor
    split
    · dsimp only
      split_ifs
      · exact Or.inl rfl
      · exact Or.inr rfl
    · exact Or.inr rfl
  refine ⟨hiff, ?_, ⟨?_, ?_⟩, ⟨getColorLightness_da3af8, ?_⟩⟩
  · rw [← hiff]
    constructor
    · intro h hb
      rw [h] at hb
      exact hne hb
    · intro h
      exact hvals.resolve_left h
  · rw [getColorLightness_01ade1]
    norm_num
  · have h := getContrastColor_digits '0' '1' 'a' 'd' 'e' '1' 0 1 10 13 14 1
      (by decide) (by decide) (by decide) (by decide) (by decide) (by decide) '#'
    rw [show ("#01ade1" : String) = String.mk ['#', '0', '1', 'a', 'd', 'e', '1'] from rfl, h]
    have hv : jsDiv (jsAdd (jsAdd (jsMul (roundDouble 0.299) ((16 * 0 + 1 : Nat) : ℚ))
          (jsMul (roundDouble 0.587) ((16 * 10 + 13 : Nat) : ℚ)))
        (jsMul (roundDouble 0.114) ((16 * 14 + 1 : Nat) : ℚ))) 255 = 1 / 2 := luminance_01ade1
    rw [hv]
    norm_num
  · have h := getContrastColor_digits 'd' 'a' '3' 'a' 'f' '8' 13 10 3 10 15 8
      (by decide) (by decide) (by decide) (by decide) (by decide) (by decide) '#'
    rw [show ("#da3af8" : String) = String.mk ['#', 'd', 'a', '3', 'a', 'f', '8'] from rfl, h]
    have hv : jsDiv (jsAdd (jsAdd (jsMul (roundDouble 0.299) ((16 * 13 + 10 : Nat) : ℚ))
          (jsMul (roundDouble 0.587) ((16 * 3 + 10 : Nat) : ℚ)))
        (jsMul (roundDouble 0.114) ((16 * 15 + 8 : Nat) : ℚ))) 255 =
        4503599627370497 / 9007199254740992 := luminance_da3af8
    rw [hv]
    norm_num

/-! ## Lemmas on the track list sizing -/

/-- Beyond ten tracks, in the bucket `10 + 5 j < n ≤ 15 + 5 j` the number of
groups of five is `j + 1`. -/
theorem calculateTrackListFontSize_bucket (n j : Nat) (hlo : 10 + 5 * j < n)
    (hhi : n ≤ 15 + 5 * j) :
    calculateTrackListFontSize n =
      { value := max (1 - ((j + 1 : Nat) : ℚ) * 0.05) 0.3, unit := "em" } := by
  have hn : ¬ n ≤ 10 := by omega
  have hceil : ⌈((n : ℚ) - 10) / 5⌉ = ((j + 1 : Nat) : Int) := by
    rw [Int.ceil_eq_iff]
    have h1 : ((10 + 5 * j : Nat) : ℚ) < (n : ℚ) := by exact_mod_cast hlo
    have h2 : (n : ℚ) ≤ ((15 + 5 * j : Nat) : ℚ) := by exact_mod_cast hhi
    push_cast at h1 h2 ⊢
    constructor
    · rw [lt_div_iff₀ (by norm_num)]
      linarith
    · rw [div_le_iff₀ (by norm_num)]
      linarith
  simp only [calculateTrackListFontSize, if_neg hn, hceil]
  norm_cast

theorem shrinkLoop_tried (fits : ℚ → Bool) :
    ∀ (left iterations : Nat) (cur : ℚ) (tried : List ℚ),
      ∃ extra, (shrinkLoop fits left iterations cur tried).tried = tried ++ extra ∧
        (∀ s ∈ extra, s ≤ cur) ∧ (∀ s, extra.head? = some s → s = cur) := by
  intro left
  induction left with
  | zero =>
    intro iterations cur tried
    exact ⟨[], by simp [shrinkLoop], by simp, by simp⟩
  | succ left ih =>
    intro iterations cur tried
    by_cases h6 : cur ≥ 6
    · by_cases hfit : fits cur = true
      · refine ⟨[cur], by simp [shrinkLoop, h6, hfit], ?_, ?_⟩
        · intro s hs
          simp only [List.mem_singleton] at hs
          exact hs ▸ le_refl _
        · intro s hs
          simp only [List.head?_cons, Option.some.injEq] at hs
          exact hs.symm
      · obtain ⟨extra, h1, h2, _⟩ := ih (iterations + 1) (cur - 0.5) (tried ++ [cur])
        have hf : fits cur = false := by simpa using hfit
        refine ⟨cur :: extra, ?_, ?_, ?_⟩
        · simp only [shrinkLoop, if_pos h6, hf, Bool.false_eq_true, if_false]
          rw [h1]
          simp
        · intro s hs
          rcases List.mem_cons.mp hs with rfl | hs
          · exact le_refl _
          · have := h2 s hs
            have hstep : cur - 0.5 ≤ cur := by norm_num
            exact le_trans this hstep
        · intro s hs
          simp only [List.head?_cons, Option.some.injEq] at hs
          exact hs.symm
    · exact ⟨[], by simp [shrinkLoop, h6], by simp, by simp⟩

/-! ## Claims on the track list sizing and the canvas size -/

/-- C16: `calculateTrackListFontSize n` is 1 (em) for `n ≤ 10` and
`max (1 - 0.05 * g, 0.3)` for `n > 10`, where `g = ceil ((n - 10) / 5)` is the
same `j + 1` on the whole bucket `10 + 5 j < n ≤ 15 + 5 j`; it is 1 at 10,
0.95 at 15, 0.75 at 35 and 0.3 at 200. -/
theorem calculateTrackListFontSize_formula :
    (∀ n : Nat, n ≤ 10 → calculateTrackListFontSize n = ⟨1, "em"⟩) ∧
      (∀ n : Nat, 10 < n → calculateTrackListFontSize n =
        ⟨max (1 - 0.05 * ((⌈((n : ℚ) - 10) / 5⌉ : Int) : ℚ)) 0.3, "em"⟩) ∧
      (∀ n j : Nat, 10 + 5 * j < n → n ≤ 15 + 5 * j →
        ⌈((n : ℚ) - 10) / 5⌉ = ((j + 1 : Nat) : Int) ∧
        calculateTrackListFontSize n = ⟨max (1 - 0.05 * ((j + 1 : Nat) : ℚ)) 0.3, "em"⟩) ∧
      calculateTrackListFontSize 10 = ⟨1, "em"⟩ ∧
      calculateTrackListFontSize 15 = ⟨0.95, "em"⟩ ∧
      calculateTrackListFontSize 35 = ⟨0.75, "em"⟩ ∧
      calculateTrackListFontSize 200 = ⟨0.3, "em"⟩ := by
  refine ⟨?_, ?_, ?_, ?_, ?_, ?_, ?_⟩
  · intro n hn
    simp only [calculateTrackListFontSize, if_pos hn]
  · intro n hn
    have hn' : ¬ n ≤ 10 := by omega
    simp only [calculateTrackListFontSize, if_neg hn']
    rw [mul_comm]
  · intro n j hlo hhi
    have hf := calculateTrackListFontSize_bucket n j hlo hhi
    refine ⟨?_, by rw [hf, mul_comm]⟩
    rw [Int.ceil_eq_iff]
    have h1 : ((10 + 5 * j : Nat) : ℚ) < (n : ℚ) := by exact_mod_cast hlo
    have h2 : (n : ℚ) ≤ ((15 + 5 * j : Nat) : ℚ) := by exact_mod_cast hhi
    push_cast at h1 h2 ⊢
    constructor
    · rw [lt_div_iff₀ (by norm_num)]
      linarith
    · rw [div_le_iff₀ (by norm_num)]
      linarith
  · simp [calculateTrackListFontSize]
  · rw [calculateTrackListFontSize_bucket 15 0 (by decide) (by decide)]
    norm_num
  · rw [calculateTrackListFontSize_bucket 35 4 (by decide) (by decide)]
    norm_num
  · rw [calculateTrackListFontSize_bucket 200 37 (by decide) (by decide)]
    norm_num

/-- C17: for `n ≥ 1` tracks and scale `s`, `updateTrackListScale` with its
built-in descriptors sets `clamp(min, s * preferred, s * max)` for the
descriptor of the tier of `n` (1-5, 6-10, 11-15, 16-20, 21+): the `rem`
minimum is not scaled, the two `cqw` components are multiplied by `s`. -/
theorem updateTrackListScale_scales_width_relative (n : Nat) (s : ℚ) (hn : 1 ≤ n) :
    (n ≤ 5 → updateTrackListScale n s =
        some { min := ⟨1.12, "rem"⟩, preferred := ⟨7 * s, "cqw"⟩,
               max := ⟨15.75 * s, "cqw"⟩ }) ∧
      (6 ≤ n → n ≤ 10 → updateTrackListScale n s =
        some { min := ⟨0.672, "rem"⟩, preferred := ⟨4.2 * s, "cqw"⟩,
               max := ⟨9.45 * s, "cqw"⟩ }) ∧
      (11 ≤ n → n ≤ 15 → updateTrackListScale n s =
        some { min := ⟨0.42, "rem"⟩, preferred := ⟨2.625 * s, "cqw"⟩,
               max := ⟨5.90625 * s, "cqw"⟩ }) ∧
      (16 ≤ n → n ≤ 20 → updateTrackListScale n s =
        some { min := ⟨0.297, "rem"⟩, preferred := ⟨1.855 * s, "cqw"⟩,
               max := ⟨4.17375 * s, "cqw"⟩ }) ∧
      (21 ≤ n → updateTrackListScale n s =
        some { min := ⟨0.297, "rem"⟩, preferred := ⟨1.855 * s, "cqw"⟩,
               max := ⟨4.17375 * s, "cqw"⟩ }) := by
  have h0 : n ≠ 0 := by omega
  refine ⟨?_, ?_, ?_, ?_, ?_⟩
  · intro h
    simp only [updateTrackListScale, scaleCqw, if_true, if_neg h0, baseFontSize, if_pos h]
  · intro h1 h2
    have a : ¬ n ≤ 5 := by omega
    simp only [updateTrackListScale, scaleCqw, if_true, if_neg h0, baseFontSize, if_neg a, if_pos h2]
  · intro h1 h2
    have a : ¬ n ≤ 5 := by omega
    have b : ¬ n ≤ 10 := by omega
    simp only [updateTrackListScale, scaleCqw, if_true, if_neg h0, baseFontSize, if_neg a, if_neg b, if_pos h2]
  · intro h1 h2
    have a : ¬ n ≤ 5 := by omega
    have b : ¬ n ≤ 10 := by omega
    have c : ¬ n ≤ 15 := by omega
    simp only [updateTrackListScale, scaleCqw, if_true, if_neg h0, baseFontSize, if_neg a, if_neg b, if_neg c,
      if_pos h2]
  · intro h1
    have a : ¬ n ≤ 5 := by omega
    have b : ¬ n ≤ 10 := by omega
    have c : ¬ n ≤ 15 := by omega
    have d : ¬ n ≤ 20 := by omega
    simp only [updateTrackListScale, scaleCqw, if_true, if_neg h0, baseFontSize, if_neg a, if_neg b, if_neg c,
      if_neg d]

theorem updateTrackListScale_scales_width_relative_witness :
    1 ≤ 23 ∧ updateTrackListScale 23 1.5 =
      some { min := ⟨0.297, "rem"⟩, preferred := ⟨2.7825, "cqw"⟩,
             max := ⟨6.260625, "cqw"⟩ } := by
  refine ⟨by decide, ?_⟩
  rw [(updateTrackListScale_scales_width_relative 23 1.5 (by decide)).2.2.2.2 (by decide)]
  norm_num

/-- C18 (as stated, refuted): the built-in descriptors of the tiers 16-20 and
21+ are the same, so from 16-20 to 21+ neither the preferred nor the max
component gets smaller. -/
theorem baseFontSize_last_tiers_equal :
    baseFontSize 21 = baseFontSize 20 ∧
      ¬ ((baseFontSize 21).preferred.value < (baseFontSize 20).preferred.value) ∧
      ¬ ((baseFontSize 21).max.value < (baseFontSize 20).max.value) := by
  have h : baseFontSize 21 = baseFontSize 20 := by
    simp [baseFontSize]
  refine ⟨h, ?_, ?_⟩ <;> rw [h] <;> exact lt_irrefl _

/-- C18 (amended): across the built-in descriptors the preferred and max
`cqw` components are strictly smaller from tier 1-5 to 6-10, from 6-10 to
11-15 and from 11-15 to 16-20; the tier 21+ has the descriptor of 16-20. -/
theorem baseFontSize_tiers_decrease (a b c d e : Nat) (ha : a ≤ 5)
    (hb : 6 ≤ b ∧ b ≤ 10) (hc : 11 ≤ c ∧ c ≤ 15) (hd : 16 ≤ d ∧ d ≤ 20) (he : 21 ≤ e) :
    ((baseFontSize b).preferred.value < (baseFontSize a).preferred.value ∧
        (baseFontSize b).max.value < (baseFontSize a).max.value) ∧
      ((baseFontSize c).preferred.value < (baseFontSize b).preferred.value ∧
        (baseFontSize c).max.value < (baseFontSize b).max.value) ∧
      ((baseFontSize d).preferred.value < (baseFontSize c).preferred.value ∧
        (baseFontSize d).max.value < (baseFontSize c).max.value) ∧
      baseFontSize e = baseFontSize d := by
  have fa : baseFontSize a =
      { min := ⟨1.12, "rem"⟩, preferred := ⟨7, "cqw"⟩, max := ⟨15.75, "cqw"⟩ } := by
    simp only [baseFontSize, if_pos ha]
  have fb : baseFontSize b =
      { min := ⟨0.672, "rem"⟩, preferred := ⟨4.2, "cqw"⟩, max := ⟨9.45, "cqw"⟩ } := by
    simp only [baseFontSize, if_neg (show ¬ b ≤ 5 by omega), if_pos hb.2]
  have fc : baseFontSize c =
      { min := ⟨0.42, "rem"⟩, preferred := ⟨2.625, "cqw"⟩, max := ⟨5.90625, "cqw"⟩ } := by
    simp only [baseFontSize, if_neg (show ¬ c ≤ 5 by omega), if_neg (show ¬ c ≤ 10 by omega),
      if_pos hc.2]
  have fd : baseFontSize d =
      { min := ⟨0.297, "rem"⟩, preferred := ⟨1.855, "cqw"⟩, max := ⟨4.17375, "cqw"⟩ } := by
    simp only [baseFontSize, if_neg (show ¬ d ≤ 5 by omega), if_neg (show ¬ d ≤ 10 by omega),
      if_neg (show ¬ d ≤ 15 by omega), if_pos hd.2]
  have fe : baseFontSize e =
      { min := ⟨0.297, "rem"⟩, preferred := ⟨1.855, "cqw"⟩, max := ⟨4.17375, "cqw"⟩ } := by
    simp only [baseFontSize, if_neg (show ¬ e ≤ 5 by omega), if_neg (show ¬ e ≤ 10 by omega),
      if_neg (show ¬ e ≤ 15 by omega), if_neg (show ¬ e ≤ 20 by omega)]
  rw [fa, fb, fc, fd, fe]
  norm_num

theorem baseFontSize_tiers_decrease_witness :
    ((baseFontSize 8).preferred.value < (baseFontSize 3).preferred.value ∧
        (baseFontSize 8).max.value < (baseFontSize 3).max.value) ∧
      ((baseFontSize 13).preferred.value < (baseFontSize 8).preferred.value ∧
        (baseFontSize 13).max.value < (baseFontSize 8).max.value) ∧
      ((baseFontSize 18).preferred.value < (baseFontSize 13).preferred.value ∧
        (baseFontSize 18).max.value < (baseFontSize 13).max.value) ∧
      baseFontSize 23 = baseFontSize 18 :=
  baseFontSize_tiers_decrease 3 8 13 18 23 (by decide) (by decide) (by decide) (by decide)
    (by decide)

/-- C19: for `n ≥ 1` tracks, every container font size `F` and every overflow
test, every size the shrink loop of `adjustTracksListFontSize` sets is at most
`min (baseEm n * F, 18)`, the first one it sets is that value itself, and the
size it settles on is at least 6. -/
theorem adjustTracksListFontSize_bounds (n : Nat) (F : ℚ) (fits : ℚ → Bool) (hn : 1 ≤ n) :
    ∃ run, adjustTracksListFontSize n F fits = some run ∧
      (∀ s ∈ run.tried, s ≤ min ((calculateTrackListFontSize n).value * F) 18) ∧
      (∀ s, run.tried.head? = some s → s = min ((calculateTrackListFontSize n).value * F) 18) ∧
      6 ≤ run.currentFontSize := by
  have h0 : n ≠ 0 := by omega
  obtain ⟨extra, h1, h2, h3⟩ := shrinkLoop_tried fits 100 0 (maxFontSize n F) []
  simp only [List.nil_append] at h1
  by_cases hlt : (shrinkLoop fits 100 0 (maxFontSize n F) []).currentFontSize < 6
  · refine ⟨{ shrinkLoop fits 100 0 (maxFontSize n F) [] with currentFontSize := 6 },
      by simp only [adjustTracksListFontSize, if_neg h0, if_pos hlt], ?_, ?_, le_refl _⟩
    · intro s hs
      exact h2 s (h1 ▸ hs)
    · intro s hs
      exact h3 s (h1 ▸ hs)
  · refine ⟨shrinkLoop fits 100 0 (maxFontSize n F) [],
      by simp only [adjustTracksListFontSize, if_neg h0, if_neg hlt], ?_, ?_, not_lt.mp hlt⟩
    · intro s hs
      exact h2 s (h1 ▸ hs)
    · intro s hs
      exact h3 s (h1 ▸ hs)

theorem adjustTracksListFontSize_bounds_witness :
    ∃ run, adjustTracksListFontSize 12 16 (fun s => decide (s ≤ 10)) = some run ∧
      (∀ s ∈ run.tried, s ≤ min ((calculateTrackListFontSize 12).value * 16) 18) ∧
      (∀ s, run.tried.head? = some s → s = min ((calculateTrackListFontSize 12).value * 16) 18) ∧
      6 ≤ run.currentFontSize :=
  adjustTracksListFontSize_bounds 12 16 (fun s => decide (s ≤ 10)) (by decide)

/-- C20: for an image of width `w > 0` and height `h > 0` the scaled size
`(w', h')` has both sides at most 200, keeps the aspect ratio
(`w' * h = w * h'`), is `(w, h)` itself when both sides are at most 200, and
has its longer side equal to 200 when one side exceeds 200. -/
theorem downsampleSize_spec (w h : Nat) (hw : 0 < w) (hh : 0 < h) :
    max (downsampleSize w h).1 (downsampleSize w h).2 ≤ 200 ∧
      (downsampleSize w h).1 * (h : ℚ) = (w : ℚ) * (downsampleSize w h).2 ∧
      (max w h ≤ 200 → downsampleSize w h = ((w : ℚ), (h : ℚ))) ∧
      (200 < max w h →
        max (downsampleSize w h).1 (downsampleSize w h).2 = 200 ∧
        (h < w → (downsampleSize w h).1 = 200) ∧
        (w ≤ h → (downsampleSize w h).2 = 200)) := by
  have hwq : (0 : ℚ) < (w : ℚ) := by exact_mod_cast hw
  have hhq : (0 : ℚ) < (h : ℚ) := by exact_mod_cast hh
  by_cases hgt : w > h
  · have hle : (h : ℚ) / (w : ℚ) * 200 ≤ 200 := by
      have hq : (h : ℚ) ≤ (w : ℚ) := by exact_mod_cast le_of_lt hgt
      have : (h : ℚ) / (w : ℚ) ≤ 1 := (div_le_one hwq).mpr hq
      linarith
    by_cases hbig : w > 200
    · have e : downsampleSize w h = (200, (h : ℚ) / (w : ℚ) * 200) := by
        simp only [downsampleSize, if_pos hgt, if_pos hbig]
      rw [e]
      refine ⟨max_le (le_refl _) hle, ?_, ?_, ?_⟩
      · show (200 : ℚ) * (h : ℚ) = (w : ℚ) * ((h : ℚ) / (w : ℚ) * 200)
        field_simp
        ring
      · intro hmax
        have := le_max_left w h
        omega
      · intro _
        exact ⟨max_eq_left hle, fun _ => rfl, fun hcon => by omega⟩
    · have e : downsampleSize w h = ((w : ℚ), (h : ℚ)) := by
        simp only [downsampleSize, if_pos hgt, if_neg hbig]
      rw [e]
      have hw200 : (w : ℚ) ≤ 200 := by exact_mod_cast not_lt.mp hbig
      have hh200 : (h : ℚ) ≤ 200 := by
        have : h ≤ 200 := by omega
        exact_mod_cast this
      refine ⟨max_le hw200 hh200, rfl, fun _ => rfl, ?_⟩
      intro hmax
      have : max w h = w := max_eq_left (le_of_lt hgt)
      omega
  · have hwh : w ≤ h := not_lt.mp hgt
    have hle : (w : ℚ) / (h : ℚ) * 200 ≤ 200 := by
      have hq : (w : ℚ) ≤ (h : ℚ) := by exact_mod_cast hwh
      have : (w : ℚ) / (h : ℚ) ≤ 1 := (div_le_one hhq).mpr hq
      linarith
    by_cases hbig : h > 200
    · have e : downsampleSize w h = ((w : ℚ) / (h : ℚ) * 200, 200) := by
        simp only [downsampleSize, if_neg hgt, if_pos hbig]
      rw [e]
      refine ⟨max_le hle (le_refl _), ?_, ?_, ?_⟩
      · show (w : ℚ) / (h : ℚ) * 200 * (h : ℚ) = (w : ℚ) * 200
        field_simp
      · intro hmax
        have := le_max_right w h
        omega
      · intro _
        exact ⟨max_eq_right hle, fun hcon => by omega, fun _ => rfl⟩
    · have e : downsampleSize w h = ((w : ℚ), (h : ℚ)) := by
        simp only [downsampleSize, if_neg hgt, if_neg hbig]
      rw [e]
      have hh200 : (h : ℚ) ≤ 200 := by exact_mod_cast not_lt.mp hbig
      have hw200 : (w : ℚ) ≤ 200 := by
        have : w ≤ 200 := by omega
        exact_mod_cast this
      refine ⟨max_le hw200 hh200, rfl, fun _ => rfl, ?_⟩
      intro hmax
      have : max w h = h := max_eq_right hwh
      omega

theorem downsampleSize_spec_witness :
    max (downsampleSize 300 100).1 (downsampleSize 300 100).2 ≤ 200 ∧
      (downsampleSize 300 100).1 * ((100 : Nat) : ℚ) =
        ((300 : Nat) : ℚ) * (downsampleSize 300 100).2 ∧
      (max 300 100 ≤ 200 → downsampleSize 300 100 = (((300 : Nat) : ℚ), ((100 : Nat) : ℚ))) ∧
      (200 < max 300 100 →
        max (downsampleSize 300 100).1 (downsampleSize 300 100).2 = 200 ∧
        (100 < 300 → (downsampleSize 300 100).1 = 200) ∧
        (300 ≤ 100 → (downsampleSize 300 100).2 = 200)) :=
  downsampleSize_spec 300 100 (by decide) (by decide)

/-! ## Lemmas on the gallery copy, the brackets and the measurement order -/

theorem galleryHalveLoop_eq (width : Int → Int) (W min : Int) :
    ∀ (fuel : Nat) (max : Int),
      galleryHalveLoop width W min fuel max = halveLoop width W min fuel max := by
  intro fuel
  induction fuel with
  | zero => intro max; rfl
  | succ f ih => intro max; simp only [galleryHalveLoop, halveLoop, ih]

theorem galleryExpandLoop_eq (width : Int → Int) (W : Int) :
    ∀ (fuel : Nat) (t mn opt : Int),
      galleryExpandLoop width W fuel t mn opt = expandLoop width W fuel t mn opt := by
  intro fuel
  induction fuel with
  | zero => intro t mn opt; rfl
  | succ f ih => intro t mn opt; simp only [galleryExpandLoop, expandLoop, ih]

theorem galleryBinarySearch_eq (width : Int → Int) (W : Int) :
    ∀ (fuel : Nat) (mn mx opt : Int),
      galleryBinarySearch width W fuel mn mx opt = binarySearch width W fuel mn mx opt := by
  intro fuel
  induction fuel with
  | zero => intro mn mx opt; rfl
  | succ f ih => intro mn mx opt; simp only [galleryBinarySearch, binarySearch, ih]

/-- The result of the binary search is the `optimalSize` it started with or a
size strictly inside the bracket. -/
theorem binarySearch_range (width : Int → Int) (T : Int) :
    ∀ (fuel : Nat) (lo hi opt S : Int), binarySearch width T fuel lo hi opt = some S →
      S = opt ∨ (lo < S ∧ S < hi) := by
  intro fuel
  induction fuel with
  | zero =>
    intro lo hi opt S h
    simp only [binarySearch] at h
    split at h
    · simp at h
    · simp only [Option.some.injEq] at h
      exact Or.inl h.symm
  | succ f ih =>
    intro lo hi opt S h
    simp only [binarySearch] at h
    split at h
    · rename_i hgap
      split at h
      · rcases ih _ _ _ _ h with h1 | h1
        · right; omega
        · right; omega
      · rcases ih _ _ _ _ h with h1 | h1
        · exact Or.inl h1
        · right; omega
    · simp only [Option.some.injEq] at h
      exact Or.inl h.symm

/-- The result of the binary search is the `optimalSize` it started with or a
size that was measured to fit. -/
theorem binarySearch_opt_or_fits (width : Int → Int) (T : Int) :
    ∀ (fuel : Nat) (lo hi opt S : Int), binarySearch width T fuel lo hi opt = some S →
      S = opt ∨ width S ≤ T := by
  intro fuel
  induction fuel with
  | zero =>
    intro lo hi opt S h
    simp only [binarySearch] at h
    split at h
    · simp at h
    · simp only [Option.some.injEq] at h
      exact Or.inl h.symm
  | succ f ih =>
    intro lo hi opt S h
    simp only [binarySearch] at h
    split at h
    · split at h
      · rename_i hfit
        rcases ih _ _ _ _ h with h1 | h1
        · right; rw [h1]; exact hfit
        · exact Or.inr h1
      · exact ih _ _ _ _ h
    · simp only [Option.some.injEq] at h
      exact Or.inl h.symm

theorem expandLoop_opt_or_fits (width : Int → Int) (W : Int) :
    ∀ (fuel : Nat) (t mn opt : Int) (r : Int × Int),
      expandLoop width W fuel t mn opt = some r → r.2 = opt ∨ width r.2 ≤ W := by
  intro fuel
  induction fuel with
  | zero =>
    intro t mn opt r h
    simp only [expandLoop] at h
    split at h
    · simp at h
    · simp only [Option.some.injEq] at h
      exact Or.inl (h ▸ rfl)
  | succ f ih =>
    intro t mn opt r h
    simp only [expandLoop] at h
    split at h
    · split at h
      · rename_i hfit
        rcases ih _ _ _ _ h with h1 | h1
        · right; rw [h1]; exact hfit
        · exact Or.inr h1
      · simp only [Option.some.injEq] at h
        exact Or.inl (h ▸ rfl)
    · simp only [Option.some.injEq] at h
      exact Or.inl (h ▸ rfl)

/-- Whatever the measurement, `fitTextToLine` ends on the minimum it was given
or on a size that was measured to fit. -/
theorem fitTextToLineSize_min_or_fits (width : Int → Int) (W min : Int) (fuel : Nat)
    (S : Int) (h : fitTextToLineSize width W min fuel = some S) : S = min ∨ width S ≤ W := by
  simp only [fitTextToLineSize] at h
  cases hh : halveLoop width W min fuel (W * 10) with
  | none => simp [hh] at h
  | some m =>
    simp only [hh] at h
    split at h
    · rename_i hfit
      cases he : expandLoop width W fuel (m * 2) m m with
      | none => simp [he] at h
      | some r =>
        obtain ⟨mn, op⟩ := r
        simp only [he] at h
        have hop : width op ≤ W := by
          rcases expandLoop_opt_or_fits width W fuel (m * 2) m m (mn, op) he with h1 | h1
          · have h1' : op = m := h1
            rw [h1']; exact hfit
          · exact h1
        rcases binarySearch_opt_or_fits width W fuel _ _ _ S h with h2 | h2
        · right; rw [h2]; exact hop
        · exact Or.inr h2
    · exact binarySearch_opt_or_fits width W fuel _ _ _ S h

/-- The binary search run for `fuel` rounds is `fuel` rounds of `binaryStep`:
it has ended when the bracket reached is closed. -/
theorem binarySearch_eq_iterate (width : Int → Int) (T : Int) :
    ∀ (fuel : Nat) (mn mx opt : Int),
      binarySearch width T fuel mn mx opt =
        if ((binaryStep width T)^[fuel] (mn, mx, opt)).2.1 -
            ((binaryStep width T)^[fuel] (mn, mx, opt)).1 > 1 then none
        else some ((binaryStep width T)^[fuel] (mn, mx, opt)).2.2 := by
  intro fuel
  induction fuel with
  | zero => intro mn mx opt; simp only [binarySearch, Function.iterate_zero, id_eq]
  | succ f ih =>
    intro mn mx opt
    rw [Function.iterate_succ_apply]
    by_cases hgap : mx - mn > 1
    · by_cases hfit : width ((mn + mx) / 2) ≤ T
      · have hs : binaryStep width T (mn, mx, opt) = ((mn + mx) / 2, mx, (mn + mx) / 2) := by
          simp only [binaryStep, if_pos hgap, if_pos hfit]
        rw [hs, ← ih]
        simp only [binarySearch, if_pos hgap, if_pos hfit]
      · have hs : binaryStep width T (mn, mx, opt) = (mn, (mn + mx) / 2, opt) := by
          simp only [binaryStep, if_pos hgap, if_neg hfit]
        rw [hs, ← ih]
        simp only [binarySearch, if_pos hgap, if_neg hfit]
    · have hs : binaryStep width T (mn, mx, opt) = (mn, mx, opt) := by
        simp only [binaryStep, if_neg hgap]
      rw [hs, ← ih]
      rw [binarySearch_skip width T f mn mx opt hgap]
      simp only [binarySearch, if_neg hgap]

/-- Every round keeps the bracket: the lower bound fits, the upper bound does
not, and `optimalSize` is the lower bound. -/
theorem binaryStep_invariant (width : Int → Int) (T : Int) (s : Int × Int × Int)
    (h : width s.1 ≤ T ∧ T < width s.2.1 ∧ s.2.2 = s.1) :
    width (binaryStep width T s).1 ≤ T ∧ T < width (binaryStep width T s).2.1 ∧
      (binaryStep width T s).2.2 = (binaryStep width T s).1 := by
  unfold binaryStep
  by_cases hgap : s.2.1 - s.1 > 1
  · by_cases hfit : width ((s.1 + s.2.1) / 2) ≤ T
    · simp only [if_pos hgap, if_pos hfit]
      exact ⟨hfit, h.2.1, trivial⟩
    · simp only [if_pos hgap, if_neg hfit]
      exact ⟨h.1, not_le.mp hfit, h.2.2⟩
  · simp only [if_neg hgap]
    exact h

theorem binaryStep_iterate_invariant (width : Int → Int) (T : Int) :
    ∀ (t : Nat) (s : Int × Int × Int), (width s.1 ≤ T ∧ T < width s.2.1 ∧ s.2.2 = s.1) →
      width ((binaryStep width T)^[t] s).1 ≤ T ∧ T < width ((binaryStep width T)^[t] s).2.1 ∧
        ((binaryStep width T)^[t] s).2.2 = ((binaryStep width T)^[t] s).1 := by
  intro t
  induction t with
  | zero => intro s h; exact h
  | succ t ih =>
    intro s h
    rw [Function.iterate_succ_apply]
    exact ih _ (binaryStep_invariant width T s h)

theorem setSpanFontSize_of_nonneg (span v : Int) (h : 0 ≤ v) : setSpanFontSize span v = v := by
  simp only [setSpanFontSize, if_pos h]

theorem probes_snoc (probes : List Probe) (v : Int)
    (hp : ∀ p ∈ probes, p.spanFontSize = p.candidate) :
    ∀ p ∈ probes ++ [(⟨v, v⟩ : Probe)], p.spanFontSize = p.candidate := by
  intro p hmem
  rcases List.mem_append.mp hmem with h1 | h1
  · exact hp p h1
  · simp only [List.mem_singleton] at h1
    rw [h1]

/-- The traced binary search, from a non-negative lower bound: every read is
made with the span at the size judged, and the outcome is that of
`binarySearch`. -/
theorem tracedBinarySearch_spec (width : Int → Int) (T : Int) :
    ∀ (fuel : Nat) (span mn mx opt : Int) (probes : List Probe), 0 ≤ mn →
      (∀ p ∈ probes, p.spanFontSize = p.candidate) →
      (∀ p ∈ (tracedBinarySearch width T fuel span mn mx opt probes).probes,
        p.spanFontSize = p.candidate) ∧
      (tracedBinarySearch width T fuel span mn mx opt probes).outcome =
        binarySearch width T fuel mn mx opt := by
  intro fuel
  induction fuel with
  | zero =>
    intro span mn mx opt probes _ hp
    by_cases hgap : mx - mn > 1
    · simp only [tracedBinarySearch, binarySearch, if_pos hgap]
      exact ⟨hp, trivial⟩
    · simp only [tracedBinarySearch, binarySearch, if_neg hgap]
      exact ⟨hp, trivial⟩
  | succ f ih =>
    intro span mn mx opt probes hmn hp
    simp only [tracedBinarySearch, binarySearch]
    by_cases hgap : mx - mn > 1
    · have hmid : 0 ≤ (mn + mx) / 2 := by omega
      have hset := setSpanFontSize_of_nonneg span ((mn + mx) / 2) hmid
      have hp1 := probes_snoc probes ((mn + mx) / 2) hp
      simp only [if_pos hgap, hset]
      split
      · exact ih _ _ _ _ _ hmid hp1
      · exact ih _ _ _ _ _ hmn hp1
    · simp only [if_neg hgap]
      exact ⟨hp, trivial⟩

/-- The traced halving loop, entered with the span at `max ≥ 0`. -/
theorem tracedHalveLoop_spec (width : Int → Int) (W min : Int) :
    ∀ (fuel : Nat) (mx : Int) (probes : List Probe), 0 ≤ mx →
      (∀ p ∈ probes, p.spanFontSize = p.candidate) →
      (∀ p ∈ (tracedHalveLoop width W min fuel mx mx probes).probes,
        p.spanFontSize = p.candidate) ∧
      (tracedHalveLoop width W min fuel mx mx probes).outcome =
        halveLoop width W min fuel mx ∧
      ∀ m, (tracedHalveLoop width W min fuel mx mx probes).outcome = some m →
        (tracedHalveLoop width W min fuel mx mx probes).span = m ∧ 0 ≤ m := by
  intro fuel
  induction fuel with
  | zero =>
    intro mx probes hmx hp
    have hp1 := probes_snoc probes mx hp
    simp only [tracedHalveLoop, halveLoop]
    split
    · exact ⟨hp1, rfl, fun m hm => by simp at hm⟩
    · refine ⟨hp1, rfl, fun m hm => ?_⟩
      simp only [Option.some.injEq] at hm
      exact ⟨hm, hm ▸ hmx⟩
  | succ f ih =>
    intro mx probes hmx hp
    have hp1 := probes_snoc probes mx hp
    simp only [tracedHalveLoop, halveLoop]
    split
    · have hhalf : 0 ≤ mx / 2 := by omega
      rw [setSpanFontSize_of_nonneg mx (mx / 2) hhalf]
      exact ih _ _ hhalf hp1
    · refine ⟨hp1, rfl, fun m hm => ?_⟩
      simp only [Option.some.injEq] at hm
      exact ⟨hm, hm ▸ hmx⟩

/-- The traced expansion loop, from a non-negative `testSize` and `min`. -/
theorem tracedExpandLoop_spec (width : Int → Int) (W : Int) :
    ∀ (fuel : Nat) (span t mn opt : Int) (probes : List Probe), 0 ≤ t → 0 ≤ mn →
      (∀ p ∈ probes, p.spanFontSize = p.candidate) →
      (∀ p ∈ (tracedExpandLoop width W fuel span t mn opt probes).probes,
        p.spanFontSize = p.candidate) ∧
      (tracedExpandLoop width W fuel span t mn opt probes).outcome =
        expandLoop width W fuel t mn opt ∧
      ∀ r, (tracedExpandLoop width W fuel span t mn opt probes).outcome = some r →
        0 ≤ r.1 := by
  intro fuel
  induction fuel with
  | zero =>
    intro span t mn opt probes _ hmn hp
    simp only [tracedExpandLoop, expandLoop]
    split
    · exact ⟨hp, rfl, fun r hr => by simp at hr⟩
    · refine ⟨hp, rfl, fun r hr => ?_⟩
      simp only [Option.some.injEq] at hr
      exact hr ▸ hmn
  | succ f ih =>
    intro span t mn opt probes ht hmn hp
    have hset := setSpanFontSize_of_nonneg span t ht
    have hp1 := probes_snoc probes t hp
    simp only [tracedExpandLoop, expandLoop, hset]
    split
    · split
      · exact ih _ _ _ _ _ (by omega) ht hp1
      · refine ⟨hp1, rfl, fun r hr => ?_⟩
        simp only [Option.some.injEq] at hr
        exact hr ▸ hmn
    · refine ⟨hp, rfl, fun r hr => ?_⟩
      simp only [Option.some.injEq] at hr
      exact hr ▸ hmn

/-- The traced search of `fitTextToLine`, for a non-negative minimum and
container width. -/
theorem tracedFitTextToLineSize_spec (width : Int → Int) (span0 W min : Int) (fuel : Nat)
    (hmin : 0 ≤ min) (hW : 0 ≤ W) :
    (∀ p ∈ (tracedFitTextToLineSize width span0 W min fuel).probes,
      p.spanFontSize = p.candidate) ∧
    (tracedFitTextToLineSize width span0 W min fuel).outcome =
      fitTextToLineSize width W min fuel := by
  have hmx : 0 ≤ W * 10 := by omega
  obtain ⟨h1, h2, h3⟩ := tracedHalveLoop_spec width W min fuel (W * 10) [] hmx
    (fun p hp => by simp at hp)
  simp only [tracedFitTextToLineSize, fitTextToLineSize,
    setSpanFontSize_of_nonneg span0 (W * 10) hmx]
  rw [← h2]
  cases ho : (tracedHalveLoop width W min fuel (W * 10) (W * 10) []).outcome with
  | none => exact ⟨h1, rfl⟩
  | some m =>
    obtain ⟨hspan, hm0⟩ := h3 m ho
    have hp1 := probes_snoc (tracedHalveLoop width W min fuel (W * 10) (W * 10) []).probes m h1
    simp only [hspan]
    split
    · obtain ⟨e1, e2, e3⟩ := tracedExpandLoop_spec width W fuel m (m * 2) m m _
        (by omega) hm0 hp1
      rw [← e2]
      cases he : (tracedExpandLoop width W fuel m (m * 2) m m
          ((tracedHalveLoop width W min fuel (W * 10) (W * 10) []).probes ++
            [(⟨m, m⟩ : Probe)])).outcome with
      | none => exact ⟨e1, rfl⟩
      | some r =>
        obtain ⟨mn, op⟩ := r
        exact tracedBinarySearch_spec width W fuel _ mn (op * 2) op _ (e3 (mn, op) he) e1
    · exact tracedBinarySearch_spec width W fuel _ min m min _ hmin hp1

theorem galleryFitTextToLineSize_eq (width : Int → Int) (W min : Int) (fuel : Nat) :
    galleryFitTextToLineSize width W min fuel = fitTextToLineSize width W min fuel := by
  simp only [galleryFitTextToLineSize, fitTextToLineSize, galleryHalveLoop_eq,
    galleryExpandLoop_eq, galleryBinarySearch_eq]

theorem fitTextToContainer_returned (el : Element) (W min : Int) (fuel : Nat) (hW : W ≠ 0) :
    (fitTextToContainer (some el) W min fuel).map FitOutcome.returned =
      (binarySearch el.textWidth W fuel min (W * 2) min).map some := by
  simp only [fitTextToContainer, if_neg hW, fitTextToContainerSize]
  cases binarySearch el.textWidth W fuel min (W * 2) min <;> rfl

theorem fitTextToLine_returned (el : Element) (min : Int) (fuel : Nat) :
    (fitTextToLine (some el) min fuel).map FitOutcome.returned =
      (fitTextToLineSize el.textWidth (el.parentClientWidth : Int) min fuel).map some := by
  simp only [fitTextToLine]
  cases fitTextToLineSize el.textWidth (el.parentClientWidth : Int) min fuel <;> rfl

/-- A negative minimum makes `fitTextToContainer` measure at a stale size: the
candidate -5 is not a valid font size, so the span is still at its inherited
16 px when the width is read. -/
theorem tracedFitTextToContainerSize_negative_minimum :
    (tracedFitTextToContainerSize (fun s => 3 * s) 16 5 (-20) 1).probes =
      [(⟨16, -5⟩ : Probe)] := by
  decide

/-! ## Further claims on the text fitting -/

/-- C21: the copy of `fitTextToLine` in gallery.js computes what the one in
script.js computes: for every element, minimum and number of rounds allowed
both give the same outcome, so both return the same size and one ends exactly
when the other does. -/
theorem galleryFitTextToLine_eq (element : Option Element) (minFontSize : Int) :
    (∀ fuel, galleryFitTextToLine element minFontSize fuel =
        fitTextToLine element minFontSize fuel) ∧
      ((∃ fuel, galleryFitTextToLine element minFontSize fuel ≠ none) ↔
        (∃ fuel, fitTextToLine element minFontSize fuel ≠ none)) := by
  have h : ∀ fuel, galleryFitTextToLine element minFontSize fuel =
      fitTextToLine element minFontSize fuel := by
    intro fuel
    cases element with
    | none => rfl
    | some el => simp only [galleryFitTextToLine, fitTextToLine, galleryFitTextToLineSize_eq]
  refine ⟨h, ?_⟩
  constructor
  · rintro ⟨fuel, hf⟩
    exact ⟨fuel, h fuel ▸ hf⟩
  · rintro ⟨fuel, hf⟩
    exact ⟨fuel, (h fuel).symm ▸ hf⟩

/-- C23: for a monotone measurement, a minimum `minFontSize ≥ 0` that fits and
an upper bound `2 W` that does not, `fitTextToContainer` returns the largest
`S` of `[minFontSize, 2 W)` that fits, the one size with
`width S ≤ W < width (S + 1)`; after any number of rounds the lower bound of
the bracket fits, the upper bound does not, and `optimalSize` is the lower
bound. -/
theorem fitTextToContainer_largest_fit (el : Element) (W minFontSize : Int)
    (hmono : Monotone el.textWidth) (hmin : 0 ≤ minFontSize)
    (hfitmin : el.textWidth minFontSize ≤ W) (hmax : W < el.textWidth (2 * W)) :
    minFontSize < 2 * W ∧
    (∃ S, (∃ N, ∀ fuel, N ≤ fuel → fitTextToContainer (some el) W minFontSize fuel =
          some { returned := some S, element := some { el with styleFontSize := some S } }) ∧
        minFontSize ≤ S ∧ S < 2 * W ∧ el.textWidth S ≤ W ∧ W < el.textWidth (S + 1) ∧
        (∀ S2, minFontSize ≤ S2 → S2 < 2 * W → el.textWidth S2 ≤ W → S2 ≤ S) ∧
        (∀ S2, el.textWidth S2 ≤ W → W < el.textWidth (S2 + 1) → S2 = S)) ∧
    (∀ t : Nat,
      el.textWidth ((binaryStep el.textWidth W)^[t] (minFontSize, W * 2, minFontSize)).1 ≤ W ∧
      W < el.textWidth
        ((binaryStep el.textWidth W)^[t] (minFontSize, W * 2, minFontSize)).2.1 ∧
      ((binaryStep el.textWidth W)^[t] (minFontSize, W * 2, minFontSize)).2.2 =
        ((binaryStep el.textWidth W)^[t] (minFontSize, W * 2, minFontSize)).1) := by
  have hmax2 : W < el.textWidth (W * 2) := by rw [mul_comm]; exact hmax
  have hlt : minFontSize < 2 * W := by
    by_contra hcon
    have := hmono (not_lt.mp hcon)
    omega
  have hW0 : W ≠ 0 := by omega
  obtain ⟨S, h1, h2, h3, h4, hrun⟩ :=
    binarySearch_spec el.textWidth W (W * 2 - minFontSize).toNat minFontSize (W * 2)
      (le_refl _) (by omega) hfitmin hmax2
  refine ⟨hlt, ⟨S, ⟨(W * 2 - minFontSize).toNat, ?_⟩, h1, by omega, h3, h4, ?_, ?_⟩, ?_⟩
  · intro fuel hf
    simp only [fitTextToContainer, if_neg hW0, fitTextToContainerSize, hrun fuel hf]
  · intro S2 _ _ hfit2
    by_contra hcon
    have hle : S + 1 ≤ S2 := by omega
    have := hmono hle
    omega
  · intro S2 hfit2 hnext2
    rcases lt_trichotomy S2 S with hlt2 | heq | hgt2
    · have hle : S2 + 1 ≤ S := by omega
      have := hmono hle
      omega
    · exact heq
    · have hle : S + 1 ≤ S2 := by omega
      have := hmono hle
      omega
  · intro t
    exact binaryStep_iterate_invariant el.textWidth W t (minFontSize, W * 2, minFontSize)
      ⟨hfitmin, hmax2, rfl⟩

theorem fitTextToContainer_largest_fit_witness :
    (12 : Int) < 2 * 300 ∧
    (∃ S, (∃ N, ∀ fuel, N ≤ fuel →
          fitTextToContainer
              (some { textWidth := fun s => 3 * s, parentClientWidth := 300,
                      styleFontSize := none }) 300 12 fuel =
            some { returned := some S,
                   element := some { textWidth := fun s => 3 * s, parentClientWidth := 300,
                                     styleFontSize := some S } }) ∧
        12 ≤ S ∧ S < 2 * 300 ∧ (fun s : Int => 3 * s) S ≤ 300 ∧
        300 < (fun s : Int => 3 * s) (S + 1) ∧
        (∀ S2, 12 ≤ S2 → S2 < 2 * 300 → (fun s : Int => 3 * s) S2 ≤ 300 → S2 ≤ S) ∧
        (∀ S2, (fun s : Int => 3 * s) S2 ≤ 300 → 300 < (fun s : Int => 3 * s) (S2 + 1) →
          S2 = S)) ∧
    (∀ t : Nat,
      (fun s : Int => 3 * s) ((binaryStep (fun s => 3 * s) 300)^[t] (12, 300 * 2, 12)).1
        ≤ 300 ∧
      300 < (fun s : Int => 3 * s)
        ((binaryStep (fun s => 3 * s) 300)^[t] (12, 300 * 2, 12)).2.1 ∧
      ((binaryStep (fun s => 3 * s) 300)^[t] (12, 300 * 2, 12)).2.2 =
        ((binaryStep (fun s => 3 * s) 300)^[t] (12, 300 * 2, 12)).1) :=
  fitTextToContainer_largest_fit
    { textWidth := fun s => 3 * s, parentClientWidth := 300, styleFontSize := none } 300 12
    (by intro a b hab; show 3 * a ≤ 3 * b; omega) (by decide) (by decide) (by decide)

/-- C24: for every measurement, every minimum and every `maxWidth = W > 0`,
`fitTextToContainer` ends and the size `S` it returns satisfies
`minFontSize ≤ S ≤ max (minFontSize, 2 W - 1)`; when `2 W ≤ minFontSize + 1`
it returns the minimum without reading any width. -/
theorem fitTextToContainer_bounds (el : Element) (W minFontSize : Int) (hW : 0 < W) :
    (∃ S N, ∀ fuel, N ≤ fuel →
        (fitTextToContainer (some el) W minFontSize fuel).map FitOutcome.returned =
          some (some S)) ∧
      (∀ fuel S,
        (fitTextToContainer (some el) W minFontSize fuel).map FitOutcome.returned =
          some (some S) →
        minFontSize ≤ S ∧ S ≤ max minFontSize (2 * W - 1)) ∧
      (2 * W ≤ minFontSize + 1 → ∀ fuel span0,
        (fitTextToContainer (some el) W minFontSize fuel).map FitOutcome.returned =
          some (some minFontSize) ∧
        (tracedFitTextToContainerSize el.textWidth span0 W minFontSize fuel).probes = []) := by
  have hW0 : W ≠ 0 := by omega
  refine ⟨?_, ?_, ?_⟩
  · obtain ⟨S, hS⟩ := binarySearch_terminates el.textWidth W (W * 2 - minFontSize).toNat
      minFontSize (W * 2) minFontSize (le_refl _)
    refine ⟨S, (W * 2 - minFontSize).toNat, ?_⟩
    intro fuel hf
    rw [fitTextToContainer_returned el W minFontSize fuel hW0, hS fuel hf]
    rfl
  · intro fuel S h
    rw [fitTextToContainer_returned el W minFontSize fuel hW0] at h
    cases hb : binarySearch el.textWidth W fuel minFontSize (W * 2) minFontSize with
    | none => simp [hb] at h
    | some S2 =>
      simp only [hb, Option.map_some', Option.some.injEq] at h
      subst h
      rcases binarySearch_range el.textWidth W fuel _ _ _ S2 hb with h1 | h1
      · subst h1
        exact ⟨le_refl _, le_max_left _ _⟩
      · refine ⟨by omega, le_trans ?_ (le_max_right _ _)⟩
        omega
  · intro hsmall fuel span0
    have hgap : ¬ W * 2 - minFontSize > 1 := by omega
    refine ⟨?_, ?_⟩
    · rw [fitTextToContainer_returned el W minFontSize fuel hW0,
        binarySearch_skip el.textWidth W fuel minFontSize (W * 2) minFontSize hgap]
      rfl
    · cases fuel <;> simp only [tracedFitTextToContainerSize, tracedBinarySearch, if_neg hgap]

theorem fitTextToContainer_bounds_witness :
    (∃ S N, ∀ fuel, N ≤ fuel →
        (fitTextToContainer
            (some { textWidth := fun s => 300 - s, parentClientWidth := 40,
                    styleFontSize := none }) 40 12 fuel).map FitOutcome.returned =
          some (some S)) ∧
      (∀ fuel S,
        (fitTextToContainer
            (some { textWidth := fun s => 300 - s, parentClientWidth := 40,
                    styleFontSize := none }) 40 12 fuel).map FitOutcome.returned =
          some (some S) →
        12 ≤ S ∧ S ≤ max 12 (2 * 40 - 1)) ∧
      (2 * 40 ≤ (12 : Int) + 1 → ∀ fuel span0,
        (fitTextToContainer
            (some { textWidth := fun s => 300 - s, parentClientWidth := 40,
                    styleFontSize := none }) 40 12 fuel).map FitOutcome.returned =
          some (some 12) ∧
        (tracedFitTextToContainerSize (fun s => 300 - s) span0 40 12 fuel).probes = []) :=
  fitTextToContainer_bounds
    { textWidth := fun s => 300 - s, parentClientWidth := 40, styleFontSize := none } 40 12
    (by decide)

/-- C25: for a monotone measurement whose width at the first probe `10 W`
exceeds the container width `W > 0`, every size that `fitTextToLine` returns
is at most `max (minFontSize, 10 W - 1)`, and for `minFontSize ≥ 0` it does
return one. -/
theorem fitTextToLine_exploration_bound (el : Element) (minFontSize : Int)
    (hmono : Monotone el.textWidth) (_hW : 0 < el.parentClientWidth)
    (hprobe : (el.parentClientWidth : Int) < el.textWidth (10 * (el.parentClientWidth : Int))) :
    (∀ fuel S,
        (fitTextToLine (some el) minFontSize fuel).map FitOutcome.returned = some (some S) →
        S ≤ max minFontSize (10 * (el.parentClientWidth : Int) - 1)) ∧
      (0 ≤ minFontSize → ∃ S N, ∀ fuel, N ≤ fuel →
        (fitTextToLine (some el) minFontSize fuel).map FitOutcome.returned =
          some (some S)) := by
  refine ⟨?_, ?_⟩
  · intro fuel S h
    rw [fitTextToLine_returned] at h
    cases hb : fitTextToLineSize el.textWidth (el.parentClientWidth : Int) minFontSize fuel with
    | none => simp [hb] at h
    | some S2 =>
      simp only [hb, Option.map_some', Option.some.injEq] at h
      subst h
      rcases fitTextToLineSize_min_or_fits _ _ _ _ S2 hb with h1 | h1
      · rw [h1]
        exact le_max_left _ _
      · refine le_trans ?_ (le_max_right _ _)
        by_contra hcon
        have hle : 10 * (el.parentClientWidth : Int) ≤ S2 := by omega
        have := hmono hle
        omega
  · intro hmin
    obtain ⟨S, N, hN⟩ := fitTextToLineSize_terminates el.textWidth
      (el.parentClientWidth : Int) minFontSize hmono hmin (by omega)
      (10 * (el.parentClientWidth : Int)) hprobe
    refine ⟨S, N, ?_⟩
    intro fuel hf
    rw [fitTextToLine_returned, hN fuel hf]
    rfl

theorem fitTextToLine_exploration_bound_witness :
    ((∀ fuel S,
        (fitTextToLine
            (some { textWidth := fun s => 3 * s, parentClientWidth := 300,
                    styleFontSize := none }) 20 fuel).map FitOutcome.returned =
          some (some S) →
        S ≤ max 20 (10 * ((300 : Nat) : Int) - 1)) ∧
      ((0 : Int) ≤ 20 → ∃ S N, ∀ fuel, N ≤ fuel →
        (fitTextToLine
            (some { textWidth := fun s => 3 * s, parentClientWidth := 300,
                    styleFontSize := none }) 20 fuel).map FitOutcome.returned =
          some (some S))) ∧
    (fitTextToLine
        (some { textWidth := fun s => 3 * s, parentClientWidth := 300,
                styleFontSize := none }) 20 20).map FitOutcome.returned = some (some 100) ∧
    (100 : Int) < 3000 :=
  ⟨fitTextToLine_exploration_bound
      { textWidth := fun s => 3 * s, parentClientWidth := 300, styleFontSize := none } 20
      (by intro a b hab; show 3 * a ≤ 3 * b; omega) (by decide) (by decide),
    by decide, by decide⟩

/-- C29: for a minimum `minFontSize ≥ 0`, in `fitTextToLine` and in
`fitTextToContainer` every width that a comparison uses is read with the span
at exactly the size the comparison judges (the current `max`, the `testSize`,
the `mid`), after any number of rounds; the sizes computed are those of the
model that measures each candidate directly. -/
theorem measurement_follows_font_size_write (el : Element) (span0 maxWidth minFontSize : Int)
    (fuel : Nat) (hmin : 0 ≤ minFontSize) :
    ((∀ p ∈ (tracedFitTextToLineSize el.textWidth span0 (el.parentClientWidth : Int)
          minFontSize fuel).probes, p.spanFontSize = p.candidate) ∧
      (tracedFitTextToLineSize el.textWidth span0 (el.parentClientWidth : Int)
          minFontSize fuel).outcome =
        fitTextToLineSize el.textWidth (el.parentClientWidth : Int) minFontSize fuel) ∧
    ((∀ p ∈ (tracedFitTextToContainerSize el.textWidth span0 maxWidth minFontSize
          fuel).probes, p.spanFontSize = p.candidate) ∧
      (tracedFitTextToContainerSize el.textWidth span0 maxWidth minFontSize fuel).outcome =
        fitTextToContainerSize el.textWidth maxWidth minFontSize fuel) :=
  ⟨tracedFitTextToLineSize_spec el.textWidth span0 (el.parentClientWidth : Int) minFontSize
      fuel hmin (Int.ofNat_nonneg _),
    tracedBinarySearch_spec el.textWidth maxWidth fuel span0 minFontSize (maxWidth * 2)
      minFontSize [] hmin (fun p hp => by simp at hp)⟩

theorem measurement_follows_font_size_write_witness :
    ((∀ p ∈ (tracedFitTextToLineSize (fun s => 18 * s) 16 ((300 : Nat) : Int) 20 20).probes,
        p.spanFontSize = p.candidate) ∧
      (tracedFitTextToLineSize (fun s => 18 * s) 16 ((300 : Nat) : Int) 20 20).outcome =
        fitTextToLineSize (fun s => 18 * s) ((300 : Nat) : Int) 20 20) ∧
    ((∀ p ∈ (tracedFitTextToContainerSize (fun s => 18 * s) 16 300 20 20).probes,
        p.spanFontSize = p.candidate) ∧
      (tracedFitTextToContainerSize (fun s => 18 * s) 16 300 20 20).outcome =
        fitTextToContainerSize (fun s => 18 * s) 300 20 20) :=
  measurement_follows_font_size_write
    { textWidth := fun s => 18 * s, parentClientWidth := 300, styleFontSize := none } 16 300
    20 20 (by decide)

/-! ## Lemmas on the shrink loop and the sample list -/

/-- When the candidate `cur - i / 2` is the first that fits and is at least 6,
and the loop has more than `i` rounds left, the loop stops on it. -/
theorem shrinkLoop_first_fit (fits : ℚ → Bool) :
    ∀ (i left iterations : Nat) (cur : ℚ) (tried : List ℚ), i < left →
      6 ≤ cur - (i : ℚ) / 2 → fits (cur - (i : ℚ) / 2) = true →
      (∀ j : Nat, j < i → fits (cur - (j : ℚ) / 2) = false) →
      (shrinkLoop fits left iterations cur tried).currentFontSize = cur - (i : ℚ) / 2 := by
  intro i
  induction i with
  | zero =>
    intro left iterations cur tried hleft h6 hfit _
    obtain ⟨l, rfl⟩ : ∃ l, left = l + 1 := ⟨left - 1, by omega⟩
    simp only [Nat.cast_zero, zero_div, sub_zero] at h6 hfit ⊢
    simp only [shrinkLoop, ge_iff_le, if_pos h6, hfit, if_true]
  | succ i ih =>
    intro left iterations cur tried hleft h6 hfit hnone
    obtain ⟨l, rfl⟩ : ∃ l, left = l + 1 := ⟨left - 1, by omega⟩
    have hcur : cur ≥ 6 := by
      have : (0 : ℚ) ≤ ((i + 1 : Nat) : ℚ) / 2 := by positivity
      linarith
    have h0 : fits cur = false := by
      have := hnone 0 (Nat.succ_pos i)
      simpa using this
    have e : cur - 0.5 - (i : ℚ) / 2 = cur - ((i + 1 : Nat) : ℚ) / 2 := by
      push_cast
      ring
    simp only [shrinkLoop, if_pos hcur, h0, Bool.false_eq_true, if_false]
    rw [ih l (iterations + 1) (cur - 0.5) _ (by omega) (e ▸ h6) (e ▸ hfit) ?_, e]
    intro j hj
    have ej : cur - 0.5 - (j : ℚ) / 2 = cur - ((j + 1 : Nat) : ℚ) / 2 := by
      push_cast
      ring
    rw [ej]
    exact hnone (j + 1) (by omega)

/-- When no candidate of at least 6 fits and the rounds left reach below 6,
the loop ends below 6. -/
theorem shrinkLoop_no_fit (fits : ℚ → Bool) :
    ∀ (left iterations : Nat) (cur : ℚ) (tried : List ℚ),
      (∀ i : Nat, 6 ≤ cur - (i : ℚ) / 2 → fits (cur - (i : ℚ) / 2) = false) →
      cur - (left : ℚ) / 2 < 6 →
      (shrinkLoop fits left iterations cur tried).currentFontSize < 6 := by
  intro left
  induction left with
  | zero =>
    intro iterations cur tried _ hlow
    simp only [Nat.cast_zero, zero_div, sub_zero] at hlow
    simpa only [shrinkLoop] using hlow
  | succ l ih =>
    intro iterations cur tried hnone hlow
    by_cases hcur : cur ≥ 6
    · have h0 : fits cur = false := by
        have := hnone 0 (by simpa using hcur)
        simpa using this
      simp only [shrinkLoop, if_pos hcur, h0, Bool.false_eq_true, if_false]
      apply ih
      · intro i h6
        have ei : cur - 0.5 - (i : ℚ) / 2 = cur - ((i + 1 : Nat) : ℚ) / 2 := by
          push_cast
          ring
        rw [ei] at h6 ⊢
        exact hnone (i + 1) h6
      · have el : cur - 0.5 - (l : ℚ) / 2 = cur - ((l + 1 : Nat) : ℚ) / 2 := by
          push_cast
          ring
        rw [el]
        exact hlow
    · simp only [shrinkLoop, if_neg hcur]
      exact not_le.mp hcur

/-- From a size below `6 + b / 2` with at least `b` rounds left, the loop runs
its body at most `b` times and stops because a size fits or the size is below
6, not because the rounds are used up. -/
theorem shrinkLoop_count (fits : ℚ → Bool) :
    ∀ (b left iterations : Nat) (cur : ℚ) (tried : List ℚ), b ≤ left →
      cur < 6 + (b : ℚ) / 2 →
      (shrinkLoop fits left iterations cur tried).tried.length ≤ tried.length + b ∧
      (shrinkLoop fits left iterations cur tried).iterations ≤ iterations + b ∧
      ((shrinkLoop fits left iterations cur tried).currentFontSize < 6 ∨
        fits (shrinkLoop fits left iterations cur tried).currentFontSize = true) := by
  intro b
  induction b with
  | zero =>
    intro left iterations cur tried _ hcur
    simp only [Nat.cast_zero, zero_div, add_zero] at hcur
    have h6 : ¬ cur ≥ 6 := not_le.mpr hcur
    cases left with
    | zero => exact ⟨by simp [shrinkLoop], by simp [shrinkLoop], Or.inl (by simpa [shrinkLoop] using hcur)⟩
    | succ l =>
      simp only [shrinkLoop, if_neg h6]
      exact ⟨by omega, by omega, Or.inl hcur⟩
  | succ b ih =>
    intro left iterations cur tried hleft hcur
    obtain ⟨l, rfl⟩ : ∃ l, left = l + 1 := ⟨left - 1, by omega⟩
    by_cases h6 : cur ≥ 6
    · by_cases hfit : fits cur = true
      · simp only [shrinkLoop, if_pos h6, hfit, if_true, List.length_append,
          List.length_singleton]
        exact ⟨by omega, by omega, Or.inr trivial⟩
      · have hf : fits cur = false := by simpa using hfit
        simp only [shrinkLoop, if_pos h6, hf, Bool.false_eq_true, if_false]
        have hlow : cur - 0.5 < 6 + (b : ℚ) / 2 := by
          push_cast at hcur
          linarith
        obtain ⟨h1, h2, h3⟩ := ih l (iterations + 1) (cur - 0.5) (tried ++ [cur])
          (by omega) hlow
        simp only [List.length_append, List.length_singleton] at h1
        exact ⟨by omega, by omega, h3⟩
    · simp only [shrinkLoop, if_neg h6]
      exact ⟨by omega, by omega, Or.inl (not_le.mp h6)⟩

/-- Below the floor the loop does not run its body. -/
theorem shrinkLoop_below_floor (fits : ℚ → Bool) (left iterations : Nat) (cur : ℚ)
    (tried : List ℚ) (h : cur < 6) :
    shrinkLoop fits left iterations cur tried =
      { tried := tried, iterations := iterations, currentFontSize := cur } := by
  cases left with
  | zero => rfl
  | succ l => simp only [shrinkLoop, ge_iff_le, if_neg (not_le.mpr h)]

theorem maxFontSize_le (n : Nat) (F : ℚ) : maxFontSize n F ≤ 18 := by
  unfold maxFontSize
  exact min_le_right _ _

/-- The sampling loop from byte `40 a` on adds the samples of the visited
pixels `a, a + 1, ...` in that order. -/
theorem sampleLoop_eq_filterMap (pixels : List Nat) :
    ∀ (k a : Nat) (acc : List Color), (pixels.length + 39) / 40 - a = k →
      a ≤ (pixels.length + 39) / 40 →
      sampleLoop pixels (40 * a) acc =
        acc ++ (List.range' a k).filterMap fun p =>
          if 128 ≤ pixels.getD (4 * (10 * p) + 3) 0 then
            some { r := pixels.getD (4 * (10 * p)) 0, g := pixels.getD (4 * (10 * p) + 1) 0,
                   b := pixels.getD (4 * (10 * p) + 2) 0 }
          else none := by
  intro k
  induction k with
  | zero =>
    intro a acc hk ha
    rw [sampleLoop_unfold, if_neg (by omega)]
    simp
  | succ k ih =>
    intro a acc hk ha
    have hlt : 40 * a < pixels.length := by omega
    have e4 : 4 * (10 * a) = 40 * a := by omega
    rw [sampleLoop_unfold, if_pos hlt]
    have hnext : 40 * a + 40 = 40 * (a + 1) := by omega
    rw [hnext]
    simp only [List.range'_succ, List.filterMap_cons, e4]
    by_cases halpha : pixels.getD (40 * a + 3) 0 < 128
    · rw [if_pos halpha, ih (a + 1) acc (by omega) (by omega)]
      simp only [if_neg (not_le.mpr halpha)]
    · rw [if_neg halpha, ih (a + 1) _ (by omega) (by omega)]
      simp only [if_pos (not_lt.mp halpha), List.append_assoc, List.singleton_append]

/-! ## Further claims on the track list sizing and the sampling -/

/-- C22 (as stated, refuted): with one track and a container font size of 4 px
the starting size is 4 px, below the floor: the loop tries no size, and though
the list fits at 4 px the size settled on is 6 px, not the starting size. -/
theorem adjustTracksListFontSize_start_below_floor :
    maxFontSize 1 4 = 4 ∧
      (adjustTracksListFontSize 1 4 (fun _ => true)).map ShrinkRun.currentFontSize = some 6 ∧
      (adjustTracksListFontSize 1 4 (fun _ => true)).map ShrinkRun.tried = some [] := by
  have h : maxFontSize 1 4 = 4 := by
    simp [maxFontSize, calculateTrackListFontSize]
    norm_num
  have hrun := shrinkLoop_below_floor (fun _ => true) 100 0 4 [] (by norm_num)
  refine ⟨h, ?_, ?_⟩
  · simp only [adjustTracksListFontSize, h, hrun]
    norm_num
  · simp only [adjustTracksListFontSize, h, hrun]
    norm_num

/-- C22 (amended): with `start = min (baseEm n * F, 18)`, the size settled on
is the first candidate `start - i / 2` of at least 6 that fits, and 6 when no
such candidate fits; so when the list fits at `start` and `start ≥ 6` the
result is `start`, and when the result exceeds 6 the list fits at it and every
larger candidate overflowed. -/
theorem adjustTracksListFontSize_first_fit (n : Nat) (F : ℚ) (fits : ℚ → Bool)
    (hn : 1 ≤ n) :
    ∃ run, adjustTracksListFontSize n F fits = some run ∧
      (∀ i : Nat, 6 ≤ maxFontSize n F - (i : ℚ) / 2 →
        fits (maxFontSize n F - (i : ℚ) / 2) = true →
        (∀ j : Nat, j < i → fits (maxFontSize n F - (j : ℚ) / 2) = false) →
        run.currentFontSize = maxFontSize n F - (i : ℚ) / 2) ∧
      ((∀ i : Nat, 6 ≤ maxFontSize n F - (i : ℚ) / 2 →
          fits (maxFontSize n F - (i : ℚ) / 2) = false) →
        run.currentFontSize = 6) ∧
      (6 ≤ maxFontSize n F → fits (maxFontSize n F) = true →
        run.currentFontSize = maxFontSize n F) ∧
      (6 < run.currentFontSize →
        fits run.currentFontSize = true ∧
        ∀ j : Nat, run.currentFontSize < maxFontSize n F - (j : ℚ) / 2 →
          fits (maxFontSize n F - (j : ℚ) / 2) = false) := by
  have h0 : n ≠ 0 := by omega
  have h18 := maxFontSize_le n F
  -- the value settled on, in the two cases
  have hfirst : ∀ i : Nat, 6 ≤ maxFontSize n F - (i : ℚ) / 2 →
      fits (maxFontSize n F - (i : ℚ) / 2) = true →
      (∀ j : Nat, j < i → fits (maxFontSize n F - (j : ℚ) / 2) = false) →
      adjustTracksListFontSize n F fits = some (shrinkLoop fits 100 0 (maxFontSize n F) []) ∧
        (shrinkLoop fits 100 0 (maxFontSize n F) []).currentFontSize =
          maxFontSize n F - (i : ℚ) / 2 := by
    intro i h6 hfit hnone
    have hi : i < 100 := by
      by_contra hcon
      have : (100 : ℚ) ≤ (i : ℚ) := by exact_mod_cast not_lt.mp hcon
      linarith
    have hcur := shrinkLoop_first_fit fits i 100 0 (maxFontSize n F) [] hi h6 hfit hnone
    refine ⟨?_, hcur⟩
    have hnot : ¬ (shrinkLoop fits 100 0 (maxFontSize n F) []).currentFontSize < 6 := by
      rw [hcur]
      exact not_lt.mpr h6
    simp only [adjustTracksListFontSize, if_neg h0, if_neg hnot]
  have hnonefit : (∀ i : Nat, 6 ≤ maxFontSize n F - (i : ℚ) / 2 →
        fits (maxFontSize n F - (i : ℚ) / 2) = false) →
      adjustTracksListFontSize n F fits =
        some { shrinkLoop fits 100 0 (maxFontSize n F) [] with currentFontSize := 6 } := by
    intro hnone
    have hlow := shrinkLoop_no_fit fits 100 0 (maxFontSize n F) [] hnone (by
      push_cast
      linarith)
    simp only [adjustTracksListFontSize, if_neg h0, if_pos hlow]
  by_cases hex : ∃ i : Nat, 6 ≤ maxFontSize n F - (i : ℚ) / 2 ∧
      fits (maxFontSize n F - (i : ℚ) / 2) = true
  · -- the first fitting candidate
    classical
    have hmin : ∀ j : Nat, j < Nat.find hex → fits (maxFontSize n F - (j : ℚ) / 2) = false := by
      intro j hj
      have hnot := Nat.find_min hex hj
      have h6 : 6 ≤ maxFontSize n F - (j : ℚ) / 2 := by
        have hle : (j : ℚ) ≤ (Nat.find hex : ℚ) := by exact_mod_cast le_of_lt hj
        have := (Nat.find_spec hex).1
        linarith
      cases hfj : fits (maxFontSize n F - (j : ℚ) / 2) with
      | false => rfl
      | true => exact absurd ⟨h6, hfj⟩ hnot
    obtain ⟨hrun, hcur⟩ := hfirst (Nat.find hex) (Nat.find_spec hex).1 (Nat.find_spec hex).2 hmin
    refine ⟨_, hrun, ?_, ?_, ?_, ?_⟩
    · intro i h6 hfit hnone
      exact (hfirst i h6 hfit hnone).2
    · intro hnone
      have := hnone (Nat.find hex) (Nat.find_spec hex).1
      rw [(Nat.find_spec hex).2] at this
      exact absurd this (by simp)
    · intro h6 hfit
      have := (hfirst 0 (by simpa using h6) (by simpa using hfit)
        (fun j hj => absurd hj (Nat.not_lt_zero j))).2
      simpa using this
    · intro _
      rw [hcur]
      refine ⟨(Nat.find_spec hex).2, ?_⟩
      intro j hj
      apply hmin
      by_contra hcon
      have hle : (Nat.find hex : ℚ) ≤ (j : ℚ) := by exact_mod_cast not_lt.mp hcon
      linarith
  · -- no candidate fits
    have hnone : ∀ i : Nat, 6 ≤ maxFontSize n F - (i : ℚ) / 2 →
        fits (maxFontSize n F - (i : ℚ) / 2) = false := by
      intro i h6
      cases hfi : fits (maxFontSize n F - (i : ℚ) / 2) with
      | false => rfl
      | true => exact absurd ⟨i, h6, hfi⟩ hex
    refine ⟨_, hnonefit hnone, ?_, ?_, ?_, ?_⟩
    · intro i h6 hfit _
      rw [hnone i h6] at hfit
      exact absurd hfit (by simp)
    · intro _
      rfl
    · intro h6 hfit
      have := hnone 0 (by simpa using h6)
      simp only [Nat.cast_zero, zero_div, sub_zero] at this
      rw [this] at hfit
      exact absurd hfit (by simp)
    · intro hgt
      exact absurd hgt (lt_irrefl _)

theorem adjustTracksListFontSize_first_fit_witness :
    ∃ run, adjustTracksListFontSize 12 16 (fun s => decide (s ≤ 10)) = some run ∧
      (∀ i : Nat, 6 ≤ maxFontSize 12 16 - (i : ℚ) / 2 →
        (fun s : ℚ => decide (s ≤ 10)) (maxFontSize 12 16 - (i : ℚ) / 2) = true →
        (∀ j : Nat, j < i →
          (fun s : ℚ => decide (s ≤ 10)) (maxFontSize 12 16 - (j : ℚ) / 2) = false) →
        run.currentFontSize = maxFontSize 12 16 - (i : ℚ) / 2) ∧
      ((∀ i : Nat, 6 ≤ maxFontSize 12 16 - (i : ℚ) / 2 →
          (fun s : ℚ => decide (s ≤ 10)) (maxFontSize 12 16 - (i : ℚ) / 2) = false) →
        run.currentFontSize = 6) ∧
      (6 ≤ maxFontSize 12 16 → (fun s : ℚ => decide (s ≤ 10)) (maxFontSize 12 16) = true →
        run.currentFontSize = maxFontSize 12 16) ∧
      (6 < run.currentFontSize →
        (fun s : ℚ => decide (s ≤ 10)) run.currentFontSize = true ∧
        ∀ j : Nat, run.currentFontSize < maxFontSize 12 16 - (j : ℚ) / 2 →
          (fun s : ℚ => decide (s ≤ 10)) (maxFontSize 12 16 - (j : ℚ) / 2) = false) :=
  adjustTracksListFontSize_first_fit 12 16 (fun s => decide (s ≤ 10)) (by decide)

/-- C30: for every track count, container font size and overflow test, the
shrink loop of `adjustTracksListFontSize` runs its body at most 25 times, its
counter stays below `maxIterations = 100`, and it stops because a size fits
or because the size fell below 6. -/
theorem shrinkLoop_at_most_25_rounds (n : Nat) (F : ℚ) (fits : ℚ → Bool) :
    (shrinkLoop fits 100 0 (maxFontSize n F) []).tried.length ≤ 25 ∧
      (shrinkLoop fits 100 0 (maxFontSize n F) []).iterations < 100 ∧
      ((shrinkLoop fits 100 0 (maxFontSize n F) []).currentFontSize < 6 ∨
        fits (shrinkLoop fits 100 0 (maxFontSize n F) []).currentFontSize = true) ∧
      ∀ run, adjustTracksListFontSize n F fits = some run →
        run.tried = (shrinkLoop fits 100 0 (maxFontSize n F) []).tried ∧
        run.iterations = (shrinkLoop fits 100 0 (maxFontSize n F) []).iterations := by
  have h18 := maxFontSize_le n F
  obtain ⟨h1, h2, h3⟩ := shrinkLoop_count fits 25 100 0 (maxFontSize n F) [] (by decide) (by
    push_cast
    linarith)
  simp only [List.length_nil, Nat.zero_add] at h1 h2
  refine ⟨h1, by omega, h3, ?_⟩
  intro run hrun
  simp only [adjustTracksListFontSize] at hrun
  split at hrun
  · simp at hrun
  · split at hrun
    · simp only [Option.some.injEq] at hrun
      subst hrun
      exact ⟨rfl, rfl⟩
    · simp only [Option.some.injEq] at hrun
      subst hrun
      exact ⟨rfl, rfl⟩

/-- C26: on an RGBA buffer the sample list of `extractColorPalette` is the
list of `(r, g, b)` of the pixels at pixel indices 0, 10, 20, ... whose alpha
is at least 128, in buffer order; alpha 128 is kept and alpha 127 is
dropped. -/
theorem colorSamples_eq_visitedSamples (pixels : List Nat) (hwf : pixels.length % 4 = 0) :
    colorSamples pixels = visitedSamples pixels ∧
      (∀ r g b : Nat, colorSamples [r, g, b, 128] = [{ r := r, g := g, b := b }]) ∧
      (∀ r g b : Nat, colorSamples [r, g, b, 127] = []) := by
  refine ⟨?_, ?_, ?_⟩
  · have hcount : (pixels.length / 4 + 9) / 10 = (pixels.length + 39) / 40 := by omega
    have h := sampleLoop_eq_filterMap pixels ((pixels.length + 39) / 40) 0 [] (by omega)
      (by omega)
    simp only [Nat.mul_zero, List.nil_append] at h
    rw [colorSamples, h, visitedSamples, hcount, List.range_eq_range']
  · intro r g b
    have h40 : ∀ acc, sampleLoop [r, g, b, 128] (0 + 40) acc = acc := fun acc => by
      rw [sampleLoop_unfold, if_neg (by simp)]
    rw [colorSamples, sampleLoop_unfold]
    simp [h40]
  · intro r g b
    have h40 : ∀ acc, sampleLoop [r, g, b, 127] (0 + 40) acc = acc := fun acc => by
      rw [sampleLoop_unfold, if_neg (by simp)]
    rw [colorSamples, sampleLoop_unfold]
    simp [h40]

theorem colorSamples_eq_visitedSamples_witness :
    colorSamples [1, 2, 3, 128, 4, 5, 6, 255] = visitedSamples [1, 2, 3, 128, 4, 5, 6, 255] ∧
      (∀ r g b : Nat, colorSamples [r, g, b, 128] = [{ r := r, g := g, b := b }]) ∧
      (∀ r g b : Nat, colorSamples [r, g, b, 127] = []) :=
  colorSamples_eq_visitedSamples [1, 2, 3, 128, 4, 5, 6, 255] (by decide)

/-! ## Lemmas on the assignment and the update of the centroids -/

theorem colorDistanceSq_nonneg (c1 c2 : Color) : 0 ≤ colorDistanceSq c1 c2 := by
  unfold colorDistanceSq
  have h1 := mul_self_nonneg ((c1.r : Int) - (c2.r : Int))
  have h2 := mul_self_nonneg ((c1.g : Int) - (c2.g : Int))
  have h3 := mul_self_nonneg ((c1.b : Int) - (c2.b : Int))
  simp only []
  omega

theorem colorDistance_eq (sqrt : Int → ℚ) (c1 c2 : Color) :
    colorDistance sqrt c1 c2 = sqrt (colorDistanceSq c1 c2) := rfl

/-- With a square root that is strictly increasing on the non-negative
integers, the loop comparing the distances takes the same branches as the loop
comparing the radicands. -/
theorem nearestLoopSqrt_eq (sqrt : Int → ℚ)
    (hsqrt : ∀ a b : Int, 0 ≤ a → a < b → sqrt a < sqrt b) (color : Color) :
    ∀ (cs : List Color) (idx : Nat) (md : Option Int) (nc : Nat),
      (∀ m, md = some m → 0 ≤ m) →
      nearestLoopSqrt sqrt color cs idx (md.map sqrt) nc = nearestLoop color cs idx md nc := by
  intro cs
  induction cs with
  | nil => intro idx md nc _; rfl
  | cons c rest ih =>
    intro idx md nc hmd
    have hd := colorDistanceSq_nonneg color c
    have hnext := ih (idx + 1) (some (colorDistanceSq color c)) idx (by
      intro m hm
      cases hm
      exact hd)
    cases md with
    | none =>
      simp only [nearestLoopSqrt, nearestLoop, Option.map_none', colorDistance_eq]
      exact hnext
    | some m =>
      have hm : 0 ≤ m := hmd m rfl
      simp only [nearestLoopSqrt, nearestLoop, Option.map_some', colorDistance_eq]
      by_cases hlt : colorDistanceSq color c < m
      · rw [if_pos (hsqrt _ _ hd hlt), if_pos hlt]
        exact hnext
      · have hnot : ¬ sqrt (colorDistanceSq color c) < sqrt m := by
          rcases eq_or_lt_of_le (not_lt.mp hlt) with he | hl
          · rw [he]
            exact lt_irrefl _
          · exact not_lt.mpr (le_of_lt (hsqrt _ _ hm hl))
        rw [if_neg hnot, if_neg hlt]
        exact ih (idx + 1) (some m) nc hmd

/-- The loop over the centroids returns the least index among those at the
least distance: `D j` is the distance to the centroid at index `j`. -/
theorem nearestLoop_argmin (color : Color) (all : List Color) (D : Nat → Int)
    (hD : ∀ (pre : List Color) (c : Color) (rest : List Color), all = pre ++ c :: rest →
      D pre.length = colorDistanceSq color c) :
    ∀ (cs pre : List Color) (md : Option Int) (nc : Nat), all = pre ++ cs →
      ((pre = [] ∧ md = none) ∨
        (nc < pre.length ∧ md = some (D nc) ∧ (∀ j, j < pre.length → D nc ≤ D j) ∧
          ∀ j, j < nc → D nc < D j)) →
      (pre ≠ [] ∨ cs ≠ []) →
      nearestLoop color cs pre.length md nc < all.length ∧
        (∀ j, j < all.length → D (nearestLoop color cs pre.length md nc) ≤ D j) ∧
        ∀ j, j < nearestLoop color cs pre.length md nc →
          D (nearestLoop color cs pre.length md nc) < D j := by
  intro cs
  induction cs with
  | nil =>
    intro pre md nc hall hinv hne
    rcases hinv with ⟨hpre, _⟩ | ⟨hnc, _, hle, hlt⟩
    · rcases hne with h | h
      · exact absurd hpre h
      · exact absurd rfl h
    · simp only [List.append_nil] at hall
      subst hall
      exact ⟨hnc, hle, hlt⟩
  | cons c rest ih =>
    intro pre md nc hall hinv _
    have hDc := hD pre c rest hall
    have hall1 : all = (pre ++ [c]) ++ rest := by simp [hall]
    have hlen1 : (pre ++ [c]).length = pre.length + 1 := by simp
    have hne1 : pre ++ [c] ≠ [] ∨ rest ≠ [] := Or.inl (by simp)
    rcases hinv with ⟨hpre, hmd⟩ | ⟨hnc, hmd, hle, hlt⟩
    · subst hmd
      have := ih (pre ++ [c]) (some (colorDistanceSq color c)) pre.length hall1 (Or.inr
        ⟨by omega, by rw [hDc], by
          intro j hj
          have hj0 : j = pre.length := by
            rw [hlen1] at hj
            subst hpre
            simp at hj ⊢
            exact hj
          rw [hj0], by
          intro j hj
          subst hpre
          simp at hj⟩) hne1
      rw [hlen1] at this
      simpa only [nearestLoop] using this
    · subst hmd
      by_cases hcmp : colorDistanceSq color c < D nc
      · have := ih (pre ++ [c]) (some (colorDistanceSq color c)) pre.length hall1 (Or.inr
          ⟨by omega, by rw [hDc], by
            intro j hj
            rw [hlen1] at hj
            rcases Nat.lt_succ_iff_lt_or_eq.mp hj with h | h
            · have := hle j h
              omega
            · rw [h], by
            intro j hj
            have := hle j hj
            omega⟩) hne1
        rw [hlen1] at this
        simpa only [nearestLoop, if_pos hcmp] using this
      · have := ih (pre ++ [c]) (some (D nc)) nc hall1 (Or.inr
          ⟨by omega, rfl, by
            intro j hj
            rw [hlen1] at hj
            rcases Nat.lt_succ_iff_lt_or_eq.mp hj with h | h
            · exact hle j h
            · rw [h]
              omega, hlt⟩) hne1
        rw [hlen1] at this
        simpa only [nearestLoop, if_neg hcmp] using this

/-- The assignment loop appends to cluster `i` the samples whose nearest
centroid has index `i`, in the order of the samples. -/
theorem assignLoop_filter (centroids : List Color) :
    ∀ (colors : List Color) (clusters out : List (List Color)),
      assignLoop centroids colors clusters = some out →
      out.length = clusters.length ∧
        ∀ i : Nat, out[i]? = (clusters[i]?).map fun cl =>
          cl ++ colors.filter fun c => decide (nearestCluster c centroids = i) := by
  intro colors
  induction colors with
  | nil =>
    intro clusters out h
    simp only [assignLoop, Option.some.injEq] at h
    subst h
    refine ⟨rfl, ?_⟩
    intro i
    cases clusters[i]? <;> simp
  | cons c rest ih =>
    intro clusters out h
    simp only [assignLoop, pushTo] at h
    split at h
    · exact absurd h (by simp)
    · rename_i cl1 hpush
      split at hpush
      · simp only [Option.some.injEq] at hpush
        subst hpush
        obtain ⟨hl, hget⟩ := ih _ out h
        refine ⟨by simpa using hl, ?_⟩
        intro i
        rw [hget i, List.getElem?_modify]
        cases clusters[i]? with
        | none => rfl
        | some cl =>
          by_cases hi : nearestCluster c centroids = i
          · simp [List.filter_cons, hi]
          · simp [List.filter_cons, hi]
      · exact absurd hpush (by simp)

/-- The value of `roundDiv` is the quotient plus one half, rounded down. -/
theorem roundDiv_eq_floor (s n : Nat) (hn : 0 < n) :
    ((roundDiv s n : Nat) : Int) = ⌊(s : ℚ) / (n : ℚ) + 1 / 2⌋ := by
  symm
  rw [Int.floor_eq_iff]
  have hq : (0 : ℚ) < (n : ℚ) := by exact_mod_cast hn
  have h1 : roundDiv s n * (2 * n) ≤ 2 * s + n := Nat.div_mul_le_self _ _
  have h2 : 2 * s + n < (roundDiv s n + 1) * (2 * n) := by
    have hpos : 0 < 2 * n := by omega
    exact (Nat.div_lt_iff_lt_mul hpos).mp (Nat.lt_succ_self _)
  have h1q : ((roundDiv s n : Nat) : ℚ) * (2 * (n : ℚ)) ≤ 2 * (s : ℚ) + (n : ℚ) := by
    exact_mod_cast h1
  have h2q : 2 * (s : ℚ) + (n : ℚ) < (((roundDiv s n : Nat) : ℚ) + 1) * (2 * (n : ℚ)) := by
    exact_mod_cast h2
  have hsum : (s : ℚ) / (n : ℚ) + 1 / 2 = (2 * (s : ℚ) + (n : ℚ)) / (2 * (n : ℚ)) := by
    field_simp
    ring
  rw [hsum]
  push_cast
  constructor
  · rw [le_div_iff₀ (by positivity)]
    exact h1q
  · rw [div_lt_iff₀ (by positivity)]
    exact h2q

theorem sum_foldl_map (cl : List Color) :
    ∀ acc : Color,
      cl.foldl (fun acc color =>
          ({ r := acc.r + color.r, g := acc.g + color.g, b := acc.b + color.b } : Color))
        acc =
      { r := acc.r + (cl.map Color.r).sum, g := acc.g + (cl.map Color.g).sum,
        b := acc.b + (cl.map Color.b).sum } := by
  induction cl with
  | nil => intro acc; simp
  | cons x rest ih =>
    intro acc
    simp only [List.foldl_cons, ih, List.map_cons, List.sum_cons, Nat.add_assoc]

/-- The update of a centroid whose cluster is not empty: per channel the mean
of the cluster plus one half, rounded down. -/
theorem updateCentroid_mean (c : Color) (cl : List Color) (hne : cl ≠ []) :
    ((updateCentroid c cl).r : Int) =
        ⌊(((cl.map Color.r).sum : Nat) : ℚ) / (cl.length : ℚ) + 1 / 2⌋ ∧
      ((updateCentroid c cl).g : Int) =
        ⌊(((cl.map Color.g).sum : Nat) : ℚ) / (cl.length : ℚ) + 1 / 2⌋ ∧
      ((updateCentroid c cl).b : Int) =
        ⌊(((cl.map Color.b).sum : Nat) : ℚ) / (cl.length : ℚ) + 1 / 2⌋ := by
  have hpos : cl.length > 0 := List.length_pos.mpr hne
  simp only [updateCentroid, if_pos hpos, sum_foldl_map, Nat.zero_add]
  exact ⟨roundDiv_eq_floor _ _ hpos, roundDiv_eq_floor _ _ hpos, roundDiv_eq_floor _ _ hpos⟩

theorem updateCentroid_nil (c : Color) : updateCentroid c [] = c := by
  simp [updateCentroid]

/-- One more pass is the pass after the passes so far. -/
theorem kMeansIterate_succ_last (colors : List Color) (k : Nat) :
    ∀ (t : Nat) (centroids : List Color),
      kMeansIterate colors k (t + 1) centroids =
        (kMeansIterate colors k t centroids).bind (kMeansStep colors k) := by
  intro t
  induction t with
  | zero =>
    intro centroids
    simp only [kMeansIterate, Option.some_bind]
    cases kMeansStep colors k centroids <;> rfl
  | succ t ih =>
    intro centroids
    rw [kMeansIterate]
    cases h : kMeansStep colors k centroids with
    | none => simp [kMeansIterate, h]
    | some c1 =>
      simp only []
      rw [ih c1]
      conv_rhs => rw [kMeansIterate, h]

/-- Every pass keeps the number of centroids. -/
theorem kMeansIterate_length (colors : List Color) (k : Nat) (hk : 0 < k) (t : Nat)
    (centroids : List Color) (hlen : centroids.length = k) :
    ∃ out, kMeansIterate colors k t centroids = some out ∧ out.length = k := by
  have hupd : ∀ (c : Color) (cl : List Color), (fun _ : Color => True) c →
      (∀ x ∈ cl, (fun _ : Color => True) x) → (fun _ : Color => True) (updateCentroid c cl) :=
    fun _ _ _ _ => trivial
  have hP : ∀ c ∈ colors, (fun _ : Color => True) c := fun _ _ => trivial
  have hQ : ∀ c ∈ centroids, (fun _ : Color => True) c := fun _ _ => trivial
  obtain ⟨out, h1, h2, _⟩ := kMeansIterate_spec (fun _ => True) (fun _ => True) colors k
    hupd hk hP t centroids hlen hQ
  exact ⟨out, h1, h2⟩

/-- One pass from `k` centroids: the clusters exist, there are `k` of them,
and the new centroid at each index is the update of the old one with its
cluster. -/
theorem kMeansStep_clusters (colors : List Color) (k : Nat) (centroids : List Color)
    (hk : 0 < k) (hlen : centroids.length = k) :
    ∃ clusters, assignLoop centroids colors (List.replicate k []) = some clusters ∧
      clusters.length = k ∧
      kMeansStep colors k centroids = some (List.zipWith updateCentroid centroids clusters) ∧
      ∀ i : Nat, i < k → ∃ c cl, centroids[i]? = some c ∧ clusters[i]? = some cl ∧
        (List.zipWith updateCentroid centroids clusters)[i]? = some (updateCentroid c cl) := by
  have hP : ∀ c ∈ colors, (fun _ : Color => True) c := fun _ _ => trivial
  have hcl : ∀ cl ∈ List.replicate k ([] : List Color), ∀ x ∈ cl,
      (fun _ : Color => True) x := fun _ _ _ _ => trivial
  obtain ⟨clusters, h1, h2, _⟩ := assignLoop_spec (fun _ => True) centroids colors
    (List.replicate k []) (by omega) (by simp [hlen]) hP hcl
  have hlc : clusters.length = k := by simpa using h2
  refine ⟨clusters, h1, hlc, by simp [kMeansStep, h1], ?_⟩
  intro i hi
  have hi1 : i < centroids.length := by omega
  have hi2 : i < clusters.length := by omega
  refine ⟨centroids[i], clusters[i], List.getElem?_eq_getElem hi1,
    List.getElem?_eq_getElem hi2, ?_⟩
  rw [List.getElem?_zipWith, List.getElem?_eq_getElem hi1, List.getElem?_eq_getElem hi2]

/-! ## Further claims on the clustering -/

/-- C27: with `k >= 1` centroids, the index computed for a sample is below `k`,
its centroid is at the least squared distance, and every centroid of lower
index is strictly farther; the assignment loop succeeds and cluster `i` is
exactly the samples whose index is `i`, in order, so each sample is in exactly
one cluster; and with a square root that is strictly increasing on the
non-negative integers the comparison of the distances `colorDistance` selects
the same index. -/
theorem nearest_centroid_assignment (colors centroids : List Color) (k : Nat)
    (sqrt : Int → ℚ) (hk : 1 ≤ k) (hlen : centroids.length = k)
    (hsqrt : ∀ a b : Int, 0 ≤ a → a < b → sqrt a < sqrt b) :
    (∀ color : Color,
      nearestCluster color centroids < k ∧
      (∀ j, j < k →
        colorDistanceSq color (centroids.getD (nearestCluster color centroids) ⟨0, 0, 0⟩) ≤
          colorDistanceSq color (centroids.getD j ⟨0, 0, 0⟩)) ∧
      (∀ j, j < nearestCluster color centroids →
        colorDistanceSq color (centroids.getD (nearestCluster color centroids) ⟨0, 0, 0⟩) <
          colorDistanceSq color (centroids.getD j ⟨0, 0, 0⟩)) ∧
      nearestLoopSqrt sqrt color centroids 0 none 0 = nearestCluster color centroids) ∧
    ∃ clusters, assignLoop centroids colors (List.replicate k []) = some clusters ∧
      clusters.length = k ∧
      ∀ i, i < k → clusters[i]? =
        some (colors.filter fun c => decide (nearestCluster c centroids = i)) := by
  constructor
  · intro color
    have hD : ∀ (pre : List Color) (c : Color) (rest : List Color),
        centroids = pre ++ c :: rest →
        (fun j => colorDistanceSq color (centroids.getD j ⟨0, 0, 0⟩)) pre.length =
          colorDistanceSq color c := by
      intro pre c rest h
      subst h
      show colorDistanceSq color ((pre ++ c :: rest).getD pre.length ⟨0, 0, 0⟩) = _
      rw [List.getD_append_right _ _ _ _ (le_refl _)]
      simp
    have hne : ([] : List Color) ≠ [] ∨ centroids ≠ [] := by
      right
      intro h
      rw [h] at hlen
      simp at hlen
      omega
    obtain ⟨h1, h2, h3⟩ := nearestLoop_argmin color centroids
      (fun j => colorDistanceSq color (centroids.getD j ⟨0, 0, 0⟩)) hD centroids [] none 0 rfl
      (Or.inl ⟨rfl, rfl⟩) hne
    simp only [List.length_nil] at h1 h2 h3
    refine ⟨hlen ▸ h1, ?_, h3, ?_⟩
    · intro j hj
      exact h2 j (hlen ▸ hj)
    · exact nearestLoopSqrt_eq sqrt hsqrt color centroids 0 none 0 (by
        intro m hm
        cases hm)
  · obtain ⟨clusters, h1, h2, _, _⟩ := kMeansStep_clusters colors k centroids (by omega) hlen
    refine ⟨clusters, h1, h2, ?_⟩
    intro i hi
    rw [(assignLoop_filter centroids colors _ clusters h1).2 i,
      List.getElem?_replicate_of_lt hi]
    simp

theorem nearest_centroid_assignment_witness :
    (∀ color : Color,
      nearestCluster color [⟨0, 0, 0⟩, ⟨255, 255, 255⟩] < 2 ∧
      (∀ j, j < 2 →
        colorDistanceSq color (([⟨0, 0, 0⟩, ⟨255, 255, 255⟩] : List Color).getD
            (nearestCluster color [⟨0, 0, 0⟩, ⟨255, 255, 255⟩]) ⟨0, 0, 0⟩) ≤
          colorDistanceSq color
            (([⟨0, 0, 0⟩, ⟨255, 255, 255⟩] : List Color).getD j ⟨0, 0, 0⟩)) ∧
      (∀ j, j < nearestCluster color [⟨0, 0, 0⟩, ⟨255, 255, 255⟩] →
        colorDistanceSq color (([⟨0, 0, 0⟩, ⟨255, 255, 255⟩] : List Color).getD
            (nearestCluster color [⟨0, 0, 0⟩, ⟨255, 255, 255⟩]) ⟨0, 0, 0⟩) <
          colorDistanceSq color
            (([⟨0, 0, 0⟩, ⟨255, 255, 255⟩] : List Color).getD j ⟨0, 0, 0⟩)) ∧
      nearestLoopSqrt (fun x => (x : ℚ)) color [⟨0, 0, 0⟩, ⟨255, 255, 255⟩] 0 none 0 =
        nearestCluster color [⟨0, 0, 0⟩, ⟨255, 255, 255⟩]) ∧
    ∃ clusters, assignLoop [⟨0, 0, 0⟩, ⟨255, 255, 255⟩] [⟨10, 10, 10⟩, ⟨250, 250, 250⟩]
        (List.replicate 2 []) = some clusters ∧
      clusters.length = 2 ∧
      ∀ i, i < 2 → clusters[i]? =
        some (([⟨10, 10, 10⟩, ⟨250, 250, 250⟩] : List Color).filter fun c =>
          decide (nearestCluster c [⟨0, 0, 0⟩, ⟨255, 255, 255⟩] = i)) :=
  nearest_centroid_assignment [⟨10, 10, 10⟩, ⟨250, 250, 250⟩] [⟨0, 0, 0⟩, ⟨255, 255, 255⟩] 2
    (fun x => (x : ℚ)) (by decide) rfl (fun a b _ h => by
      show (a : ℚ) < (b : ℚ)
      exact_mod_cast h)

/-- C28: in each of the ten passes of `kMeansClustering` with `k >= 1`, the
pass succeeds, and the centroid at each index becomes, when its cluster is not
empty, per channel the mean of the cluster rounded to the nearest integer with
halves rounded up (the floor of the mean plus one half), and stays exactly as
it was when its cluster is empty. -/
theorem centroid_update_rounded_mean (colors : List Color) (k : Nat) (rand : Nat → Nat)
    (hk : 1 ≤ k) :
    finalCentroids colors k rand = kMeansIterate colors k 10 (initCentroids colors k rand) ∧
    ∀ t : Nat, t < 10 →
      ∃ before clusters after,
        kMeansIterate colors k t (initCentroids colors k rand) = some before ∧
        assignLoop before colors (List.replicate k []) = some clusters ∧
        kMeansStep colors k before = some after ∧
        kMeansIterate colors k (t + 1) (initCentroids colors k rand) = some after ∧
        before.length = k ∧ clusters.length = k ∧ after.length = k ∧
        ∀ i : Nat, i < k → ∃ c cl c', before[i]? = some c ∧ clusters[i]? = some cl ∧
          after[i]? = some c' ∧
          (cl = [] → c' = c) ∧
          (cl ≠ [] →
            (c'.r : Int) = ⌊(((cl.map Color.r).sum : Nat) : ℚ) / (cl.length : ℚ) + 1 / 2⌋ ∧
            (c'.g : Int) = ⌊(((cl.map Color.g).sum : Nat) : ℚ) / (cl.length : ℚ) + 1 / 2⌋ ∧
            (c'.b : Int) = ⌊(((cl.map Color.b).sum : Nat) : ℚ) / (cl.length : ℚ) + 1 / 2⌋) := by
  refine ⟨rfl, ?_⟩
  intro t _
  have hk0 : 0 < k := by omega
  obtain ⟨before, hb, hbl⟩ := kMeansIterate_length colors k hk0 t
    (initCentroids colors k rand) (initCentroids_length colors k rand)
  obtain ⟨clusters, hc, hcl, hstep, hget⟩ := kMeansStep_clusters colors k before hk0 hbl
  refine ⟨before, clusters, _, hb, hc, hstep, ?_, hbl, hcl, ?_, ?_⟩
  · rw [kMeansIterate_succ_last, hb, Option.some_bind, hstep]
  · simp [hbl, hcl]
  · intro i hi
    obtain ⟨c, cl, h1, h2, h3⟩ := hget i hi
    refine ⟨c, cl, _, h1, h2, h3, ?_, ?_⟩
    · intro hnil
      rw [hnil, updateCentroid_nil]
    · intro hne
      exact updateCentroid_mean c cl hne

theorem centroid_update_rounded_mean_witness :
    finalCentroids [⟨10, 20, 30⟩, ⟨11, 21, 30⟩] 2 (fun _ => 0) =
      kMeansIterate [⟨10, 20, 30⟩, ⟨11, 21, 30⟩] 2 10
        (initCentroids [⟨10, 20, 30⟩, ⟨11, 21, 30⟩] 2 (fun _ => 0)) ∧
    ∀ t : Nat, t < 10 →
      ∃ before clusters after,
        kMeansIterate [⟨10, 20, 30⟩, ⟨11, 21, 30⟩] 2 t
          (initCentroids [⟨10, 20, 30⟩, ⟨11, 21, 30⟩] 2 (fun _ => 0)) = some before ∧
        assignLoop before [⟨10, 20, 30⟩, ⟨11, 21, 30⟩] (List.replicate 2 []) = some clusters ∧
        kMeansStep [⟨10, 20, 30⟩, ⟨11, 21, 30⟩] 2 before = some after ∧
        kMeansIterate [⟨10, 20, 30⟩, ⟨11, 21, 30⟩] 2 (t + 1)
          (initCentroids [⟨10, 20, 30⟩, ⟨11, 21, 30⟩] 2 (fun _ => 0)) = some after ∧
        before.length = 2 ∧ clusters.length = 2 ∧ after.length = 2 ∧
        ∀ i : Nat, i < 2 → ∃ c cl c', before[i]? = some c ∧ clusters[i]? = some cl ∧
          after[i]? = some c' ∧
          (cl = [] → c' = c) ∧
          (cl ≠ [] →
            (c'.r : Int) = ⌊(((cl.map Color.r).sum : Nat) : ℚ) / (cl.length : ℚ) + 1 / 2⌋ ∧
            (c'.g : Int) = ⌊(((cl.map Color.g).sum : Nat) : ℚ) / (cl.length : ℚ) + 1 / 2⌋ ∧
            (c'.b : Int) = ⌊(((cl.map Color.b).sum : Nat) : ℚ) / (cl.length : ℚ) + 1 / 2⌋) :=
  centroid_update_rounded_mean [⟨10, 20, 30⟩, ⟨11, 21, 30⟩] 2 (fun _ => 0) (by decide)

end Poster
